import Mathlib

/-!
# go-pvt: text-parsing and DDL-reconstruction core

A shallow embedding of the report parser (`cmd/view-formatter/main.go`:
`parseViewsFile`, `formatSQL`, `formatUFile`, `formatVFile`) and of the DDL
decomposer (`cmd/pvt/main.go`: `generateAlterViewStatement`,
`handleViewAlgorithm`).

Modelling conventions.

* A Go `string` is modelled as a list of Unicode code points (`Str`).  The
  programs only search for ASCII markers, and UTF-8 is self-synchronising, so
  on well-formed UTF-8 text the byte-level library functions (`strings.Index`,
  `strings.HasPrefix`, `strings.Replace`, ...) agree with their code-point
  level counterparts used here.  Strings holding invalid UTF-8 are outside the
  model.
* A Go `int` holding a string index is an `Int`; the "not found" sentinel of
  `strings.Index` is `-1`.
* A Go slice expression `s[a:b]` panics when the bounds are out of range; the
  model returns `none` there and the callers turn it into `Outcome.panic`.
* File and database access is abstracted: `parseViewsFile` receives the lines
  of the opened file (the texts between its line feeds) and reads them as
  `bufio.Scanner` does, up to the first line that does not fit the scanner's
  buffer; `generateAlterViewStatement` receives the outcome of the
  `SHOW CREATE VIEW` query.
-/

namespace GoPvt

/-- A Go string, as its sequence of code points. -/
abbrev Str := List Char

/-! ## The Go standard-library functions used by the program -/

/-- The predicate `unicode.IsSpace`: the Unicode White_Space code points. -/
def isSpace (c : Char) : Bool :=
  let n := c.toNat
  (9 ≤ n && n ≤ 13) || n = 32 || n = 0x85 || n = 0xA0 || n = 0x1680 ||
  (0x2000 ≤ n && n ≤ 0x200A) || n = 0x2028 || n = 0x2029 || n = 0x202F ||
  n = 0x205F || n = 0x3000

/-- Leading white space removed (`strings.TrimLeftFunc(s, unicode.IsSpace)`). -/
def trimLeftSpace (s : Str) : Str := s.dropWhile isSpace

/-- Trailing white space removed (`strings.TrimRightFunc(s, unicode.IsSpace)`). -/
def trimRightSpace (s : Str) : Str := (s.reverse.dropWhile isSpace).reverse

/-- The function `strings.TrimSpace`. -/
def trimSpace (s : Str) : Str := trimRightSpace (trimLeftSpace s)

/-- The function `strings.HasPrefix(s, p)`. -/
def hasPrefix (s p : Str) : Bool := p.isPrefixOf s

/-- The function `strings.HasSuffix(s, p)`. -/
def hasSuffix (s p : Str) : Bool := p.reverse.isPrefixOf s.reverse

/-- The function `strings.TrimPrefix(s, p)`. -/
def trimPrefix (s p : Str) : Str := if hasPrefix s p then s.drop p.length else s

/-- Worker of `splitOn`: `cur` is the part being read, in reverse. -/
def splitAux (sep : Char) : Str → Str → List Str
  | [], cur => [cur.reverse]
  | c :: s, cur => if c = sep then cur.reverse :: splitAux sep s [] else splitAux sep s (c :: cur)

/-- The function `strings.Split(s, sep)` for a one-character separator. -/
def splitOn (sep : Char) (s : Str) : List Str := splitAux sep s []

/-- The function `strings.Join(parts, sep)`. -/
def joinWith (sep : Str) : List Str → Str
  | [] => []
  | [a] => a
  | a :: b :: rest => a ++ sep ++ joinWith sep (b :: rest)

/-- Position of the first occurrence of `sub` in `s`, if any. -/
def indexOf? (sub : Str) : Str → Option Nat
  | [] => if sub.isEmpty then some 0 else none
  | c :: s =>
    if sub.isPrefixOf (c :: s) then some 0
    else (indexOf? sub s).map (· + 1)

/-- The function `strings.Index(s, sub)`, with its `-1` sentinel. -/
def index (s sub : Str) : Int :=
  match indexOf? sub s with
  | some i => (i : Int)
  | none => -1

/-- The slice expression `s[a:]`; `none` is the run-time panic of an
out-of-range bound. -/
def sliceFrom (s : Str) (a : Int) : Option Str :=
  if 0 ≤ a ∧ a ≤ s.length then some (s.drop a.toNat) else none

/-- The slice expression `s[a:b]`; `none` is the run-time panic of
out-of-range bounds. -/
def slice (s : Str) (a b : Int) : Option Str :=
  if 0 ≤ a ∧ a ≤ b ∧ b ≤ s.length then some ((s.take b.toNat).drop a.toNat) else none

/-- The call `strings.Replace(s, old, new, 1)` for a non-empty `old`: the
first occurrence of `old` is replaced. -/
def replaceFirst (old new : Str) : Str → Str
  | [] => []
  | c :: s =>
    if old.isPrefixOf (c :: s) then new ++ (c :: s).drop old.length
    else c :: replaceFirst old new s

/-- The number of bytes of the UTF-8 encoding of a code point. -/
def utf8Size (c : Char) : Nat :=
  if c.toNat < 0x80 then 1 else if c.toNat < 0x800 then 2 else if c.toNat < 0x10000 then 3 else 4

/-- The length of a Go string: the number of bytes of its UTF-8 encoding. -/
def byteLength (s : Str) : Nat := (s.map utf8Size).sum

/-- The constant `bufio.MaxScanTokenSize`, the size the buffer of a
`bufio.Scanner` grows to when `Buffer` is not called. -/
def maxScanTokenSize : Nat := 64 * 1024

/-- The message of `bufio.ErrTooLong`. -/
def errTooLong : Str := "bufio.Scanner: token too long".toList

/-- The function `dropCR` of `bufio.ScanLines`: a final carriage return is
removed. -/
def dropCR (line : Str) : Str := if line.getLast? = some '\r' then line.dropLast else line

/-- A line of the file that a scanner with the default buffer can read: the
line and the line feed after it fit the buffer, so the line, its carriage
return included, has fewer than `maxScanTokenSize` bytes. -/
def scannable (line : Str) : Bool := byteLength line < maxScanTokenSize

/-- The calls `scanner.Scan()` and `scanner.Text()` over the lines of a file,
and `scanner.Err()` after them: the lines are yielded in order, each without
its final carriage return, up to the first line that does not fit the buffer,
where the scanner stops with `bufio.ErrTooLong`. -/
def scanLines : List Str → List Str × Option Str
  | [] => ([], none)
  | line :: rest =>
    if scannable line then (dropCR line :: (scanLines rest).1, (scanLines rest).2)
    else ([], some errTooLong)

/-! ## Report parser (`cmd/view-formatter/main.go`) -/

/-- The record type `ViewInfo`. -/
structure ViewInfo where
  Database : Str
  ViewName : Str
  CreateSQL : Str
  AlterSQL : Str
  Server : Str
deriving DecidableEq, Repr

/-- The local variables of `parseViewsFile` that live across loop
iterations. -/
structure ParseState where
  views : List ViewInfo
  currentServer : Str
  currentDatabase : Str
  currentView : ViewInfo
  inCreateSection : Bool
  inAlterSection : Bool
  createSQL : Str
  alterSQL : Str
  createSeparatorSeen : Bool
  alterSeparatorSeen : Bool
  waitForCreateSeparator : Bool
  waitForAlterSeparator : Bool
deriving DecidableEq, Repr

/-- The zero values the variables of `parseViewsFile` start with. -/
def ParseState.init : ParseState :=
  { views := [], currentServer := [], currentDatabase := [],
    currentView := ⟨[], [], [], [], []⟩,
    inCreateSection := false, inAlterSection := false,
    createSQL := [], alterSQL := [],
    createSeparatorSeen := false, alterSeparatorSeen := false,
    waitForCreateSeparator := false, waitForAlterSeparator := false }

/-- The "save the view" block: the current view, with its two buffers
trimmed, is appended to the result when its name is not empty. -/
def saveView (st : ParseState) : List ViewInfo :=
  if st.currentView.ViewName ≠ [] then
    st.views ++ [{ st.currentView with
      CreateSQL := trimSpace st.createSQL, AlterSQL := trimSpace st.alterSQL }]
  else st.views

/-- A `strings.Builder` write of one captured line, preceded by a newline
when the buffer is not empty. -/
def appendLine (buf line : Str) : Str :=
  if buf.length > 0 then buf ++ ['\n'] ++ line else line

/-- One iteration of the scanning loop of `parseViewsFile` on the raw line
`raw`. -/
def parseStep (st : ParseState) (raw : Str) : ParseState :=
  let line := trimSpace raw
  if hasPrefix line "Source server:".toList then
    let parts := splitOn ',' line
    match parts with
    | p0 :: p1 :: _ =>
      { st with
        currentServer := trimSpace (trimPrefix p0 "Source server:".toList),
        currentDatabase := trimPrefix (trimSpace p1) "Database: ".toList }
    | _ => st
  else if hasPrefix line "Processing view:".toList then
    { st with
      views := saveView st,
      currentView :=
        { Database := st.currentDatabase,
          ViewName := trimSpace (trimPrefix line "Processing view:".toList),
          CreateSQL := [], AlterSQL := [],
          Server := st.currentServer },
      createSQL := [], alterSQL := [],
      inCreateSection := false, inAlterSection := false,
      createSeparatorSeen := false, alterSeparatorSeen := false,
      waitForCreateSeparator := false, waitForAlterSeparator := false }
  else if line = "Create Statement:".toList then
    { st with inCreateSection := true, inAlterSection := false,
              waitForCreateSeparator := true }
  else if line = "ALTER VIEW Statement:".toList then
    { st with inCreateSection := false, inAlterSection := true,
              waitForAlterSeparator := true }
  else if hasPrefix line "---".toList then
    if st.inCreateSection && st.waitForCreateSeparator then
      { st with waitForCreateSeparator := false, createSeparatorSeen := true }
    else if st.inCreateSection && st.createSeparatorSeen then
      { st with inCreateSection := false }
    else if st.inAlterSection && st.waitForAlterSeparator then
      { st with waitForAlterSeparator := false, alterSeparatorSeen := true }
    else if st.inAlterSection && st.alterSeparatorSeen then
      { st with inAlterSection := false }
    else st
  else if hasPrefix line "Connected to".toList || hasPrefix line "Object:".toList
      || hasPrefix line "Type:".toList then
    st
  else
    let st1 :=
      if st.inCreateSection && st.createSeparatorSeen && line ≠ [] then
        { st with createSQL := appendLine st.createSQL line }
      else st
    if st1.inAlterSection && st1.alterSeparatorSeen && line ≠ [] then
      { st1 with alterSQL := appendLine st1.alterSQL line }
    else st1

/-- The scanning loop of `parseViewsFile` on the lines the scanner yields,
then the block that saves the last view. -/
def parseLines (scanned : List Str) : List ViewInfo :=
  saveView (scanned.foldl parseStep ParseState.init)

/-- The function `parseViewsFile` on the lines of the opened file: the
records built from the lines the scanner yields, and `scanner.Err()`. -/
def parseViewsFile (lines : List Str) : List ViewInfo × Option Str :=
  (parseLines (scanLines lines).1, (scanLines lines).2)

/-! ## Script emitter (`cmd/view-formatter/main.go`) -/

/-- The RE2 class `\s`: tab, newline, form feed, carriage return, space. -/
def isReSpace (c : Char) : Bool :=
  c = '\t' || c = '\n' || c = '\x0c' || c = '\r' || c = ' '

/-- The RE2 class `\w`: ASCII letters, digits and the underscore. -/
def isWordChar (c : Char) : Bool :=
  ('a' ≤ c && c ≤ 'z') || ('A' ≤ c && c ≤ 'Z') || ('0' ≤ c && c ≤ '9') || c = '_'

/-- Lower-case form of an ASCII letter; other characters are unchanged. -/
def asciiLower (c : Char) : Char :=
  if 'A' ≤ c && c ≤ 'Z' then Char.ofNat (c.toNat + 32) else c

/-- A literal character `k` of a pattern compiled with the flag `(?i)`
matches the text character `c`: the two are in the same simple case-folding
orbit.  For an ASCII letter the orbit is its two cases, with the long s
(U+017F) added for `s` and the Kelvin sign (U+212A) for `k`; any other ASCII
character matches itself only. -/
def foldMatch (k c : Char) : Bool :=
  c = k || asciiLower c = asciiLower k ||
  (asciiLower k = 's' && c.toNat = 0x17F) || (asciiLower k = 'k' && c.toNat = 0x212A)

/-- The literal `kw` matches, case-insensitively, at the start of `t`. -/
def matchesHere : Str → Str → Bool
  | [], _ => true
  | _ :: _, [] => false
  | k :: ks, c :: t => foldMatch k c && matchesHere ks t

/-- The assertion `\b` between a character and its successor (`none` is the
start or the end of the text). -/
def isBoundary (before after : Option Char) : Bool :=
  (before.map isWordChar).getD false != (after.map isWordChar).getD false

/-- The pattern `(?i)\bkw\b` matches at the start of the non-empty text `t`
whose preceding character is `prev`. -/
def kwMatchAt (kw : Str) (prev : Option Char) (t : Str) : Bool :=
  matchesHere kw t && isBoundary prev t.head? &&
  isBoundary (t.take kw.length).getLast? (t.drop kw.length).head?

/-- The replacement text of a keyword: a line break, four spaces, the keyword
as written in the keyword list. -/
def breakBefore (kw : Str) : Str := '\n' :: ' ' :: ' ' :: ' ' :: ' ' :: kw

/-- Worker of `replaceKw`: `skip` characters still belong to the match just
replaced, `prev` is the character before the current position. -/
def replaceKwAux (kw : Str) : Nat → Option Char → Str → Str
  | _, _, [] => []
  | skip + 1, _, c :: t => replaceKwAux kw skip (some c) t
  | 0, prev, c :: t =>
    if kwMatchAt kw prev (c :: t) then
      breakBefore kw ++ replaceKwAux kw (kw.length - 1) (some c) t
    else c :: replaceKwAux kw 0 (some c) t

/-- The call `regexp.MustCompile("(?i)\\b" + kw + "\\b").ReplaceAllString(sql,
"\n    " + kw)` for a keyword `kw` made of letters and spaces: every match,
found left to right without overlap, is replaced. -/
def replaceKw (kw : Str) (sql : Str) : Str := replaceKwAux kw 0 none sql

/-- Worker of `collapseWs`: `inRun` tells that the previous character was
white space, already replaced. -/
def collapseWsAux : Bool → Str → Str
  | _, [] => []
  | inRun, c :: t =>
    if isReSpace c then
      if inRun then collapseWsAux true t else ' ' :: collapseWsAux true t
    else c :: collapseWsAux false t

/-- The call ``regexp.MustCompile(`\s+`).ReplaceAllString(sql, " ")``. -/
def collapseWs (sql : Str) : Str := collapseWsAux false sql

/-- Length of the match of `\s*\n` at the start of `t`: the leading run of
white space is cut after its last newline; `0` when it holds no newline.
`seen` counts the characters read so far. -/
def blankSpanAux : Nat → Str → Nat
  | _, [] => 0
  | seen, c :: t =>
    if isReSpace c then
      let later := blankSpanAux (seen + 1) t
      if later ≠ 0 then later else if c = '\n' then seen + 1 else 0
    else 0

/-- Worker of `collapseBlank`: `skip` characters still belong to the match
just replaced. -/
def collapseBlankAux : Nat → Str → Str
  | _, [] => []
  | skip + 1, _ :: t => collapseBlankAux skip t
  | 0, c :: t =>
    if c = '\n' ∧ blankSpanAux 0 t ≠ 0 then '\n' :: collapseBlankAux (blankSpanAux 0 t) t
    else c :: collapseBlankAux 0 t

/-- The call ``regexp.MustCompile(`\n\s*\n`).ReplaceAllString(sql, "\n")``. -/
def collapseBlank (sql : Str) : Str := collapseBlankAux 0 sql

/-- The call `strings.TrimRight(line, " ")`. -/
def trimRightBlank (line : Str) : Str := (line.reverse.dropWhile (· = ' ')).reverse

/-- The loop that splits the text into lines, right-trims each and joins them
again. -/
def trimLines (sql : Str) : Str := joinWith ['\n'] ((splitOn '\n' sql).map trimRightBlank)

/-- The keyword list of `formatSQL`, in its order. -/
def keywords : List Str :=
  ["ALTER".toList, "ALGORITHM".toList, "DEFINER".toList, "SQL SECURITY".toList,
   "VIEW".toList, "AS select".toList, "from".toList, "join".toList,
   "left join".toList, "where".toList, "group by".toList, "having".toList,
   "order by".toList]

/-- The keyword loop of `formatSQL`. -/
def breakKeywords (sql : Str) : Str := keywords.foldl (fun acc kw => replaceKw kw acc) sql

/-- The final step of `formatSQL`: a semicolon is appended unless the text
ends with one. -/
def ensureSemicolon (sql : Str) : Str := if hasSuffix sql [';'] then sql else sql ++ [';']

/-- The function `formatSQL`. -/
def formatSQL (sql : Str) : Str :=
  if sql = [] then "-- ERROR: No SQL content found".toList
  else
    ensureSemicolon (trimLines (collapseBlank (trimSpace
      (breakKeywords (collapseWs (trimSpace sql))))))

/-- The statement `formatUFile` hands to `formatSQL`: the forward statement
with its first `ALTER` and its first `ALGORITHM = MERGE` substituted. -/
def rollbackSQL (view : ViewInfo) : Str :=
  replaceFirst "ALGORITHM = MERGE".toList "ALGORITHM = UNDEFINED".toList
    (replaceFirst "ALTER".toList "CREATE OR REPLACE".toList view.AlterSQL)

/-- The function `formatUFile`. -/
def formatUFile (view : ViewInfo) : Str :=
  "-- Flyway Undo Script (Rollback)\n-- Database: ".toList ++ view.Database ++
  "\n-- View: ".toList ++ view.ViewName ++
  "\n-- Changes ALGORITHM back to UNDEFINED using CREATE OR REPLACE\n\n".toList ++
  formatSQL (rollbackSQL view) ++ "\n".toList

/-- The function `formatVFile`. -/
def formatVFile (view : ViewInfo) : Str :=
  "-- Flyway Migration Script\n-- Database: ".toList ++ view.Database ++
  "\n-- View: ".toList ++ view.ViewName ++ "\n\n".toList ++
  formatSQL view.AlterSQL ++ "\n".toList

/-! ## DDL decomposer (`cmd/pvt/main.go`) -/

/-- How a call ends: with a value, with an `error` built by `fmt.Errorf`
(its message), or with a run-time panic. -/
inductive Outcome (α : Type) where
  | ok (value : α)
  | error (message : Str)
  | panic
deriving DecidableEq, Repr

/-- The three local variables `definer`, `security` and `viewDefinition` that
the marker scan of `generateAlterViewStatement` extracts. -/
structure ParsedDDL where
  definer : Str
  security : Str
  viewDefinition : Str
deriving DecidableEq, Repr

/-- The marker scan of `generateAlterViewStatement` (from the first
`strings.Index` to the slice after `" AS "`) on the `SHOW CREATE VIEW` text
`createStmt`. -/
def decompose (createStmt : Str) : Outcome ParsedDDL :=
  let definerStart := index createStmt "DEFINER=".toList
  match sliceFrom createStmt definerStart with
  | none => .panic
  | some afterDefiner =>
    let definerEnd := index afterDefiner " SQL SECURITY".toList
    if definerStart = -1 ∨ definerEnd = -1 then
      .error "could not parse view definition".toList
    else
      match slice createStmt definerStart (definerStart + definerEnd) with
      | none => .panic
      | some definer =>
        let securityStart := index createStmt "SQL SECURITY".toList
        match sliceFrom createStmt securityStart with
        | none => .panic
        | some afterSecurity =>
          let securityEnd := index afterSecurity " VIEW".toList
          if securityStart = -1 ∨ securityEnd = -1 then
            .error "could not parse SQL SECURITY setting".toList
          else
            match slice createStmt securityStart (securityStart + securityEnd) with
            | none => .panic
            | some security =>
              let asStart := index createStmt " AS ".toList
              if asStart = -1 then .error "could not find view definition".toList
              else
                match sliceFrom createStmt (asStart + 4) with
                | none => .panic
                | some viewDefinition => .ok ⟨definer, security, viewDefinition⟩

/-- The `fmt.Sprintf` call that builds the ALTER VIEW statement. -/
def composeAlter (database viewName algorithm : Str) (p : ParsedDDL) : Str :=
  "ALTER \n    ALGORITHM = ".toList ++ algorithm ++ "\n    ".toList ++ p.definer ++
  "\n    ".toList ++ p.security ++ "\n    VIEW `".toList ++ database ++ "`.`".toList ++
  viewName ++ "` AS ".toList ++ p.viewDefinition ++ ";".toList

/-- The database handle, as far as the two functions use it: `queryRow`
answers a `SHOW CREATE VIEW` query with the `Create View` column or with an
error text, `exec` runs a statement and answers with an error text on
failure. -/
structure DB where
  queryRow : Str → Except Str Str
  exec : Str → Option Str

/-- The query text of `generateAlterViewStatement`. -/
def showCreateViewQuery (database viewName : Str) : Str :=
  "SHOW CREATE VIEW `".toList ++ database ++ "`.`".toList ++ viewName ++ "`".toList

/-- The function `generateAlterViewStatement`. -/
def generateAlterViewStatement (db : DB) (database viewName algorithm : Str) : Outcome Str :=
  match db.queryRow (showCreateViewQuery database viewName) with
  | .error e => .error ("error getting view definition: ".toList ++ e)
  | .ok createStmt =>
    match decompose createStmt with
    | .ok p => .ok (composeAlter database viewName algorithm p)
    | .error e => .error e
    | .panic => .panic

/-- What `handleViewAlgorithm` does to the outside world, in order. -/
inductive Effect where
  | queried (query : Str)
  | printed (text : Str)
  | executed (stmt : Str)
deriving DecidableEq, Repr

/-- The function `strings.ToUpper`, given the per-code-point mapping
`unicode.ToUpper` as `upper`. -/
def toUpper (upper : Char → Char) (s : Str) : Str := s.map upper

/-- The mapping `unicode.ToUpper` on ASCII text. -/
def asciiUpper (c : Char) : Char :=
  if 'a' ≤ c && c ≤ 'z' then Char.ofNat (c.toNat - 32) else c

/-- The function `handleViewAlgorithm`: the effects it performs, in order,
and how it ends.  The mapping `unicode.ToUpper` of the Go library is the
parameter `upper`. -/
def handleViewAlgorithm (upper : Char → Char) (db : DB) (database viewName algorithm : Str)
    (execute : Bool) : List Effect × Outcome Unit :=
  let algorithm := toUpper upper algorithm
  if algorithm ≠ "MERGE".toList ∧ algorithm ≠ "TEMPTABLE".toList ∧
      algorithm ≠ "UNDEFINED".toList then
    ([], .error ("invalid algorithm: ".toList ++ algorithm ++
      ". Must be MERGE, TEMPTABLE, or UNDEFINED".toList))
  else
    let q := Effect.queried (showCreateViewQuery database viewName)
    match generateAlterViewStatement db database viewName algorithm with
    | .error e => ([q], .error e)
    | .panic => ([q], .panic)
    | .ok alterStmt =>
      let shown := [q, Effect.printed alterStmt]
      if execute then
        match db.exec alterStmt with
        | some e =>
          (shown ++ [Effect.executed alterStmt],
            .error ("error executing ALTER VIEW statement: ".toList ++ e))
        | none => (shown ++ [Effect.executed alterStmt], .ok ())
      else (shown, .ok ())

/-! ## Vocabulary of the transcript grammar -/

/-- A delimiter line: after trimming it starts with three dashes. -/
def isDelimiter (raw : Str) : Bool := hasPrefix (trimSpace raw) "---".toList

/-- An object-announcement line: after trimming it starts with
`Processing view:`. -/
def isAnnouncement (raw : Str) : Bool := hasPrefix (trimSpace raw) "Processing view:".toList

/-- A line of no recognised class that is not blank: the loop of
`parseViewsFile` reaches its two capture blocks with it. -/
def isBodyLine (raw : Str) : Bool :=
  let line := trimSpace raw
  line ≠ [] && !hasPrefix line "Source server:".toList &&
  !hasPrefix line "Processing view:".toList && line ≠ "Create Statement:".toList &&
  line ≠ "ALTER VIEW Statement:".toList && !hasPrefix line "---".toList &&
  !hasPrefix line "Connected to".toList && !hasPrefix line "Object:".toList &&
  !hasPrefix line "Type:".toList

/-- What the loop computes for `currentDatabase` on the line
`Source server: H, Database: D` (H and D without commas): the part after the
comma is trimmed before the label `Database: ` is cut off, so `D` loses its
trailing white space only, and the label stays when `D` is blank. -/
def databaseField (D : Str) : Str :=
  if trimRightSpace D = [] then "Database:".toList else trimRightSpace D

/-- The transcript of one view with a create section only. -/
def createTranscript (H D N d1 d2 : Str) (body : List Str) : List Str :=
  ["Source server: ".toList ++ H ++ ", Database: ".toList ++ D,
   "Processing view: ".toList ++ N, "Create Statement:".toList, d1] ++ body ++ [d2]

/-! ## Vocabulary of the marker scan -/

/-- The text `sub` occurs in `s` at position `i` and at no earlier
position. -/
def FirstAt (sub s : Str) (i : Nat) : Prop :=
  sub <+: s.drop i ∧ ∀ j < i, ¬ sub <+: s.drop j

instance (sub s : Str) (i : Nat) : Decidable (FirstAt sub s i) := by
  unfold FirstAt; infer_instance

/-! ## Vocabulary of the algorithm change -/

/-- The algorithm keywords of a view. -/
def validAlgorithms : List Str := ["MERGE".toList, "TEMPTABLE".toList, "UNDEFINED".toList]

/-- The message of the invalid-algorithm error for the keyword `algorithm`. -/
def invalidAlgorithmMessage (algorithm : Str) : Str :=
  "invalid algorithm: ".toList ++ algorithm ++ ". Must be MERGE, TEMPTABLE, or UNDEFINED".toList

/-- The `SHOW CREATE VIEW` text of the specification's example. -/
def sampleDDL : Str :=
  "CREATE ALGORITHM=MERGE DEFINER=`a`@`%` SQL SECURITY DEFINER VIEW `x` AS SELECT 1".toList

/-- A database that answers every `SHOW CREATE VIEW` query with `sampleDDL`
and executes every statement without error. -/
def sampleDB : DB := { queryRow := fun _ => .ok sampleDDL, exec := fun _ => none }

/-- The decomposition of `sampleDDL`. -/
def sampleParsed : ParsedDDL :=
  { definer := "DEFINER=`a`@`%`".toList, security := "SQL SECURITY DEFINER".toList,
    viewDefinition := "SELECT 1".toList }

/-- Four spaces, the indentation of a statement line. -/
def indent : Str := List.replicate 4 ' '

/-- The view name an object-announcement line carries: what follows
`Processing view:`, trimmed. -/
def announcedName (raw : Str) : Str :=
  trimSpace (trimPrefix (trimSpace raw) "Processing view:".toList)

/-- An object-announcement line that names a view. -/
def isNamedAnnouncement (raw : Str) : Bool := isAnnouncement raw && announcedName raw ≠ []

/-! ## Vocabulary of the rollback substitution -/

/-- Number of positions of `s` at which `sub` occurs. -/
def countOcc (sub : Str) : Str → Nat
  | [] => if sub.isEmpty then 1 else 0
  | c :: s => (if sub.isPrefixOf (c :: s) then 1 else 0) + countOcc sub s

/-- One of the two texts is a prefix of the other: they can stand at the same
position of a text. -/
def Agree (u v : Str) : Prop := u <+: v ∨ v <+: u

instance (u v : Str) : Decidable (Agree u v) := by
  unfold Agree; infer_instance

/-- No occurrence of `w` can start before an occurrence of `m` and reach into
it: no proper non-empty suffix of `w` agrees with `m`. -/
def NoStraddle (w m : Str) : Prop := ∀ d < w.length, 0 < d → ¬ Agree (w.drop d) m

instance (w m : Str) : Decidable (NoStraddle w m) := by
  unfold NoStraddle; infer_instance

/-- No occurrence of `w` can start inside an occurrence of `m`, from its
offset `from` on. -/
def NoInside (w m : Str) (start : Nat) : Prop :=
  ∀ e < m.length, start ≤ e → ¬ Agree w (m.drop e)

instance (w m : Str) (start : Nat) : Decidable (NoInside w m start) := by
  unfold NoInside; infer_instance

/-- The header `formatUFile` writes above the statement. -/
def undoHeader (view : ViewInfo) : Str :=
  "-- Flyway Undo Script (Rollback)\n-- Database: ".toList ++ view.Database ++
  "\n-- View: ".toList ++ view.ViewName ++
  "\n-- Changes ALGORITHM back to UNDEFINED using CREATE OR REPLACE\n\n".toList

/-! ## Vocabulary of the keyword scan -/

/-- Whether the character at one side of a position is a word character;
the start and the end of the text are not. -/
def wb (o : Option Char) : Bool := (o.map isWordChar).getD false

/-- A pattern character that only matches word characters: a letter, digit or
underscore whose case-folding orbit holds no other character. -/
def strictWord (k : Char) : Bool :=
  isWordChar k && isWordChar (asciiLower k) && asciiLower k ≠ 's' && asciiLower k ≠ 'k'

/-- No match of `kw` starts at a position of `a`, in the text `a ++ b` read
after the character `prev`. -/
def noHitsIn (kw : Str) : Option Char → Str → Str → Bool
  | _, [], _ => true
  | prev, c :: a, b => !kwMatchAt kw prev (c :: (a ++ b)) && noHitsIn kw (some c) a b

/-- No match of `kw` starts in the text `a` read after the character `prev`. -/
def noHits (kw : Str) (prev : Option Char) (a : Str) : Bool := noHitsIn kw prev a []

/-- The character before the position that follows `a`, when `prev` is the
character before `a`. -/
def lastOr : Option Char → Str → Option Char
  | prev, [] => prev
  | _, c :: a => lastOr (some c) a

/-- The end `u` of a keyword matches at the start of `b` and a word boundary
follows it. -/
def crossHit (u b : Str) : Bool :=
  matchesHere u b && isBoundary (b.take u.length).getLast? (b.drop u.length).head?

/-- No match of `kw` that starts before `b` can end in `b`. -/
def crossFree (kw b : Str) : Bool :=
  (List.range kw.length).all (fun i => i == 0 || !crossHit (kw.drop i) b)

/-- The line break and indentation `formatSQL` puts before a keyword. -/
def brk : Str := ['\n', ' ', ' ', ' ', ' ']

/-- Worker of the scan, by pieces: the text before the first match, and for
every match the keyword with the text up to the next match. -/
def cut (kw : Str) : Nat → Option Char → Str → Str × List (Str × Str)
  | _, _, [] => ([], [])
  | skip + 1, _, c :: t => cut kw skip (some c) t
  | 0, prev, c :: t =>
    if kwMatchAt kw prev (c :: t) then
      ([], (kw, (cut kw (kw.length - 1) (some c) t).1) :: (cut kw (kw.length - 1) (some c) t).2)
    else (c :: (cut kw 0 (some c) t).1, (cut kw 0 (some c) t).2)

/-- The text of a list of headed segments, each after a line break. -/
def brkTail : List (Str × Str) → Str
  | [] => []
  | (k, y) :: rest => brk ++ k ++ y ++ brkTail rest

/-- A necessary condition, read off the text `u` alone, for a match of `kw`
at the start of `u ++ tail` when `tail` does not start with a word
character: the match fits in `u`, or the keyword agrees with `u` and goes on
with a character that can match a non-word character. -/
def mayHit (kw : Str) (prev : Option Char) (u : Str) : Bool :=
  if kw.length ≤ u.length then kwMatchAt kw prev u
  else matchesHere (kw.take u.length) u && isBoundary prev u.head? &&
    !(((kw.drop u.length).head?.map strictWord).getD true)

/-- No position of `u` passes `mayHit`. -/
def noMay (kw : Str) : Option Char → Str → Bool
  | _, [] => true
  | prev, c :: u => !mayHit kw prev (c :: u) && noMay kw (some c) u

/-- The counterpart of `mayHit` for the end `w` of a keyword. -/
def mayCross (w u : Str) : Bool :=
  if w.length ≤ u.length then crossHit w u
  else matchesHere (w.take u.length) u &&
    !(((w.drop u.length).head?.map strictWord).getD true)

/-- No proper end of `kw` passes `mayCross` on `u`. -/
def crossOK (kw u : Str) : Bool :=
  (List.range kw.length).all (fun i => i == 0 || !mayCross (kw.drop i) u)

/-- The keywords that get a line break: `left join` never matches, because
`join` is broken before it is tried. -/
def liveKeywords : List Str := keywords.filter (fun kw => kw ≠ "left join".toList)

/-- The first character of `kw` does not match the character `c`. -/
def headMiss (kw : Str) (c : Char) : Bool := !((kw.head?.map (fun k => foldMatch k c)).getD false)

/-- What the proofs use of a keyword of `formatSQL`: it is not empty, starts
with a word character and ends with a strict one, cannot start at a space, a
newline or a semicolon, and cannot run into a line break or a semicolon. -/
def isPlain (kw : Str) : Bool :=
  !kw.isEmpty && (kw.head?.map isWordChar).getD false &&
  (kw.getLast?.map strictWord).getD false &&
  headMiss kw ' ' && headMiss kw '\n' && headMiss kw ';' &&
  crossOK kw ['\n'] && crossOK kw [' ', '\n'] && crossOK kw [';']

/-- A text in pieces: the text before the first line break, and the headed
segments, each of a keyword and the text after it. -/
abbrev Layout := Str × List (Str × Str)

/-- The text of a layout. -/
def render (l : Layout) : Str := l.1 ++ brkTail l.2

/-- The pieces of a headed segment under the scan for `kw`: the segment up to
the first match, then the new segments. -/
def cutBody (kw : Str) (seg : Str × Str) : List (Str × Str) :=
  (seg.1, (cut kw 0 (lastOr none seg.1) seg.2).1) :: (cut kw 0 (lastOr none seg.1) seg.2).2

/-- The layout after the scan for `kw`. -/
def stage (kw : Str) (l : Layout) : Layout :=
  ((cut kw 0 none l.1).1, (cut kw 0 none l.1).2 ++ l.2.flatMap (cutBody kw))

/-- No keyword of `kws` matches anywhere in the text `t` read after the
character `prev`. -/
def quiet (kws : List Str) (prev : Option Char) (t : Str) : Bool :=
  kws.all (fun kw => noHits kw prev t)

/-- The invariant of the keyword loop on the layout `l` of the text scanned
from `x`, after the keywords `kws`: the first piece starts `x`, every segment
is headed by one of the keywords that get a line break and goes on with a
piece of `x` that starts with no word character, and none of `kws` matches
in a piece. -/
def Settled (kws : List Str) (x : Str) (l : Layout) : Prop :=
  quiet kws none l.1 = true ∧ l.1 <+: x ∧
  ∀ seg ∈ l.2, seg.1 ∈ kws ∧ seg.1 ∈ liveKeywords ∧ wb seg.2.head? = false ∧
    quiet kws (lastOr none seg.1) seg.2 = true ∧ seg.2 <:+: x

/-- The text of a list of headed segments, each after the separator `sep`
gives for its keyword; `first` tells that nothing stands before the list. -/
def tailBy (sep : Bool → Str → Str) : Bool → List (Str × Str) → Str
  | _, [] => []
  | first, (k, y) :: rest => sep first k ++ k ++ y ++ tailBy sep false rest

/-- The text of a layout under the separators `sep`. -/
def textBy (sep : Bool → Str → Str) (l : Layout) : Str :=
  l.1 ++ tailBy sep (l.1 = []) l.2

/-- The separators of a formatted statement: the text `pre` and a line break
before every segment but one that starts the text. -/
def padSep (pre : Str) (first : Bool) (_ : Str) : Str := if first then [] else pre ++ brk

/-- The separators within the second run of the keyword loop, after the
keywords `done`: a space before every segment but one that starts the text,
and a line break before the segments of the keywords already scanned for. -/
def mixSep (done : List Str) (first : Bool) (k : Str) : Str :=
  (if first then [] else [' ']) ++ (if k ∈ done then brk else [])

/-- The layout invariant without its link to the scanned text. -/
def Calm (l : Layout) : Prop :=
  quiet keywords none l.1 = true ∧
  ∀ seg ∈ l.2, seg.1 ∈ liveKeywords ∧ wb seg.2.head? = false ∧
    quiet keywords (lastOr none seg.1) seg.2 = true

/-- Every white-space character of the text is a space, and no two of them
are adjacent. -/
def spaced : Str → Bool
  | [] => true
  | c :: t => (!isReSpace c || (c == ' ' && !(t.head?.map isReSpace).getD false)) && spaced t

/-- The text does not end with a character of the class `\s`. -/
def endsFirm (t : Str) : Bool := !(t.getLast?.map isReSpace).getD false

/-- The text does not end with a character `strings.TrimSpace` removes. -/
def endsSolid (t : Str) : Bool := !(t.getLast?.map isSpace).getD false

/-- The text does not start with a character `strings.TrimSpace` removes. -/
def startsFirm (t : Str) : Bool := !(t.head?.map isSpace).getD false

/-- The layout with the trailing spaces of every piece removed. -/
def trimBodies (l : Layout) : Layout :=
  (trimRightBlank l.1, l.2.map (fun seg => (seg.1, trimRightBlank seg.2)))

/-- The character `c` added to the last segment of a list. -/
def addEndSegs (c : Char) : List (Str × Str) → List (Str × Str)
  | [] => []
  | seg :: rest => if rest = [] then [(seg.1, seg.2 ++ [c])] else seg :: addEndSegs c rest

/-- The character `c` added to the last piece of a layout. -/
def addEnd (c : Char) (l : Layout) : Layout :=
  if l.2 = [] then (l.1 ++ [c], []) else (l.1, addEndSegs c l.2)

/-- The pieces of a formatted statement are single-spaced, the first starts
with no white space and none ends with white space. -/
def Neat (l : Layout) : Prop :=
  spaced l.1 = true ∧ endsFirm l.1 = true ∧ startsFirm l.1 = true ∧
  ∀ seg ∈ l.2, spaced seg.2 = true ∧ endsFirm seg.2 = true

/-! ## Vocabulary of the rollback algorithm -/

/-- The rule line `handleViewAlgorithm` prints before and after the statement:
eighty dashes. -/
def ruleLine : Str := List.replicate 80 '-'

/-- A transcript of one view of the database `sales` on `host1`: its
announcement, then what `handleViewAlgorithm` prints for the target
`algorithm` when the `SHOW CREATE VIEW` text is `sampleDDL`. -/
def alterTranscript (algorithm : Str) : List Str :=
  ["Source server: host1, Database: sales".toList, "Processing view: x".toList,
   "ALTER VIEW Statement:".toList, ruleLine] ++
  splitOn '\n' (composeAlter "sales".toList "x".toList algorithm sampleParsed) ++ [ruleLine]

/-- The record `parseViewsFile` returns for `alterTranscript algorithm`. -/
def capturedView (algorithm : Str) : ViewInfo :=
  { Database := "sales".toList, ViewName := "x".toList, CreateSQL := [],
    AlterSQL := "ALTER\nALGORITHM = ".toList ++ algorithm ++
      "\nDEFINER=`a`@`%`\nSQL SECURITY DEFINER\nVIEW `sales`.`x` AS SELECT 1;".toList,
    Server := "host1".toList }

/-! ## Vocabulary of the script artifacts -/

/-- The header `formatVFile` writes above the statement. -/
def migrationHeader (view : ViewInfo) : Str :=
  "-- Flyway Migration Script\n-- Database: ".toList ++ view.Database ++
  "\n-- View: ".toList ++ view.ViewName ++ "\n\n".toList

/-- The comment `formatSQL` returns for an empty statement. -/
def placeholder : Str := "-- ERROR: No SQL content found".toList

/-- Every non-empty line of the text starts with the comment marker `--`. -/
def AllComment (text : Str) : Prop :=
  ∀ line ∈ splitOn '\n' text, line ≠ [] → hasPrefix line "--".toList = true

instance (text : Str) : Decidable (AllComment text) := by
  unfold AllComment; infer_instance

/-- No database name and no view name of the scan holds a line break: not the
current database, not the record in progress, not a saved record. -/
def NoBreak (st : ParseState) : Prop :=
  '\n' ∉ st.currentDatabase ∧
  ('\n' ∉ st.currentView.Database ∧ '\n' ∉ st.currentView.ViewName) ∧
  ∀ v ∈ st.views, '\n' ∉ v.Database ∧ '\n' ∉ v.ViewName

/-! ## Vocabulary of the record order -/

/-- A line of a transcript, by the class the specification gives it: a
server-announcement line `Source server: H, Database: D`, an
object-announcement line `Processing view: N`, or a line of another class.
The text `pad` stands before the label. -/
inductive Entry where
  | server (pad H D : Str)
  | view (pad N : Str)
  | other (raw : Str)
deriving DecidableEq, Repr

/-- The line of the transcript an entry stands for. -/
def Entry.line : Entry → Str
  | .server pad H D => pad ++ ("Source server: ".toList ++ H ++ ", Database: ".toList ++ D)
  | .view pad N => pad ++ ("Processing view: ".toList ++ N)
  | .other raw => raw

/-- The entries the record order is stated for.  Before a label stands white
space only; in a server announcement `H` and `D` hold no comma and `D` is not
blank and starts with no white space; a line of another class is no
object-announcement line and, when it starts with `Source server:`, holds no
comma. -/
def Entry.Plain : Entry → Prop
  | .server pad H D =>
    (∀ c ∈ pad, isSpace c = true) ∧ ',' ∉ H ∧ ',' ∉ D ∧ trimLeftSpace D = D ∧ trimSpace D ≠ []
  | .view pad _ => ∀ c ∈ pad, isSpace c = true
  | .other raw =>
    isAnnouncement raw = false ∧
      (hasPrefix (trimSpace raw) "Source server:".toList = true → ',' ∉ raw)

instance (e : Entry) : Decidable e.Plain := by
  cases e <;> unfold Entry.Plain <;> infer_instance

/-- The server, the database and the name of the records a transcript
announces, as the specification words it: one record for every
object-announcement line with a non-blank name, in the order of these lines,
each with the server `H` and the database `D`, trimmed, of the most recent
server-announcement line before it; `cur` holds the server and the database
announced so far. -/
def inheritedKeys : Str × Str → List Entry → List (Str × Str × Str)
  | _, [] => []
  | _, .server _ H D :: rest => inheritedKeys (trimSpace H, trimSpace D) rest
  | cur, .view _ N :: rest =>
    if trimSpace N ≠ [] then (cur.1, cur.2, trimSpace N) :: inheritedKeys cur rest
    else inheritedKeys cur rest
  | cur, .other _ :: rest => inheritedKeys cur rest

/-- The server, the database and the name of a record. -/
def recordKey (v : ViewInfo) : Str × Str × Str := (v.Server, v.Database, v.ViewName)

/-! ## Vocabulary of the characters `formatSQL` keeps -/

/-- The text without the characters `unicode.IsSpace` counts as white
space. -/
def stripSpace (t : Str) : Str := t.filter (fun c => !isSpace c)

/-- One replaced match of a keyword: the text that was matched, the keyword
written in its place, and the text from there to the next match. -/
structure Hit where
  matched : Str
  keyword : Str
  after : Str
deriving DecidableEq, Repr

/-- The text of a list of matches before the replacement. -/
def textBefore : List Hit → Str
  | [] => []
  | o :: rest => o.matched ++ o.after ++ textBefore rest

/-- The text of a list of matches after the replacement, without the line
breaks. -/
def textAfter : List Hit → Str
  | [] => []
  | o :: rest => o.keyword ++ o.after ++ textAfter rest

/-- The headed segments of a list of matches. -/
def segments (hits : List Hit) : List (Str × Str) := hits.map (fun o => (o.keyword, o.after))

/-- The matched text is the keyword up to the case folding of the pattern:
it has the length of the keyword and the keyword matches it. -/
def Respelled (o : Hit) : Prop :=
  matchesHere o.keyword o.matched = true ∧ o.matched.length = o.keyword.length

instance (o : Hit) : Decidable (Respelled o) := by
  unfold Respelled; infer_instance

/-- The layout `l` comes from the text `x` by replacing matches: `x` is the
first piece of `l` followed by matched texts with the bodies of the segments
of `l`. -/
def Origin (x : Str) (l : Layout) : Prop :=
  ∃ hits : List Hit, segments hits = l.2 ∧ (∀ o ∈ hits, Respelled o) ∧
    x = l.1 ++ textBefore hits

/-! ## Vocabulary of the occurrences of a marker -/

/-- What a character adds to the length of a text without its white space. -/
def inkOf (c : Char) : Nat := if isSpace c then 0 else 1

/-- The positions at which `w` occurs in `s`, each given as the number of
characters other than white space that stand before the occurrence; `n` is
that number for the start of `s`. -/
def occPos (w : Str) : Nat → Str → List Nat
  | n, [] => if w.isEmpty then [n] else []
  | n, c :: s => (if w.isPrefixOf (c :: s) then [n] else []) ++ occPos w (n + inkOf c) s

/-- The pattern characters of `k` can match the characters of `u`, as far as
both texts go. -/
def fAgree : Str → Str → Bool
  | c :: u, k0 :: k => foldMatch k0 c && fAgree u k
  | _, _ => true

/-- An occurrence of `w` shares no character with a match of the keyword
`k`, unless `w` is the keyword and the match is the occurrence. -/
def Apart (w k : Str) : Prop :=
  (∀ d < w.length, 0 < d → fAgree (w.drop d) k = false) ∧
  (∀ e < k.length, 0 < e → fAgree w (k.drop e) = false) ∧
  (fAgree w k = true → k = w)

instance (w k : Str) : Decidable (Apart w k) := by
  unfold Apart; infer_instance
/-- A pattern character that is a space or a letter. -/
def letterOrSpace (k : Char) : Bool := k = ' ' || (isWordChar k && isWordChar (asciiLower k))

/-- What the proofs use of a marker `w` whose occurrences `formatSQL`
keeps: it is not empty, ends with no space and no semicolon, cannot reach
into or start inside the line break put before a keyword, and stands apart
from the matches of every keyword that gets a line break. -/
def Guarded (w : Str) : Prop :=
  w ≠ [] ∧ w.getLast? ≠ some ' ' ∧ w.getLast? ≠ some ';' ∧
  NoStraddle w brk ∧ NoInside w brk 0 ∧ ∀ k ∈ liveKeywords, Apart w k

instance (w : Str) : Decidable (Guarded w) := by
  unfold Guarded; infer_instance

/-! # Properties -/

set_option maxRecDepth 8000

/-! ## Library functions -/

theorem trimRightSpace_eq_rdropWhile (s : Str) : trimRightSpace s = s.rdropWhile isSpace := rfl

theorem trimRightSpace_append_of_ne (x y : Str) (h : trimRightSpace y ≠ []) :
    trimRightSpace (x ++ y) = x ++ trimRightSpace y := by
  unfold trimRightSpace at *
  rw [List.reverse_append, List.dropWhile_append]
  have : (List.dropWhile isSpace y.reverse).isEmpty = false := by
    cases hd : List.dropWhile isSpace y.reverse with
    | nil => simp [hd] at h
    | cons a l => rfl
  simp [this]

theorem trimRightSpace_append_of_nil (x y : Str) (h : trimRightSpace y = []) :
    trimRightSpace (x ++ y) = trimRightSpace x := by
  unfold trimRightSpace at *
  rw [List.reverse_append, List.dropWhile_append]
  have : (List.dropWhile isSpace y.reverse) = [] := by simpa using h
  simp [this]

theorem trimRightSpace_nil : trimRightSpace [] = [] := rfl

theorem trimRightSpace_singleton_of_not (c : Char) (h : isSpace c = false) :
    trimRightSpace [c] = [c] := by
  simp [trimRightSpace, h]

theorem trimRightSpace_cons_of_not (c : Char) (s : Str) (h : isSpace c = false) :
    trimRightSpace (c :: s) = c :: trimRightSpace s := by
  by_cases hs : trimRightSpace s = []
  · have := trimRightSpace_append_of_nil [c] s hs
    simp only [List.singleton_append] at this
    rw [this, hs, trimRightSpace_singleton_of_not c h]
  · have := trimRightSpace_append_of_ne [c] s hs
    simpa using this

theorem trimSpace_cons_of_not (c : Char) (s : Str) (h : isSpace c = false) :
    trimSpace (c :: s) = c :: trimRightSpace s := by
  simp [trimSpace, trimLeftSpace, h, trimRightSpace_cons_of_not]

theorem trimSpace_cons_of_space (c : Char) (s : Str) (h : isSpace c = true) :
    trimSpace (c :: s) = trimSpace s := by
  simp [trimSpace, trimLeftSpace, h]

theorem mem_of_mem_trimRightSpace {c : Char} {s : Str} (h : c ∈ trimRightSpace s) : c ∈ s := by
  unfold trimRightSpace at h
  have := (List.dropWhile_sublist (p := isSpace) (l := s.reverse)).subset (List.mem_reverse.mp h)
  simpa using this

theorem mem_of_mem_trimSpace {c : Char} {s : Str} (h : c ∈ trimSpace s) : c ∈ s := by
  unfold trimSpace trimLeftSpace at h
  exact (List.dropWhile_sublist (p := isSpace) (l := s)).subset (mem_of_mem_trimRightSpace h)

/-- A text that `strings.TrimSpace` leaves alone. -/
theorem trimRightSpace_idem (s : Str) : trimRightSpace (trimRightSpace s) = trimRightSpace s := by
  unfold trimRightSpace
  simp [List.dropWhile_idempotent]

theorem trimLeftSpace_trimRightSpace_comm (s : Str) :
    trimLeftSpace (trimRightSpace s) = trimRightSpace (trimLeftSpace s) := by
  induction s with
  | nil => rfl
  | cons c s ih =>
    by_cases hc : isSpace c = true
    · by_cases hs : trimRightSpace s = []
      · have h1 : trimRightSpace (c :: s) = [] := by
          have := trimRightSpace_append_of_nil [c] s hs
          simp only [List.singleton_append] at this
          rw [this]; simp [trimRightSpace, hc]
        have h2 : trimLeftSpace (c :: s) = trimLeftSpace s := by simp [trimLeftSpace, hc]
        rw [h1, h2, ← ih, hs]
      · have h1 : trimRightSpace (c :: s) = c :: trimRightSpace s := by
          have := trimRightSpace_append_of_ne [c] s hs
          simpa using this
        have h2 : trimLeftSpace (c :: s) = trimLeftSpace s := by simp [trimLeftSpace, hc]
        rw [h1, h2, ← ih]; simp [trimLeftSpace, hc]
    · have hc' : isSpace c = false := by simpa using hc
      rw [trimRightSpace_cons_of_not c s hc']
      simp [trimLeftSpace, hc', trimRightSpace_cons_of_not]

theorem trimSpace_idem (s : Str) : trimSpace (trimSpace s) = trimSpace s := by
  unfold trimSpace
  rw [trimLeftSpace_trimRightSpace_comm, trimRightSpace_idem]
  congr 1
  simp [trimLeftSpace, List.dropWhile_idempotent]


theorem trimSpace_eq_self_iff (s : Str) :
    trimSpace s = s ↔ trimLeftSpace s = s ∧ trimRightSpace s = s := by
  constructor
  · intro h
    constructor
    · have h1 : trimLeftSpace (trimSpace s) = trimSpace s := by
        unfold trimSpace
        rw [trimLeftSpace_trimRightSpace_comm]
        congr 1
        simp [trimLeftSpace, List.dropWhile_idempotent]
      rw [h] at h1; exact h1
    · have h1 : trimRightSpace (trimSpace s) = trimSpace s := by
        unfold trimSpace
        rw [trimRightSpace_idem]
      rw [h] at h1; exact h1
  · rintro ⟨h1, h2⟩
    unfold trimSpace
    rw [h1, h2]

theorem isSpace_head_of_trimLeftSpace_eq (c : Char) (s : Str) (h : trimLeftSpace (c :: s) = c :: s) :
    isSpace c = false := by
  by_contra hc
  have hc' : isSpace c = true := by simpa using hc
  have h2 : trimLeftSpace (c :: s) = trimLeftSpace s := by simp [trimLeftSpace, hc']
  have h3 : (trimLeftSpace s).length ≤ s.length :=
    (List.dropWhile_sublist (p := isSpace) (l := s)).length_le
  rw [h2] at h
  rw [h] at h3
  simp at h3

theorem trimSpace_append_of_trimmed (a m b : Str) (ha : trimSpace a = a) (hb : trimSpace b = b)
    (ha0 : a ≠ []) (hb0 : b ≠ []) : trimSpace (a ++ m ++ b) = a ++ m ++ b := by
  obtain ⟨hal, -⟩ := (trimSpace_eq_self_iff a).mp ha
  obtain ⟨-, hbr⟩ := (trimSpace_eq_self_iff b).mp hb
  cases a with
  | nil => exact absurd rfl ha0
  | cons c a =>
    have hc := isSpace_head_of_trimLeftSpace_eq c a hal
    have : c :: a ++ m ++ b = c :: (a ++ m ++ b) := by simp
    rw [this, trimSpace_cons_of_not c _ hc]
    rw [trimRightSpace_append_of_ne (a ++ m) b (by rw [hbr]; exact hb0), hbr]

theorem trimSpace_nil : trimSpace [] = [] := rfl

/-- Joining trimmed, non-empty lines gives a text that `strings.TrimSpace`
leaves alone. -/
theorem trimSpace_joinWith (sep : Str) (ls : List Str)
    (h : ∀ l ∈ ls, trimSpace l = l ∧ l ≠ []) :
    trimSpace (joinWith sep ls) = joinWith sep ls ∧ (ls ≠ [] → joinWith sep ls ≠ []) := by
  induction ls with
  | nil => exact ⟨rfl, fun h => absurd rfl h⟩
  | cons a rest ih =>
    cases rest with
    | nil =>
      have := h a (by simp)
      exact ⟨this.1, fun _ => this.2⟩
    | cons b rest =>
      have ha := h a (by simp)
      have ih' := ih (fun l hl => h l (List.mem_cons_of_mem _ hl))
      have hne := ih'.2 (by simp)
      constructor
      · show trimSpace (a ++ sep ++ joinWith sep (b :: rest)) = _
        exact trimSpace_append_of_trimmed a sep _ ha.1 ih'.1 ha.2 hne
      · intro _
        show a ++ sep ++ joinWith sep (b :: rest) ≠ []
        simp [ha.2]


theorem splitAux_of_not_mem (sep : Char) (a cur : Str) (h : sep ∉ a) :
    splitAux sep a cur = [cur.reverse ++ a] := by
  induction a generalizing cur with
  | nil => simp [splitAux]
  | cons c a ih =>
    have hc : c ≠ sep := fun e => h (by simp [e])
    have ha : sep ∉ a := fun e => h (by simp [e])
    simp [splitAux, hc, ih _ ha]

theorem splitAux_append_sep (sep : Char) (a b cur : Str) (h : sep ∉ a) :
    splitAux sep (a ++ sep :: b) cur = (cur.reverse ++ a) :: splitAux sep b [] := by
  induction a generalizing cur with
  | nil => simp [splitAux]
  | cons c a ih =>
    have hc : c ≠ sep := fun e => h (by simp [e])
    have ha : sep ∉ a := fun e => h (by simp [e])
    simp [splitAux, hc, ih _ ha]

theorem splitOn_two (sep : Char) (a b : Str) (ha : sep ∉ a) (hb : sep ∉ b) :
    splitOn sep (a ++ sep :: b) = [a, b] := by
  simp [splitOn, splitAux_append_sep sep a b [] ha, splitAux_of_not_mem sep b [] hb]

/-! ## Report parser: one loop iteration per line class -/

theorem trimSpace_serverLine (H D : Str) :
    trimSpace ("Source server: ".toList ++ H ++ ", Database: ".toList ++ D) =
      "Source server: ".toList ++ H ++
        (if trimRightSpace D = [] then ", Database:".toList
         else ", Database: ".toList ++ trimRightSpace D) := by
  have e : "Source server: ".toList ++ H ++ ", Database: ".toList ++ D
      = 'S' :: ("ource server: ".toList ++ H ++ ", Database: ".toList ++ D) := by simp
  rw [e, trimSpace_cons_of_not 'S' _ (by decide)]
  by_cases hD : trimRightSpace D = []
  · rw [if_pos hD, trimRightSpace_append_of_nil _ D hD]
    have e2 : "ource server: ".toList ++ H ++ ", Database: ".toList
        = ("ource server: ".toList ++ H ++ ", Database".toList) ++ [':', ' '] := by simp
    rw [e2, trimRightSpace_append_of_ne _ [':', ' '] (by decide)]
    have : trimRightSpace [':', ' '] = [':'] := by decide
    rw [this]; simp
  · rw [if_neg hD, trimRightSpace_append_of_ne _ D hD]; simp

theorem parseStep_server (st : ParseState) (H D : Str) (hH : ',' ∉ H) (hD : ',' ∉ D) :
    parseStep st ("Source server: ".toList ++ H ++ ", Database: ".toList ++ D) =
      { st with currentServer := trimSpace H, currentDatabase := databaseField D } := by
  unfold parseStep
  simp only [trimSpace_serverLine]
  have hp : hasPrefix ("Source server: ".toList ++ H ++
        (if trimRightSpace D = [] then ", Database:".toList
         else ", Database: ".toList ++ trimRightSpace D)) "Source server:".toList = true := by
    simp [hasPrefix, List.isPrefixOf_cons₂]
  rw [if_pos hp]
  have hD' : ',' ∉ trimRightSpace D := fun h => hD (mem_of_mem_trimRightSpace h)
  have hsplit : splitOn ',' ("Source server: ".toList ++ H ++
        (if trimRightSpace D = [] then ", Database:".toList
         else ", Database: ".toList ++ trimRightSpace D))
      = ["Source server: ".toList ++ H,
         if trimRightSpace D = [] then " Database:".toList
         else " Database: ".toList ++ trimRightSpace D] := by
    have e : "Source server: ".toList ++ H ++
        (if trimRightSpace D = [] then ", Database:".toList
         else ", Database: ".toList ++ trimRightSpace D)
        = ("Source server: ".toList ++ H) ++ ',' ::
          (if trimRightSpace D = [] then " Database:".toList
           else " Database: ".toList ++ trimRightSpace D) := by
      split <;> simp
    rw [e]
    apply splitOn_two
    · simpa using hH
    · split
      · decide
      · simpa using hD'
  rw [hsplit]
  simp only
  have h0 : trimSpace (trimPrefix ("Source server: ".toList ++ H) "Source server:".toList)
      = trimSpace H := by
    have : trimPrefix ("Source server: ".toList ++ H) "Source server:".toList = ' ' :: H := by
      simp [trimPrefix, hasPrefix, List.isPrefixOf_cons₂]
    rw [this, trimSpace_cons_of_space ' ' H (by decide)]
  have h1 : trimPrefix (trimSpace (if trimRightSpace D = [] then " Database:".toList
         else " Database: ".toList ++ trimRightSpace D)) "Database: ".toList = databaseField D := by
    unfold databaseField
    by_cases hDe : trimRightSpace D = []
    · simp only [if_pos hDe]; decide
    · simp only [if_neg hDe]
      have e : " Database: ".toList ++ trimRightSpace D
          = ' ' :: 'D' :: ("atabase: ".toList ++ trimRightSpace D) := by simp
      rw [e, trimSpace_cons_of_space ' ' _ (by decide), trimSpace_cons_of_not 'D' _ (by decide),
        trimRightSpace_append_of_ne _ _ (by rw [trimRightSpace_idem]; exact hDe),
        trimRightSpace_idem]
      simp [trimPrefix, hasPrefix, List.isPrefixOf_cons₂]
  rw [h0, h1]


theorem parseStep_of_announcement (st : ParseState) (raw : Str)
    (h : isAnnouncement raw = true) :
    parseStep st raw =
      { st with
        views := saveView st,
        currentView := ⟨st.currentDatabase,
          trimSpace (trimPrefix (trimSpace raw) "Processing view:".toList), [], [],
          st.currentServer⟩,
        createSQL := [], alterSQL := [],
        inCreateSection := false, inAlterSection := false,
        createSeparatorSeen := false, alterSeparatorSeen := false,
        waitForCreateSeparator := false, waitForAlterSeparator := false } := by
  have h2 : hasPrefix (trimSpace raw) "Processing view:".toList = true := h
  have h1 : hasPrefix (trimSpace raw) "Source server:".toList = false := by
    simp only [hasPrefix, List.isPrefixOf_iff_prefix] at h2
    obtain ⟨r, hr⟩ := h2
    rw [← hr]
    simp [hasPrefix, List.isPrefixOf_cons₂]
  unfold parseStep
  simp only [h1, h2, Bool.false_eq_true, if_false, if_true]

theorem trimSpace_announcementLine (N : Str) :
    trimSpace ("Processing view: ".toList ++ N) =
      "Processing view:".toList ++
        (if trimRightSpace N = [] then [] else ' ' :: trimRightSpace N) := by
  have e : "Processing view: ".toList ++ N = 'P' :: ("rocessing view: ".toList ++ N) := by simp
  rw [e, trimSpace_cons_of_not 'P' _ (by decide)]
  by_cases hN : trimRightSpace N = []
  · rw [if_pos hN, trimRightSpace_append_of_nil _ N hN]; decide
  · rw [if_neg hN, trimRightSpace_append_of_ne _ N hN]; simp

theorem announcedName_announcementLine (N : Str) :
    trimSpace (trimPrefix (trimSpace ("Processing view: ".toList ++ N))
      "Processing view:".toList) = trimSpace N := by
  rw [trimSpace_announcementLine]
  have : trimPrefix ("Processing view:".toList ++
      (if trimRightSpace N = [] then [] else ' ' :: trimRightSpace N)) "Processing view:".toList
      = (if trimRightSpace N = [] then [] else ' ' :: trimRightSpace N) := by
    simp [trimPrefix, hasPrefix, List.isPrefixOf_cons₂]
  rw [this]
  by_cases hN : trimRightSpace N = []
  · rw [if_pos hN]
    have : trimSpace N = [] := by
      unfold trimSpace; rw [← trimLeftSpace_trimRightSpace_comm, hN]; rfl
    rw [this]; rfl
  · rw [if_neg hN, trimSpace_cons_of_space ' ' _ (by decide)]
    unfold trimSpace
    rw [← trimLeftSpace_trimRightSpace_comm, ← trimLeftSpace_trimRightSpace_comm,
      trimRightSpace_idem]

theorem isAnnouncement_announcementLine (N : Str) :
    isAnnouncement ("Processing view: ".toList ++ N) = true := by
  unfold isAnnouncement
  rw [trimSpace_announcementLine]
  simp [hasPrefix, List.isPrefixOf_cons₂]

theorem parseStep_announcement (st : ParseState) (N : Str) :
    parseStep st ("Processing view: ".toList ++ N) =
      { st with
        views := saveView st,
        currentView := ⟨st.currentDatabase, trimSpace N, [], [], st.currentServer⟩,
        createSQL := [], alterSQL := [],
        inCreateSection := false, inAlterSection := false,
        createSeparatorSeen := false, alterSeparatorSeen := false,
        waitForCreateSeparator := false, waitForAlterSeparator := false } := by
  rw [parseStep_of_announcement st _ (isAnnouncement_announcementLine N),
    announcedName_announcementLine]

theorem parseStep_createHeader (st : ParseState) :
    parseStep st "Create Statement:".toList =
      { st with inCreateSection := true, inAlterSection := false,
                waitForCreateSeparator := true } := by
  have hline : trimSpace "Create Statement:".toList = "Create Statement:".toList := by decide
  unfold parseStep
  rw [hline]
  rfl

/-- The classes a delimiter line is not taken for. -/
theorem delimiter_shape (raw : Str) (h : isDelimiter raw = true) :
    ∃ r, trimSpace raw = '-' :: '-' :: '-' :: r := by
  simp only [isDelimiter, hasPrefix, List.isPrefixOf_iff_prefix] at h
  obtain ⟨r, hr⟩ := h
  exact ⟨r, by rw [← hr]; simp⟩

theorem parseStep_delimiter (st : ParseState) (raw : Str) (h : isDelimiter raw = true) :
    parseStep st raw =
      if st.inCreateSection && st.waitForCreateSeparator then
        { st with waitForCreateSeparator := false, createSeparatorSeen := true }
      else if st.inCreateSection && st.createSeparatorSeen then
        { st with inCreateSection := false }
      else if st.inAlterSection && st.waitForAlterSeparator then
        { st with waitForAlterSeparator := false, alterSeparatorSeen := true }
      else if st.inAlterSection && st.alterSeparatorSeen then
        { st with inAlterSection := false }
      else st := by
  obtain ⟨r, hr⟩ := delimiter_shape raw h
  unfold parseStep
  rw [hr]
  simp [hasPrefix, List.isPrefixOf_cons₂]

theorem parseStep_body (st : ParseState) (raw : Str) (h : isBodyLine raw = true) :
    parseStep st raw =
      (let st1 :=
        if st.inCreateSection && st.createSeparatorSeen then
          { st with createSQL := appendLine st.createSQL (trimSpace raw) }
        else st
       if st1.inAlterSection && st1.alterSeparatorSeen then
         { st1 with alterSQL := appendLine st1.alterSQL (trimSpace raw) }
       else st1) := by
  simp only [isBodyLine, Bool.and_eq_true, Bool.not_eq_true', decide_eq_true_eq] at h
  obtain ⟨⟨⟨⟨⟨⟨⟨⟨h0, h1⟩, h2⟩, h3⟩, h4⟩, h5⟩, h6⟩, h7⟩, h8⟩ := h
  unfold parseStep
  simp only [h1, h2, h5, h6, h7, h8, if_neg h3, if_neg h4, Bool.false_eq_true, if_false,
    Bool.or_false]
  simp [h0]

theorem joinWith_cons_append (sep a t : Str) (ts : List Str) :
    joinWith sep ((a ++ sep ++ t) :: ts) = a ++ sep ++ joinWith sep (t :: ts) := by
  cases ts with
  | nil => rfl
  | cons u r => simp [joinWith]

theorem foldl_appendLine (acc : Str) (ts : List Str) (hacc : acc ≠ [])
    (hts : ∀ t ∈ ts, t ≠ []) :
    ts.foldl appendLine acc = joinWith ['\n'] (acc :: ts) := by
  induction ts generalizing acc with
  | nil => rfl
  | cons t ts ih =>
    have hlen : acc.length > 0 := List.length_pos.mpr hacc
    have e : appendLine acc t = acc ++ ['\n'] ++ t := by simp [appendLine, hlen]
    rw [List.foldl_cons, e, ih _ (by simp) (fun u hu => hts u (List.mem_cons_of_mem _ hu)),
      joinWith_cons_append]
    rfl

theorem foldl_appendLine_nil (ts : List Str) (hts : ∀ t ∈ ts, t ≠ []) :
    ts.foldl appendLine [] = joinWith ['\n'] ts := by
  cases ts with
  | nil => rfl
  | cons t ts =>
    have e : appendLine [] t = t := by simp [appendLine]
    rw [List.foldl_cons, e]
    exact foldl_appendLine t ts (hts t (by simp)) (fun u hu => hts u (List.mem_cons_of_mem _ hu))

theorem isBodyLine_trimSpace_ne (b : Str) (h : isBodyLine b = true) : trimSpace b ≠ [] := by
  simp only [isBodyLine, Bool.and_eq_true, Bool.not_eq_true', decide_eq_true_eq] at h
  exact h.1.1.1.1.1.1.1.1

/-- Body lines met while a create section is being captured go to the create
buffer, one `appendLine` each. -/
theorem foldl_parseStep_createBody (st : ParseState) (body : List Str)
    (hc : st.inCreateSection = true) (hs : st.createSeparatorSeen = true)
    (ha : st.inAlterSection = false) (hbody : ∀ b ∈ body, isBodyLine b = true) :
    body.foldl parseStep st =
      { st with createSQL := (body.map trimSpace).foldl appendLine st.createSQL } := by
  induction body generalizing st with
  | nil => rfl
  | cons b body ih =>
    have hb := hbody b (by simp)
    rw [List.foldl_cons, parseStep_body st b hb]
    simp only [hc, hs, ha, Bool.and_self, if_true, Bool.false_and, Bool.false_eq_true, if_false]
    rw [ih _ rfl rfl rfl (fun u hu => hbody u (List.mem_cons_of_mem _ hu))]
    rfl


/-! ## The lines the scanner yields -/

theorem parseStep_congr (st : ParseState) (a b : Str) (h : trimSpace a = trimSpace b) :
    parseStep st a = parseStep st b := by
  unfold parseStep
  simp only [h]

theorem trimRightSpace_concat_space (t : Str) (c : Char) (h : isSpace c = true) :
    trimRightSpace (t ++ [c]) = trimRightSpace t := by
  apply trimRightSpace_append_of_nil
  simp [trimRightSpace, h]

theorem trimSpace_concat_space (t : Str) (c : Char) (h : isSpace c = true) :
    trimSpace (t ++ [c]) = trimSpace t := by
  unfold trimSpace
  rw [← trimLeftSpace_trimRightSpace_comm, ← trimLeftSpace_trimRightSpace_comm,
    trimRightSpace_concat_space t c h]

/-- The carriage return the scanner drops is white space: the trimmed line is
the same with and without it. -/
theorem trimSpace_dropCR (line : Str) : trimSpace (dropCR line) = trimSpace line := by
  unfold dropCR
  split
  · rename_i h
    rcases List.eq_nil_or_concat line with e | ⟨t, c, e⟩
    · subst e; rfl
    · rw [List.concat_eq_append] at e
      subst e
      have hc : c = '\r' := by simpa using h
      subst hc
      rw [List.dropLast_concat, trimSpace_concat_space t '\r' (by decide)]
  · rfl

theorem parseStep_dropCR (st : ParseState) (line : Str) :
    parseStep st (dropCR line) = parseStep st line :=
  parseStep_congr st _ _ (trimSpace_dropCR line)

theorem foldl_parseStep_dropCR (lines : List Str) :
    ∀ st : ParseState, (lines.map dropCR).foldl parseStep st = lines.foldl parseStep st := by
  induction lines with
  | nil => intro st; rfl
  | cons l rest ih =>
    intro st
    rw [List.map_cons, List.foldl_cons, List.foldl_cons, parseStep_dropCR, ih]

theorem scanLines_fst (lines : List Str) :
    (scanLines lines).1 = (lines.takeWhile scannable).map dropCR := by
  induction lines with
  | nil => rfl
  | cons l rest ih =>
    unfold scanLines
    by_cases h : scannable l = true
    · simp only [h, if_true, List.takeWhile_cons_of_pos, List.map_cons, ih]
    · simp only [h, Bool.false_eq_true, if_false]
      rw [List.takeWhile_cons_of_neg h]
      rfl

theorem scanLines_snd (lines : List Str) :
    (scanLines lines).2 = if lines.all scannable = true then none else some errTooLong := by
  induction lines with
  | nil => rfl
  | cons l rest ih =>
    unfold scanLines
    by_cases h : scannable l = true
    · simp only [h, if_true, ih, List.all_cons, Bool.true_and]
    · simp only [h, Bool.false_eq_true, if_false, List.all_cons, Bool.false_and]

/-- The records of a file are those of its lines before the first line that
does not fit the buffer of the scanner, and the error tells whether there is
such a line. -/
theorem parseViewsFile_eq (lines : List Str) :
    parseViewsFile lines =
      (parseLines (lines.takeWhile scannable),
        if lines.all scannable = true then none else some errTooLong) := by
  unfold parseViewsFile parseLines
  rw [scanLines_fst, scanLines_snd, foldl_parseStep_dropCR]

theorem takeWhile_of_all {α : Type} (p : α → Bool) (l : List α) (h : ∀ a ∈ l, p a = true) :
    l.takeWhile p = l := by
  induction l with
  | nil => rfl
  | cons a l ih =>
    rw [List.takeWhile_cons_of_pos (h a (List.mem_cons_self _ _)),
      ih (fun b hb => h b (List.mem_cons_of_mem _ hb))]

/-- A file whose lines all fit the buffer is read to its end, without an
error. -/
theorem parseViewsFile_of_scannable (lines : List Str) (h : ∀ l ∈ lines, scannable l = true) :
    parseViewsFile lines = (parseLines lines, none) := by
  rw [parseViewsFile_eq, takeWhile_of_all scannable lines h]
  have : lines.all scannable = true := List.all_eq_true.mpr h
  rw [if_pos this]

theorem byteLength_replicate (n : Nat) (c : Char) :
    byteLength (List.replicate n c) = n * utf8Size c := by
  simp [byteLength]

/-- A line of 64 KiB of the one-byte character `c` does not fit the buffer. -/
theorem scannable_replicate (c : Char) (h : utf8Size c = 1) :
    scannable (List.replicate maxScanTokenSize c) = false := by
  unfold scannable
  rw [byteLength_replicate, h]
  simp

/-- A file with a line that does not fit the buffer is read up to that
line. -/
theorem parseViewsFile_of_long (pre : List Str) (long : Str) (post : List Str)
    (hpre : ∀ l ∈ pre, scannable l = true) (hlong : scannable long = false) :
    parseViewsFile (pre ++ long :: post) = (parseLines pre, some errTooLong) := by
  rw [parseViewsFile_eq]
  have h1 : (pre ++ long :: post).takeWhile scannable = pre := by
    rw [List.takeWhile_append]
    have ht := takeWhile_of_all scannable pre hpre
    rw [ht]
    simp [hlong]
  have h2 : (pre ++ long :: post).all scannable = false := by
    simp [hlong]
  rw [h1, h2]
  rfl

/-- A line that starts with the letter `x` is a body line. -/
theorem isBodyLine_x (t : Str) : isBodyLine ('x' :: t) = true := by
  unfold isBodyLine
  rw [trimSpace_cons_of_not 'x' t (by decide)]
  simp [hasPrefix, List.isPrefixOf_cons₂]

/-! ## C1: the transcript of one view with a create section -/

/-- The records of the lines of the transcript of one view with a create
section. -/
theorem parseLines_createTranscript (H D N d1 d2 : Str) (body : List Str)
    (hH : ',' ∉ H) (hD : ',' ∉ D) (hN : trimSpace N ≠ [])
    (hd1 : isDelimiter d1 = true) (hd2 : isDelimiter d2 = true)
    (hbody : ∀ b ∈ body, isBodyLine b = true) :
    parseLines (createTranscript H D N d1 d2 body) =
      [{ Server := trimSpace H, Database := databaseField D, ViewName := trimSpace N,
         CreateSQL := joinWith ['\n'] (body.map trimSpace), AlterSQL := [] }] := by
  have hts : ∀ t ∈ body.map trimSpace, trimSpace t = t ∧ t ≠ [] := by
    intro t ht
    obtain ⟨b, hb, rfl⟩ := List.mem_map.mp ht
    exact ⟨trimSpace_idem b, isBodyLine_trimSpace_ne b (hbody b hb)⟩
  unfold parseLines createTranscript
  rw [List.foldl_append, List.foldl_append]
  simp only [List.foldl_cons, List.foldl_nil]
  rw [parseStep_server _ H D hH hD, parseStep_announcement, parseStep_createHeader,
    parseStep_delimiter _ d1 hd1]
  simp only [Bool.and_self, if_true]
  rw [foldl_parseStep_createBody _ body rfl rfl rfl hbody, parseStep_delimiter _ d2 hd2]
  simp only [Bool.and_false, Bool.and_self, Bool.false_eq_true, if_false, if_true]
  rw [foldl_appendLine_nil _ (fun t ht => (hts t ht).2)]
  unfold saveView
  simp only [ParseState.init, saveView, hN, ne_eq, not_false_eq_true, if_true, List.nil_append,
    (trimSpace_joinWith ['\n'] _ hts).1, trimSpace_nil, not_true_eq_false, if_false]

/-- A database label that is not blank and starts with no white space is read
as it stands, without its trailing white space. -/
theorem databaseField_of_firm (D : Str) (hD1 : trimLeftSpace D = D) (hD2 : trimSpace D ≠ []) :
    databaseField D = trimSpace D := by
  have e : trimSpace D = trimRightSpace D := by
    unfold trimSpace; rw [hD1]
  unfold databaseField
  rw [if_neg (by rw [← e]; exact hD2), e]

/-- C1 (amended): for the transcript `Source server: H, Database: D` /
`Processing view: N` / `Create Statement:` / a delimiter line / body lines /
a delimiter line, every line shorter than 64 KiB, with `H` and `D` free of
commas, `D` not blank and without leading white space, `N` not blank and
every body line a non-blank line of no recognised class, `parseViewsFile`
returns, without an error, exactly one record: its server, database and name
are `H`, `D` and `N` trimmed, its `CreateSQL` is the trimmed body lines
joined by single newlines in input order, and its `AlterSQL` is empty. -/
theorem parseViewsFile_createTranscript (H D N d1 d2 : Str) (body : List Str)
    (hlen : ∀ l ∈ createTranscript H D N d1 d2 body, scannable l = true)
    (hH : ',' ∉ H) (hD : ',' ∉ D) (hD1 : trimLeftSpace D = D) (hD2 : trimSpace D ≠ [])
    (hN : trimSpace N ≠ [])
    (hd1 : isDelimiter d1 = true) (hd2 : isDelimiter d2 = true)
    (hbody : ∀ b ∈ body, isBodyLine b = true) :
    parseViewsFile (createTranscript H D N d1 d2 body) =
      ([{ Server := trimSpace H, Database := trimSpace D, ViewName := trimSpace N,
          CreateSQL := joinWith ['\n'] (body.map trimSpace), AlterSQL := [] }], none) := by
  rw [parseViewsFile_of_scannable _ hlen,
    parseLines_createTranscript H D N d1 d2 body hH hD hN hd1 hd2 hbody,
    databaseField_of_firm D hD1 hD2]

/-- C1, witness: the example of the specification (`host1`, `sales`, `v_sales`,
body `SELECT 1`) yields the record `{host1, sales, v_sales, "SELECT 1", ""}`. -/
theorem parseViewsFile_createTranscript_witness :
    ((∀ l ∈ createTranscript "host1".toList "sales".toList "v_sales".toList
        "--------".toList "--------".toList ["SELECT 1".toList], scannable l = true) ∧
      ',' ∉ "host1".toList ∧ ',' ∉ "sales".toList ∧
      trimLeftSpace "sales".toList = "sales".toList ∧ trimSpace "sales".toList ≠ [] ∧
      trimSpace "v_sales".toList ≠ [] ∧ isDelimiter "--------".toList = true ∧
      ∀ b ∈ ["SELECT 1".toList], isBodyLine b = true) ∧
    parseViewsFile (createTranscript "host1".toList "sales".toList "v_sales".toList
        "--------".toList "--------".toList ["SELECT 1".toList]) =
      ([{ Server := "host1".toList, Database := "sales".toList, ViewName := "v_sales".toList,
          CreateSQL := "SELECT 1".toList, AlterSQL := [] }], none) :=
  ⟨by decide,
   parseViewsFile_createTranscript "host1".toList "sales".toList "v_sales".toList
     "--------".toList "--------".toList ["SELECT 1".toList]
     (by decide) (by decide) (by decide) (by decide) (by decide) (by decide) (by decide)
     (by decide) (by decide)⟩

/-- C1, counterexample: with the non-empty name `" "` no record is returned;
white space around `H`, `D` and `N` is not kept, so the record is not
`{H, D, N, ...}`; and with a body line of 64 KiB the scanner stops at that
line with an error, and the record has an empty `CreateSQL`. -/
theorem parseViewsFile_createTranscript_counterexample :
    (" ".toList ≠ [] ∧ ',' ∉ "host1".toList ∧ ',' ∉ "sales".toList ∧
      parseViewsFile (createTranscript "host1".toList "sales".toList " ".toList
        "--------".toList "--------".toList ["SELECT 1".toList]) = ([], none)) ∧
    (',' ∉ " host1 ".toList ∧ ',' ∉ "sales ".toList ∧ "v_sales ".toList ≠ [] ∧
      parseViewsFile (createTranscript " host1 ".toList "sales ".toList "v_sales ".toList
        "--------".toList "--------".toList ["SELECT 1".toList]) =
      ([{ Server := "host1".toList, Database := "sales".toList, ViewName := "v_sales".toList,
          CreateSQL := "SELECT 1".toList, AlterSQL := [] }], none)) ∧
    (isBodyLine (List.replicate maxScanTokenSize 'x') = true ∧
      parseViewsFile (createTranscript "host1".toList "sales".toList "v_sales".toList
        "--------".toList "--------".toList [List.replicate maxScanTokenSize 'x']) =
      ([{ Server := "host1".toList, Database := "sales".toList, ViewName := "v_sales".toList,
          CreateSQL := [], AlterSQL := [] }], some errTooLong)) := by
  refine ⟨by decide, by decide, ?_, ?_⟩
  · exact isBodyLine_x (List.replicate 65535 'x')
  · exact (parseViewsFile_of_long
      ["Source server: host1, Database: sales".toList, "Processing view: v_sales".toList,
       "Create Statement:".toList, "--------".toList]
      (List.replicate maxScanTokenSize 'x') ["--------".toList] (by decide)
      (scannable_replicate 'x' (by decide))).trans (by decide)

/-! ## `strings.Index` -/

theorem firstAt_le_length {sub s : Str} {i : Nat} (h : FirstAt sub s i) : i ≤ s.length := by
  by_contra hlt
  have hi : s.length < i := by omega
  have hd : s.drop i = [] := List.drop_eq_nil_of_le (by omega)
  have hsub : sub = [] := by
    have := h.1
    rw [hd] at this
    exact List.prefix_nil.mp this
  exact h.2 0 (by omega) (by rw [hsub]; exact List.nil_prefix)

theorem firstAt_add_length_le {sub s : Str} {i : Nat} (h : FirstAt sub s i) :
    i + sub.length ≤ s.length := by
  have h1 := firstAt_le_length h
  have h2 := h.1.length_le
  rw [List.length_drop] at h2
  omega

theorem indexOf?_of_firstAt {sub s : Str} {i : Nat} (h : FirstAt sub s i) :
    indexOf? sub s = some i := by
  induction s generalizing i with
  | nil =>
    have hi : i = 0 := by
      have := firstAt_le_length h
      simpa using this
    subst hi
    have hsub : sub = [] := List.prefix_nil.mp (by simpa using h.1)
    subst hsub
    rfl
  | cons c s ih =>
    cases i with
    | zero =>
      have hp : sub.isPrefixOf (c :: s) = true := by
        rw [List.isPrefixOf_iff_prefix]; simpa using h.1
      simp [indexOf?, hp]
    | succ i =>
      have hp : sub.isPrefixOf (c :: s) = false := by
        have := h.2 0 (by omega)
        rw [← Bool.not_eq_true, List.isPrefixOf_iff_prefix]
        simpa using this
      have h' : FirstAt sub s i := by
        refine ⟨by simpa using h.1, fun j hj => ?_⟩
        have := h.2 (j + 1) (by omega)
        simpa using this
      simp [indexOf?, hp, ih h']

theorem firstAt_of_indexOf? {sub s : Str} {i : Nat} (h : indexOf? sub s = some i) :
    FirstAt sub s i := by
  induction s generalizing i with
  | nil =>
    simp only [indexOf?] at h
    split at h
    · rename_i he
      have hsub : sub = [] := by simpa using he
      have hi : i = 0 := by simpa using h.symm
      subst hsub hi
      exact ⟨List.nil_prefix, fun j hj => absurd hj (by omega)⟩
    · exact absurd h (by simp)
  | cons c s ih =>
    simp only [indexOf?] at h
    split at h
    · rename_i hp
      have hi : i = 0 := by simpa using h.symm
      subst hi
      exact ⟨by simpa [List.isPrefixOf_iff_prefix] using hp, fun j hj => absurd hj (by omega)⟩
    · rename_i hp
      cases hrec : indexOf? sub s with
      | none => simp [hrec] at h
      | some k =>
        simp [hrec] at h
        subst h
        have hk := ih hrec
        refine ⟨by simpa using hk.1, fun j hj => ?_⟩
        cases j with
        | zero => simpa [List.isPrefixOf_iff_prefix] using hp
        | succ j =>
          have := hk.2 j (by omega)
          simpa using this

theorem infix_of_firstAt {sub s : Str} {i : Nat} (h : FirstAt sub s i) : sub <:+: s :=
  h.1.isInfix.trans (List.drop_suffix i s).isInfix

theorem indexOf?_eq_none_iff (sub s : Str) : indexOf? sub s = none ↔ ¬ sub <:+: s := by
  constructor
  · intro h hin
    obtain ⟨a, b, hab⟩ := hin
    -- some occurrence exists at position `a.length`; take the first one
    have hex : ∃ n, sub <+: s.drop n := ⟨a.length, by
      rw [← hab]; simp [List.append_assoc]⟩
    classical
    have hfirst : FirstAt sub s (Nat.find hex) :=
      ⟨Nat.find_spec hex, fun j hj => Nat.find_min hex hj⟩
    rw [indexOf?_of_firstAt hfirst] at h
    exact absurd h (by simp)
  · intro h
    cases hi : indexOf? sub s with
    | none => rfl
    | some i => exact absurd (infix_of_firstAt (firstAt_of_indexOf? hi)) h

theorem index_of_firstAt {sub s : Str} {i : Nat} (h : FirstAt sub s i) :
    index s sub = (i : Int) := by
  simp [index, indexOf?_of_firstAt h]

theorem index_of_absent {sub s : Str} (h : ¬ sub <:+: s) : index s sub = -1 := by
  simp [index, (indexOf?_eq_none_iff sub s).mpr h]

theorem index_eq_neg_one_iff (sub s : Str) : index s sub = -1 ↔ ¬ sub <:+: s := by
  constructor
  · intro h
    rw [← indexOf?_eq_none_iff]
    cases hi : indexOf? sub s with
    | none => rfl
    | some i => simp [index, hi] at h
  · exact index_of_absent

theorem sliceFrom_natCast (s : Str) (i : Nat) (h : i ≤ s.length) :
    sliceFrom s (i : Int) = some (s.drop i) := by
  simp [sliceFrom, h]

theorem slice_natCast (s : Str) (i j : Nat) (h : i + j ≤ s.length) :
    slice s (i : Int) ((i : Int) + (j : Int)) = some ((s.drop i).take j) := by
  have h1 : ((i : Int) + (j : Int)).toNat = i + j := by omega
  have h2 : (i : Int) + (j : Int) ≤ (s.length : Int) := by omega
  simp only [slice, h1, h2, Int.toNat_ofNat]
  simp only [Int.natCast_nonneg, le_add_iff_nonneg_right, and_self, if_true]
  rw [List.drop_take]
  simp

theorem sliceFrom_neg_one (s : Str) : sliceFrom s (-1) = none := by
  simp [sliceFrom]


/-! ## C2: the marker scan succeeds when the markers are there -/

/-- C2: when `DEFINER=` occurs in `d` (first at `i`), `" SQL SECURITY"` occurs
at or after it (first at offset `j` from `i`), `SQL SECURITY` occurs (first
at `k`), `" VIEW"` occurs after it (first at offset `l` from `k`) and
`" AS "` occurs (first at `a`), the marker scan succeeds: the definer clause
is the text from `i` up to the security marker, the security clause is the
text from `k` up to the next `" VIEW"`, the body is everything after the
four characters of the first `" AS "`. -/
theorem decompose_of_markers (d : Str) (i j k l a : Nat)
    (hdef : FirstAt "DEFINER=".toList d i)
    (hsec : FirstAt " SQL SECURITY".toList (d.drop i) j)
    (hsql : FirstAt "SQL SECURITY".toList d k)
    (hview : FirstAt " VIEW".toList (d.drop k) l)
    (has : FirstAt " AS ".toList d a) :
    decompose d =
      .ok { definer := (d.drop i).take j, security := (d.drop k).take l,
            viewDefinition := d.drop (a + 4) } := by
  have hi := firstAt_le_length hdef
  have hj := firstAt_le_length hsec
  have hk := firstAt_le_length hsql
  have hl := firstAt_le_length hview
  have ha := firstAt_add_length_le has
  rw [List.length_drop] at hj hl
  have ha4 : a + 4 ≤ d.length := ha
  unfold decompose
  simp only [index_of_firstAt hdef, sliceFrom_natCast d i hi, index_of_firstAt hsec,
    slice_natCast d i j (by omega), index_of_firstAt hsql, sliceFrom_natCast d k hk,
    index_of_firstAt hview, slice_natCast d k l (by omega), index_of_firstAt has]
  have e4 : (a : Int) + 4 = ((a + 4 : Nat) : Int) := by omega
  rw [e4, sliceFrom_natCast d (a + 4) ha4]
  have n1 : ∀ n : Nat, ¬ ((n : Int) = -1) := fun n => by omega
  simp [n1]

/-- C2, witness: the example of the specification. -/
theorem decompose_of_markers_witness :
    decompose "CREATE ALGORITHM=MERGE DEFINER=`a`@`%` SQL SECURITY DEFINER VIEW `x` AS SELECT 1".toList =
      .ok { definer := "DEFINER=`a`@`%`".toList, security := "SQL SECURITY DEFINER".toList,
            viewDefinition := "SELECT 1".toList } :=
  decompose_of_markers
    "CREATE ALGORITHM=MERGE DEFINER=`a`@`%` SQL SECURITY DEFINER VIEW `x` AS SELECT 1".toList
    23 15 39 20 68 (by decide) (by decide) (by decide) (by decide) (by decide)

/-! ## C3: a statement without the definer markers -/

/-- The slice `createStmt[definerStart:]` is taken before `definerStart` is
compared with `-1`: without `DEFINER=` the scan panics. -/
theorem decompose_panic_of_no_definer (d : Str) (h : ¬ "DEFINER=".toList <:+: d) :
    decompose d = .panic := by
  unfold decompose
  simp only [index_of_absent h, sliceFrom_neg_one]

/-- With `DEFINER=` present and no `" SQL SECURITY"` at or after it the scan
returns the missing-definer error. -/
theorem decompose_error_of_no_security (d : Str) (i : Nat)
    (hdef : FirstAt "DEFINER=".toList d i)
    (hsec : ¬ " SQL SECURITY".toList <:+: d.drop i) :
    decompose d = .error "could not parse view definition".toList := by
  unfold decompose
  simp only [index_of_firstAt hdef, sliceFrom_natCast d i (firstAt_le_length hdef),
    index_of_absent hsec]
  simp

/-- C3, the code at the failing input: a view definition without `DEFINER=`
makes the marker scan panic instead of returning `could not parse view
definition`. -/
theorem decompose_missing_definer_panics :
    ¬ "DEFINER=".toList <:+: "CREATE VIEW `x` AS SELECT 1".toList ∧
    decompose "CREATE VIEW `x` AS SELECT 1".toList = Outcome.panic ∧
    decompose "CREATE VIEW `x` AS SELECT 1".toList ≠
      Outcome.error "could not parse view definition".toList := by
  decide

/-! ## C4: a statement without `" AS "` -/

theorem firstAt_or_absent (sub s : Str) : (∃ i, FirstAt sub s i) ∨ ¬ sub <:+: s := by
  cases h : indexOf? sub s with
  | none => exact Or.inr ((indexOf?_eq_none_iff sub s).mp h)
  | some i => exact Or.inl ⟨i, firstAt_of_indexOf? h⟩

/-- With the definer clause found and no `" VIEW"` at or after the first
`SQL SECURITY` the scan returns the error of the security step. -/
theorem decompose_error_of_no_view (d : Str) (i j k : Nat)
    (hdef : FirstAt "DEFINER=".toList d i)
    (hsec : FirstAt " SQL SECURITY".toList (d.drop i) j)
    (hsql : FirstAt "SQL SECURITY".toList d k)
    (hview : ¬ " VIEW".toList <:+: d.drop k) :
    decompose d = .error "could not parse SQL SECURITY setting".toList := by
  have hi := firstAt_le_length hdef
  have hj := firstAt_le_length hsec
  have hk := firstAt_le_length hsql
  rw [List.length_drop] at hj
  unfold decompose
  simp only [index_of_firstAt hdef, sliceFrom_natCast d i hi, index_of_firstAt hsec,
    slice_natCast d i j (by omega), index_of_firstAt hsql, sliceFrom_natCast d k hk,
    index_of_absent hview]
  have n1 : ∀ n : Nat, ¬ ((n : Int) = -1) := fun n => by omega
  simp [n1]

/-- With the definer clause and the security clause found and no `" AS "`
the scan returns the missing-body error. -/
theorem decompose_error_of_no_as (d : Str) (i j k l : Nat)
    (hdef : FirstAt "DEFINER=".toList d i)
    (hsec : FirstAt " SQL SECURITY".toList (d.drop i) j)
    (hsql : FirstAt "SQL SECURITY".toList d k)
    (hview : FirstAt " VIEW".toList (d.drop k) l)
    (h : ¬ " AS ".toList <:+: d) :
    decompose d = .error "could not find view definition".toList := by
  have has : index d " AS ".toList = -1 := index_of_absent h
  have hi := firstAt_le_length hdef
  have hj := firstAt_le_length hsec
  have hk := firstAt_le_length hsql
  have hl := firstAt_le_length hview
  rw [List.length_drop] at hj hl
  unfold decompose
  simp only [index_of_firstAt hdef, sliceFrom_natCast d i hi, index_of_firstAt hsec,
    slice_natCast d i j (by omega), index_of_firstAt hsql, sliceFrom_natCast d k hk,
    index_of_firstAt hview, slice_natCast d k l (by omega), has]
  have n1 : ∀ n : Nat, ¬ ((n : Int) = -1) := fun n => by omega
  simp [n1]

/-- The scan never succeeds on a text without `" AS "`. -/
theorem decompose_ne_ok_of_no_as (d : Str) (h : ¬ " AS ".toList <:+: d) (p : ParsedDDL) :
    decompose d ≠ .ok p := by
  have has : index d " AS ".toList = -1 := index_of_absent h
  unfold decompose
  simp only [has]
  repeat' split
  all_goals simp_all

/-- C4 (amended): a DDL string `d` without the marker `" AS "` never yields a
decomposition; and when `DEFINER=` occurs in `d` (first at `i`) the scan
returns the error of the first step that fails: `could not parse view
definition` when no `" SQL SECURITY"` stands at or after `i`; otherwise
`SQL SECURITY` occurs in `d` (first at `k`), and the scan returns `could not
parse SQL SECURITY setting` when no `" VIEW"` stands at or after `k`, and the
missing-body error `could not find view definition` when one does. -/
theorem decompose_of_no_as (d : Str) (h : ¬ " AS ".toList <:+: d) :
    (∀ p, decompose d ≠ .ok p) ∧
    ∀ i, FirstAt "DEFINER=".toList d i →
      (¬ " SQL SECURITY".toList <:+: d.drop i →
        decompose d = .error "could not parse view definition".toList) ∧
      (" SQL SECURITY".toList <:+: d.drop i →
        (∃ k, FirstAt "SQL SECURITY".toList d k) ∧
        ∀ k, FirstAt "SQL SECURITY".toList d k →
          (¬ " VIEW".toList <:+: d.drop k →
            decompose d = .error "could not parse SQL SECURITY setting".toList) ∧
          (" VIEW".toList <:+: d.drop k →
            decompose d = .error "could not find view definition".toList)) := by
  refine ⟨decompose_ne_ok_of_no_as d h, ?_⟩
  intro i hdef
  refine ⟨decompose_error_of_no_security d i hdef, ?_⟩
  intro hsec
  obtain ⟨j, hj⟩ := (firstAt_or_absent " SQL SECURITY".toList (d.drop i)).resolve_right
    (fun hn => hn hsec)
  have hin : "SQL SECURITY".toList <:+: d := by
    have h1 : "SQL SECURITY".toList <:+: " SQL SECURITY".toList := by decide
    exact h1.trans (hsec.trans (List.drop_suffix i d).isInfix)
  refine ⟨(firstAt_or_absent "SQL SECURITY".toList d).resolve_right (fun hn => hn hin), ?_⟩
  intro k hk
  refine ⟨decompose_error_of_no_view d i j k hdef hj hk, ?_⟩
  intro hview
  obtain ⟨l, hl⟩ := (firstAt_or_absent " VIEW".toList (d.drop k)).resolve_right
    (fun hn => hn hview)
  exact decompose_error_of_no_as d i j k l hdef hj hk hl h

/-- C4, witness: the example DDL of the specification cut before `" AS "`
yields the missing-body error, cut before `" VIEW"` the error of the security
step, and without its security clause the error of the definer step. -/
theorem decompose_of_no_as_witness :
    (¬ " AS ".toList <:+:
        "CREATE ALGORITHM=MERGE DEFINER=`a`@`%` SQL SECURITY DEFINER VIEW `x`".toList ∧
      decompose "CREATE ALGORITHM=MERGE DEFINER=`a`@`%` SQL SECURITY DEFINER VIEW `x`".toList =
        .error "could not find view definition".toList) ∧
    (¬ " AS ".toList <:+:
        "CREATE ALGORITHM=MERGE DEFINER=`a`@`%` SQL SECURITY DEFINER".toList ∧
      decompose "CREATE ALGORITHM=MERGE DEFINER=`a`@`%` SQL SECURITY DEFINER".toList =
        .error "could not parse SQL SECURITY setting".toList) ∧
    (¬ " AS ".toList <:+: "CREATE ALGORITHM=MERGE DEFINER=`a`@`%` VIEW `x`".toList ∧
      decompose "CREATE ALGORITHM=MERGE DEFINER=`a`@`%` VIEW `x`".toList =
        .error "could not parse view definition".toList) :=
  ⟨⟨by decide,
    ((((decompose_of_no_as
      "CREATE ALGORITHM=MERGE DEFINER=`a`@`%` SQL SECURITY DEFINER VIEW `x`".toList
      (by decide)).2 23 (by decide)).2 (by decide)).2 39 (by decide)).2 (by decide)⟩,
   ⟨by decide,
    ((((decompose_of_no_as
      "CREATE ALGORITHM=MERGE DEFINER=`a`@`%` SQL SECURITY DEFINER".toList
      (by decide)).2 23 (by decide)).2 (by decide)).2 39 (by decide)).1 (by decide)⟩,
   ⟨by decide,
    ((decompose_of_no_as "CREATE ALGORITHM=MERGE DEFINER=`a`@`%` VIEW `x`".toList
      (by decide)).2 23 (by decide)).1 (by decide)⟩⟩

/-- C4, counterexample: without `" AS "` and without a security marker the
scan reports the missing-definer error, not the missing-body error. -/
theorem decompose_of_no_as_counterexample :
    ¬ " AS ".toList <:+: "CREATE DEFINER=`a`@`%` VIEW `x`".toList ∧
    decompose "CREATE DEFINER=`a`@`%` VIEW `x`".toList =
      .error "could not parse view definition".toList ∧
    decompose "CREATE DEFINER=`a`@`%` VIEW `x`".toList ≠
      .error "could not find view definition".toList := by
  decide

/-! ## C7: validation of the algorithm keyword -/

/-- The errors of `generateAlterViewStatement` start with `error getting` or
with `could not`. -/
theorem generateAlterViewStatement_error_head (db : DB) (database viewName algorithm e : Str)
    (h : generateAlterViewStatement db database viewName algorithm = .error e) :
    e.head? = some 'e' ∨ e.head? = some 'c' := by
  unfold generateAlterViewStatement at h
  split at h
  · simp only [Outcome.error.injEq] at h
    left; rw [← h]; simp
  · rename_i createStmt _
    have hd : ∀ m, decompose createStmt = .error m → m.head? = some 'c' := by
      intro m hm
      simp only [decompose] at hm
      repeat' split at hm
      all_goals first
        | (simp only [Outcome.error.injEq] at hm; rw [← hm]; rfl)
        | simp at hm
    split at h
    · exact absurd h (by simp)
    · rename_i m hm
      simp only [Outcome.error.injEq] at h
      right; rw [← h]; exact hd m hm
    · exact absurd h (by simp)


theorem composeAlter_has_algorithm (database viewName algorithm : Str) (p : ParsedDDL) :
    ("ALGORITHM = ".toList ++ algorithm) <:+: composeAlter database viewName algorithm p := by
  refine ⟨"ALTER \n    ".toList, "\n    ".toList ++ p.definer ++
    "\n    ".toList ++ p.security ++ "\n    VIEW `".toList ++ database ++ "`.`".toList ++
    viewName ++ "` AS ".toList ++ p.viewDefinition ++ ";".toList, ?_⟩
  simp [composeAlter]

theorem generateAlterViewStatement_ok (db : DB) (database viewName algorithm stmt : Str)
    (h : generateAlterViewStatement db database viewName algorithm = .ok stmt) :
    ∃ createStmt p, db.queryRow (showCreateViewQuery database viewName) = .ok createStmt ∧
      decompose createStmt = .ok p ∧ stmt = composeAlter database viewName algorithm p := by
  unfold generateAlterViewStatement at h
  split at h
  · exact absurd h (by simp)
  · rename_i createStmt hq
    split at h
    · rename_i p hp
      simp only [Outcome.ok.injEq] at h
      exact ⟨createStmt, p, hq, hp, h.symm⟩
    · exact absurd h (by simp)
    · exact absurd h (by simp)

/-- C7: `handleViewAlgorithm` ends with the invalid-algorithm error exactly
when the upper-case form of the algorithm is none of `MERGE`, `TEMPTABLE`,
`UNDEFINED`; it then has queried, printed and executed nothing; and when the
algorithm is accepted, every statement it prints or executes is the one
`generateAlterViewStatement` composes for the upper-case form, which stands in
it after `ALGORITHM = `. -/
theorem handleViewAlgorithm_validation (upper : Char → Char) (db : DB)
    (database viewName a : Str) (execute : Bool) :
    ((∃ m, (handleViewAlgorithm upper db database viewName a execute).2 =
        .error ("invalid algorithm: ".toList ++ m)) ↔ toUpper upper a ∉ validAlgorithms) ∧
    (toUpper upper a ∉ validAlgorithms →
      handleViewAlgorithm upper db database viewName a execute =
        ([], .error (invalidAlgorithmMessage (toUpper upper a)))) ∧
    (toUpper upper a ∈ validAlgorithms →
      (handleViewAlgorithm upper db database viewName a execute).1.head? =
        some (Effect.queried (showCreateViewQuery database viewName)) ∧
      (∀ stmt, generateAlterViewStatement db database viewName (toUpper upper a) = .ok stmt →
        Effect.printed stmt ∈ (handleViewAlgorithm upper db database viewName a execute).1) ∧
      ∀ stmt, (Effect.printed stmt ∈ (handleViewAlgorithm upper db database viewName a execute).1 ∨
          Effect.executed stmt ∈ (handleViewAlgorithm upper db database viewName a execute).1) →
        generateAlterViewStatement db database viewName (toUpper upper a) = .ok stmt ∧
        ("ALGORITHM = ".toList ++ toUpper upper a) <:+: stmt) := by
  have hvalid : toUpper upper a ∈ validAlgorithms ↔
      ¬ (toUpper upper a ≠ "MERGE".toList ∧ toUpper upper a ≠ "TEMPTABLE".toList ∧
        toUpper upper a ≠ "UNDEFINED".toList) := by
    simp only [validAlgorithms, List.mem_cons, List.mem_singleton, List.not_mem_nil, or_false]
    tauto
  by_cases hA : toUpper upper a ∈ validAlgorithms
  · have hcond := hvalid.mp hA
    have hrun : handleViewAlgorithm upper db database viewName a execute =
        (match generateAlterViewStatement db database viewName (toUpper upper a) with
          | .error e => ([Effect.queried (showCreateViewQuery database viewName)], .error e)
          | .panic => ([Effect.queried (showCreateViewQuery database viewName)], .panic)
          | .ok alterStmt =>
            if execute then
              match db.exec alterStmt with
              | some e =>
                ([Effect.queried (showCreateViewQuery database viewName),
                  Effect.printed alterStmt] ++ [Effect.executed alterStmt],
                  .error ("error executing ALTER VIEW statement: ".toList ++ e))
              | none =>
                ([Effect.queried (showCreateViewQuery database viewName),
                  Effect.printed alterStmt] ++ [Effect.executed alterStmt], .ok ())
            else ([Effect.queried (showCreateViewQuery database viewName),
                  Effect.printed alterStmt], .ok ())) := by
      unfold handleViewAlgorithm
      simp only [if_neg hcond]
    rw [hrun]
    refine ⟨⟨?_, fun h => absurd hA h⟩, fun h => absurd hA h, fun _ => ⟨?_, ?_, ?_⟩⟩
    · rintro ⟨m, hm⟩
      exfalso
      cases hg : generateAlterViewStatement db database viewName (toUpper upper a) with
      | error e =>
        rw [hg] at hm
        simp only [Outcome.error.injEq] at hm
        rcases generateAlterViewStatement_error_head db database viewName _ e hg with h | h
        all_goals (rw [hm] at h; simp at h)
      | panic => rw [hg] at hm; simp at hm
      | ok stmt =>
        rw [hg] at hm
        cases execute with
        | false => simp at hm
        | true =>
          cases hx : db.exec stmt with
          | none => simp [hx] at hm
          | some e => simp [hx] at hm
    · cases hg : generateAlterViewStatement db database viewName (toUpper upper a) with
      | error e => rfl
      | panic => rfl
      | ok stmt =>
        cases execute with
        | false => rfl
        | true => cases hx : db.exec stmt <;> simp [hx]
    · intro stmt hg
      rw [hg]
      cases execute with
      | false => simp
      | true => cases hx : db.exec stmt <;> simp [hx]
    · intro stmt hmem
      have hok : generateAlterViewStatement db database viewName (toUpper upper a) = .ok stmt := by
        cases hg : generateAlterViewStatement db database viewName (toUpper upper a) with
        | error e => rw [hg] at hmem; simp at hmem
        | panic => rw [hg] at hmem; simp at hmem
        | ok s =>
          rw [hg] at hmem
          cases execute with
          | false => simp at hmem; rw [hmem]
          | true =>
            cases hx : db.exec s with
            | none => simp [hx] at hmem; rw [hmem]
            | some e => simp [hx] at hmem; rw [hmem]
      refine ⟨hok, ?_⟩
      obtain ⟨createStmt, p, -, -, rfl⟩ := generateAlterViewStatement_ok _ _ _ _ _ hok
      exact composeAlter_has_algorithm _ _ _ _
  · have hcond : toUpper upper a ≠ "MERGE".toList ∧ toUpper upper a ≠ "TEMPTABLE".toList ∧
        toUpper upper a ≠ "UNDEFINED".toList := by
      by_contra h
      exact hA (hvalid.mpr h)
    have hrun : handleViewAlgorithm upper db database viewName a execute =
        ([], .error (invalidAlgorithmMessage (toUpper upper a))) := by
      unfold handleViewAlgorithm invalidAlgorithmMessage
      simp only [if_pos hcond]
    rw [hrun]
    refine ⟨⟨fun _ => hA, fun _ => ⟨toUpper upper a ++
      ". Must be MERGE, TEMPTABLE, or UNDEFINED".toList, ?_⟩⟩, fun _ => rfl, fun h => absurd h hA⟩
    simp only [invalidAlgorithmMessage, List.append_assoc]

/-- C7, witness: the algorithm `fast` is refused before anything is queried,
and `merge` is accepted and composed as `MERGE`. -/
theorem handleViewAlgorithm_validation_witness :
    handleViewAlgorithm asciiUpper sampleDB "sales".toList "x".toList "fast".toList true =
      ([], .error "invalid algorithm: FAST. Must be MERGE, TEMPTABLE, or UNDEFINED".toList) ∧
    Effect.printed (composeAlter "sales".toList "x".toList "MERGE".toList sampleParsed) ∈
      (handleViewAlgorithm asciiUpper sampleDB "sales".toList "x".toList "merge".toList true).1 :=
  ⟨(handleViewAlgorithm_validation asciiUpper sampleDB "sales".toList "x".toList
      "fast".toList true).2.1 (by decide),
   ((handleViewAlgorithm_validation asciiUpper sampleDB "sales".toList "x".toList
      "merge".toList true).2.2 (by decide)).2.1 _ (by decide)⟩

/-! ## C8: the composed statement -/

/-- C8 (amended): when the query answers with `createStmt` and the marker scan
of `createStmt` yields the definer clause, the security clause and the body,
`generateAlterViewStatement` returns exactly `ALTER` and a space, then a
newline, four spaces and `ALGORITHM = A`, then a newline, four spaces and the
definer clause, then a newline, four spaces and the security clause, then a
newline, four spaces, `VIEW`, the database and the view name each between
backticks and joined by a dot, ` AS `, the body and `;`. -/
theorem generateAlterViewStatement_text (db : DB) (database viewName algorithm createStmt : Str)
    (p : ParsedDDL)
    (hq : db.queryRow (showCreateViewQuery database viewName) = .ok createStmt)
    (hp : decompose createStmt = .ok p) :
    generateAlterViewStatement db database viewName algorithm =
      .ok ("ALTER".toList ++ [' ', '\n'] ++ indent ++ "ALGORITHM = ".toList ++ algorithm ++
        ['\n'] ++ indent ++ p.definer ++ ['\n'] ++ indent ++ p.security ++ ['\n'] ++ indent ++
        "VIEW ".toList ++ "`".toList ++ database ++ "`".toList ++ ['.'] ++ "`".toList ++
        viewName ++ "`".toList ++ " AS ".toList ++ p.viewDefinition ++ [';']) := by
  unfold generateAlterViewStatement
  rw [hq]
  simp only [hp, composeAlter, indent]
  simp

/-- C8, witness: the statement composed for the example of the
specification. -/
theorem generateAlterViewStatement_text_witness :
    generateAlterViewStatement sampleDB "sales".toList "x".toList "MERGE".toList =
      .ok ("ALTER \n    ALGORITHM = MERGE\n    DEFINER=`a`@`%`\n    SQL SECURITY DEFINER\n" ++
           "    VIEW `sales`.`x` AS SELECT 1;").toList :=
  generateAlterViewStatement_text sampleDB "sales".toList "x".toList "MERGE".toList sampleDDL
    sampleParsed rfl (by decide)

/-- C8, counterexample: the statement composed for the example is not the
text with the newline right after `ALTER` and the view written `sales.x`. -/
theorem generateAlterViewStatement_text_counterexample :
    generateAlterViewStatement sampleDB "sales".toList "x".toList "MERGE".toList ≠
      .ok ("ALTER\n    ALGORITHM = MERGE\n    DEFINER=`a`@`%`\n    SQL SECURITY DEFINER\n" ++
           "    VIEW sales.x AS SELECT 1;").toList := by
  decide

/-! ## C9: the composed statement holds the three extracted parts -/

/-- C9: when the marker scan of the queried view definition succeeds with
definer clause, security clause and body, the statement composed for the
algorithm `MERGE` contains each of the three as a substring, and contains
`ALGORITHM = MERGE`. -/
theorem generateAlterViewStatement_contains (db : DB) (database viewName createStmt : Str)
    (p : ParsedDDL)
    (hq : db.queryRow (showCreateViewQuery database viewName) = .ok createStmt)
    (hp : decompose createStmt = .ok p) :
    ∃ stmt, generateAlterViewStatement db database viewName "MERGE".toList = .ok stmt ∧
      p.definer <:+: stmt ∧ p.security <:+: stmt ∧ p.viewDefinition <:+: stmt ∧
      "ALGORITHM = MERGE".toList <:+: stmt := by
  refine ⟨composeAlter database viewName "MERGE".toList p, ?_, ?_, ?_, ?_, ?_⟩
  · unfold generateAlterViewStatement
    rw [hq]
    simp only [hp]
  · exact ⟨"ALTER \n    ALGORITHM = ".toList ++ "MERGE".toList ++ "\n    ".toList,
      "\n    ".toList ++ p.security ++ "\n    VIEW `".toList ++ database ++ "`.`".toList ++
      viewName ++ "` AS ".toList ++ p.viewDefinition ++ ";".toList, by simp [composeAlter]⟩
  · exact ⟨"ALTER \n    ALGORITHM = ".toList ++ "MERGE".toList ++ "\n    ".toList ++ p.definer ++
      "\n    ".toList, "\n    VIEW `".toList ++ database ++ "`.`".toList ++
      viewName ++ "` AS ".toList ++ p.viewDefinition ++ ";".toList, by simp [composeAlter]⟩
  · exact ⟨"ALTER \n    ALGORITHM = ".toList ++ "MERGE".toList ++ "\n    ".toList ++ p.definer ++
      "\n    ".toList ++ p.security ++ "\n    VIEW `".toList ++ database ++ "`.`".toList ++
      viewName ++ "` AS ".toList, ";".toList, by simp [composeAlter]⟩
  · exact composeAlter_has_algorithm database viewName "MERGE".toList p

/-- C9, witness: the example of the specification. -/
theorem generateAlterViewStatement_contains_witness :
    ∃ stmt, generateAlterViewStatement sampleDB "sales".toList "x".toList "MERGE".toList =
        .ok stmt ∧
      "DEFINER=`a`@`%`".toList <:+: stmt ∧ "SQL SECURITY DEFINER".toList <:+: stmt ∧
      "SELECT 1".toList <:+: stmt ∧ "ALGORITHM = MERGE".toList <:+: stmt :=
  generateAlterViewStatement_contains sampleDB "sales".toList "x".toList sampleDDL
    sampleParsed rfl (by decide)

/-! ## C5: one record per named announcement -/

theorem parseStep_views_of_not_announcement (st : ParseState) (raw : Str)
    (h : isAnnouncement raw = false) :
    (parseStep st raw).views = st.views ∧ (parseStep st raw).currentView = st.currentView := by
  have h2 : hasPrefix (trimSpace raw) "Processing view:".toList = false := h
  unfold parseStep
  simp only [h2, Bool.false_eq_true, if_false]
  repeat' split
  all_goals exact ⟨rfl, rfl⟩

theorem length_saveView (st : ParseState) :
    (saveView st).length = st.views.length + (if st.currentView.ViewName ≠ [] then 1 else 0) := by
  unfold saveView
  split <;> simp

theorem length_saveView_parseStep (st : ParseState) (raw : Str) :
    (saveView (parseStep st raw)).length =
      (saveView st).length + (if isNamedAnnouncement raw = true then 1 else 0) := by
  cases h : isAnnouncement raw with
  | false =>
    obtain ⟨hv, hc⟩ := parseStep_views_of_not_announcement st raw h
    rw [length_saveView, length_saveView, hv, hc]
    simp [isNamedAnnouncement, h]
  | true =>
    rw [parseStep_of_announcement st raw h, length_saveView]
    simp only [isNamedAnnouncement, h, Bool.true_and, announcedName, decide_eq_true_eq]

theorem length_saveView_foldl (st : ParseState) (lines : List Str) :
    (saveView (lines.foldl parseStep st)).length =
      (saveView st).length + (lines.filter isNamedAnnouncement).length := by
  induction lines generalizing st with
  | nil => simp
  | cons raw lines ih =>
    rw [List.foldl_cons, ih, length_saveView_parseStep, List.filter_cons]
    split <;> first | (simp; done) | (simp; omega)

theorem isAnnouncement_x (t : Str) : isAnnouncement ('x' :: t) = false := by
  unfold isAnnouncement
  rw [trimSpace_cons_of_not 'x' t (by decide)]
  simp [hasPrefix, List.isPrefixOf_cons₂]

/-- C5 (amended): for every transcript, the number of records returned by
`parseViewsFile` equals the number of object-announcement lines that carry a
non-blank view name among the lines the scanner reads, those before the first
line of 64 KiB or more; the error is `nil` exactly when every line is
shorter than that. -/
theorem parseViewsFile_length (lines : List Str) :
    (parseViewsFile lines).1.length =
      ((lines.takeWhile scannable).filter isNamedAnnouncement).length ∧
    ((parseViewsFile lines).2 = none ↔ ∀ l ∈ lines, scannable l = true) := by
  rw [parseViewsFile_eq]
  constructor
  · show (parseLines (lines.takeWhile scannable)).length = _
    unfold parseLines
    rw [length_saveView_foldl]
    simp [saveView, ParseState.init]
  · show (if lines.all scannable = true then none else some errTooLong) = none ↔ _
    by_cases h : lines.all scannable = true
    · rw [if_pos h]
      simpa using h
    · rw [if_neg h]
      simpa using h

/-- C5, counterexample: an announcement line without a name is an
object-announcement line, and no record is returned for it; and no record is
returned for an announcement line that follows a line of 64 KiB. -/
theorem parseViewsFile_length_counterexample :
    ((parseViewsFile ["Processing view:".toList]).1.length = 0 ∧
      (["Processing view:".toList].filter isAnnouncement).length = 1) ∧
    ((parseViewsFile ["Processing view: a".toList, "Processing view:".toList,
        "Processing view: b".toList]).1.length = 2 ∧
      (["Processing view: a".toList, "Processing view:".toList,
        "Processing view: b".toList].filter isAnnouncement).length = 3) ∧
    (parseViewsFile [List.replicate maxScanTokenSize 'x', "Processing view: a".toList] =
        ([], some errTooLong) ∧
      ([List.replicate maxScanTokenSize 'x', "Processing view: a".toList].filter
        isAnnouncement).length = 1) := by
  refine ⟨by decide, by decide, ?_, ?_⟩
  · exact parseViewsFile_of_long [] (List.replicate maxScanTokenSize 'x')
      ["Processing view: a".toList] (by simp) (scannable_replicate 'x' (by decide))
  · have h1 : isAnnouncement (List.replicate maxScanTokenSize 'x') = false :=
      isAnnouncement_x (List.replicate 65535 'x')
    have h2 : isAnnouncement "Processing view: a".toList = true := by decide
    rw [List.filter_cons_of_neg (by simp [h1]), List.filter_cons_of_pos h2]
    rfl

/-! ## Occurrences of a marker around a replaced piece of text -/

theorem countOcc_cons (w : Str) (c : Char) (s : Str) :
    countOcc w (c :: s) = (if w <+: c :: s then 1 else 0) + countOcc w s := by
  simp only [countOcc, List.isPrefixOf_iff_prefix]

theorem countOcc_eq_zero_iff (w s : Str) : countOcc w s = 0 ↔ ¬ w <:+: s := by
  induction s with
  | nil =>
    cases w with
    | nil => simp [countOcc]
    | cons a w => simp [countOcc]
  | cons c s ih =>
    rw [countOcc_cons, List.infix_cons_iff]
    by_cases hp : w <+: c :: s
    · simp [hp]
    · simp [hp, ih]

/-- A prefix of `x ++ z` that is not a prefix of `x` runs over the end of
`x`. -/
theorem prefix_append_cases {w x z : Str} (h : w <+: x ++ z) :
    w <+: x ∨ (x.length < w.length ∧ w.drop x.length <+: z) := by
  by_cases hl : w.length ≤ x.length
  · left
    exact List.prefix_of_prefix_length_le h (List.prefix_append x z) hl
  · right
    refine ⟨by omega, ?_⟩
    obtain ⟨t, ht⟩ := h
    have hx : x <+: w := by
      have h1 : x <+: w ++ t := by rw [ht]; exact List.prefix_append x z
      exact List.prefix_of_prefix_length_le h1 (List.prefix_append w t) (by omega)
    obtain ⟨u, hu⟩ := hx
    subst hu
    rw [List.append_assoc] at ht
    have := List.append_cancel_left ht
    simp only [List.drop_left]
    exact ⟨t, this⟩

theorem agree_of_prefix_append {u m y : Str} (h : u <+: m ++ y) : Agree u m := by
  rcases prefix_append_cases h with h1 | ⟨h2, -⟩
  · exact Or.inl h1
  · right
    obtain ⟨t, ht⟩ := h
    have h1 : m <+: u ++ t := by rw [ht]; exact List.prefix_append m y
    exact List.prefix_of_prefix_length_le h1 (List.prefix_append u t) (by omega)

/-- With no straddling, an occurrence that starts in `x` ends in `x`. -/
theorem prefix_append_iff_of_noStraddle {w m : Str} (hs : NoStraddle w m) (x y : Str)
    (hx : x ≠ []) : w <+: x ++ (m ++ y) ↔ w <+: x := by
  constructor
  · intro h
    rcases prefix_append_cases h with h1 | ⟨h2, h3⟩
    · exact h1
    · exact absurd (agree_of_prefix_append h3)
        (hs x.length h2 (List.length_pos.mpr hx))
  · intro h
    exact h.trans (List.prefix_append x _)

/-- With no occurrence starting inside `m`, the occurrences in `m' ++ y`, for
a suffix `m'` of `m`, are those of `y`. -/
theorem countOcc_suffix_append {w m : Str} (start : Nat) (hi : NoInside w m start) (hw : w ≠ [])
    (y : Str) (e : Nat) (he : start ≤ e) :
    countOcc w (m.drop e ++ y) = countOcc w y := by
  by_cases hlt : e < m.length
  · have hne : m.drop e ≠ [] := by
      intro h
      have := congrArg List.length h
      simp at this
      omega
    obtain ⟨c, r, hcr⟩ := List.exists_cons_of_ne_nil hne
    have hr : r = m.drop (e + 1) := by
      have := congrArg List.tail hcr
      simpa [List.tail_drop] using this.symm
    have hnp : ¬ w <+: c :: (r ++ y) := by
      intro h
      have : w <+: m.drop e ++ y := by rw [hcr]; simpa using h
      exact hi e hlt he (agree_of_prefix_append this)
    rw [hcr, List.cons_append, countOcc_cons, if_neg hnp, hr, Nat.zero_add]
    exact countOcc_suffix_append start hi hw y (e + 1) (by omega)
  · rw [List.drop_eq_nil_of_le (by omega)]
    rfl
termination_by m.length - e

theorem countOcc_append_mid {w m : Str} (hs : NoStraddle w m) (hi : NoInside w m 0)
    (hw : w ≠ []) (x y : Str) :
    countOcc w (x ++ m ++ y) = countOcc w x + countOcc w y := by
  induction x with
  | nil =>
    have := countOcc_suffix_append 0 hi hw y 0 (le_refl 0)
    cases w with
    | nil => exact absurd rfl hw
    | cons a w => simpa [countOcc] using this
  | cons c x ih =>
    have e : c :: x ++ m ++ y = c :: (x ++ m ++ y) := by simp
    rw [e, countOcc_cons, countOcc_cons, ih]
    have : (w <+: c :: (x ++ m ++ y)) ↔ (w <+: c :: x) := by
      have := prefix_append_iff_of_noStraddle hs (c :: x) y (by simp)
      simpa [List.append_assoc] using this
    simp only [this]
    omega

/-- An unbordered marker standing in a text occurs there once more than in
the text before and the text after it. -/
theorem countOcc_append_self {w : Str} (hs : NoStraddle w w) (hi : NoInside w w 1)
    (hw : w ≠ []) (x y : Str) :
    countOcc w (x ++ w ++ y) = countOcc w x + 1 + countOcc w y := by
  induction x with
  | nil =>
    obtain ⟨a, r, rfl⟩ := List.exists_cons_of_ne_nil hw
    have h1 := countOcc_suffix_append 1 hi hw y 1 (le_refl 1)
    simp only [List.drop_succ_cons, List.drop_zero] at h1
    have hp : (a :: r) <+: a :: (r ++ y) := by
      simp
    simp only [List.nil_append, List.cons_append, countOcc_cons, if_pos hp, h1]
    simp [countOcc]
  | cons c x ih =>
    have e : c :: x ++ w ++ y = c :: (x ++ w ++ y) := by simp
    rw [e, countOcc_cons, countOcc_cons, ih]
    have : (w <+: c :: (x ++ w ++ y)) ↔ (w <+: c :: x) := by
      have := prefix_append_iff_of_noStraddle hs (c :: x) y (by simp)
      simpa [List.append_assoc] using this
    simp only [this]
    omega


/-! ## `strings.Replace` with count 1 -/

theorem replaceFirst_of_absent (old new s : Str) (h : ¬ old <:+: s) :
    replaceFirst old new s = s := by
  induction s with
  | nil => rfl
  | cons c s ih =>
    rw [List.infix_cons_iff] at h
    have hp : old.isPrefixOf (c :: s) = false := by
      rw [← Bool.not_eq_true, List.isPrefixOf_iff_prefix]
      exact fun hp => h (Or.inl hp)
    simp only [replaceFirst, hp, Bool.false_eq_true, if_false]
    rw [ih (fun hi => h (Or.inr hi))]

theorem replaceFirst_here (old new s : Str) (hs : s ≠ []) (h : old <+: s) :
    replaceFirst old new s = new ++ s.drop old.length := by
  obtain ⟨c, r, rfl⟩ := List.exists_cons_of_ne_nil hs
  have hp : old.isPrefixOf (c :: r) = true := by rwa [List.isPrefixOf_iff_prefix]
  simp only [replaceFirst, hp, if_true]

theorem replaceFirst_skip (old new : Str) (c : Char) (s : Str) (h : ¬ old <+: c :: s) :
    replaceFirst old new (c :: s) = c :: replaceFirst old new s := by
  have hp : old.isPrefixOf (c :: s) = false := by
    rwa [← Bool.not_eq_true, List.isPrefixOf_iff_prefix]
  simp only [replaceFirst, hp, Bool.false_eq_true, if_false]

/-- The first occurrence of an unbordered marker is the one that follows a
text free of the marker. -/
theorem replaceFirst_append_self {old : Str} (new : Str) (hs : NoStraddle old old)
    (ho : old ≠ []) (a b : Str) (ha : ¬ old <:+: a) :
    replaceFirst old new (a ++ old ++ b) = a ++ new ++ b := by
  induction a with
  | nil =>
    have hne : [] ++ old ++ b ≠ [] := by simp [ho]
    rw [replaceFirst_here old new _ hne (by simp)]
    simp
  | cons c a ih =>
    have hna : ¬ old <:+: a := fun h => ha (List.infix_cons h)
    have hnp : ¬ old <+: c :: (a ++ old ++ b) := by
      intro h
      have := (prefix_append_iff_of_noStraddle hs (c :: a) b (by simp)).mp
        (by simpa [List.append_assoc] using h)
      exact ha this.isInfix
    have e : c :: a ++ old ++ b = c :: (a ++ old ++ b) := by simp
    rw [e, replaceFirst_skip old new c _ hnp, ih hna]
    simp

theorem replaceFirst_suffix_append {w m : Str} (new : Str) (hi : NoInside w m 0) (y : Str)
    (e : Nat) : replaceFirst w new (m.drop e ++ y) = m.drop e ++ replaceFirst w new y := by
  by_cases hlt : e < m.length
  · have hne : m.drop e ≠ [] := by
      intro h
      have := congrArg List.length h
      simp at this
      omega
    obtain ⟨c, r, hcr⟩ := List.exists_cons_of_ne_nil hne
    have hr : r = m.drop (e + 1) := by
      have := congrArg List.tail hcr
      simpa [List.tail_drop] using this.symm
    have hnp : ¬ w <+: c :: (r ++ y) := by
      intro h
      have : w <+: m.drop e ++ y := by rw [hcr]; simpa using h
      exact hi e hlt (Nat.zero_le e) (agree_of_prefix_append this)
    rw [hcr, List.cons_append, replaceFirst_skip w new c _ hnp, hr,
      replaceFirst_suffix_append new hi y (e + 1)]
    simp
  · rw [List.drop_eq_nil_of_le (by omega)]
    rfl
termination_by m.length - e

/-- A first occurrence cannot straddle or start inside a piece of text it
does not touch: it is replaced in the text before, or else in the text
after. -/
theorem replaceFirst_append_mid {w m : Str} (new : Str) (hs : NoStraddle w m)
    (hi : NoInside w m 0) (hw : w ≠ []) (x y : Str) :
    replaceFirst w new (x ++ m ++ y) =
      if w <:+: x then replaceFirst w new x ++ m ++ y else x ++ m ++ replaceFirst w new y := by
  induction x with
  | nil =>
    have h : ¬ w <:+: ([] : Str) := fun hin => hw (List.infix_nil.mp hin)
    have := replaceFirst_suffix_append new hi y 0
    simp only [List.drop_zero] at this
    rw [if_neg h]; simpa using this
  | cons c x ih =>
    have e : c :: x ++ m ++ y = c :: (x ++ m ++ y) := by simp
    have hiff : (w <+: c :: (x ++ m ++ y)) ↔ (w <+: c :: x) := by
      have := prefix_append_iff_of_noStraddle hs (c :: x) y (by simp)
      simpa [List.append_assoc] using this
    by_cases hp : w <+: c :: x
    · have hin : w <:+: c :: x := hp.isInfix
      rw [if_pos hin, e, replaceFirst_here w new _ (by simp) (hiff.mpr hp),
        replaceFirst_here w new _ (by simp) hp]
      have hl : w.length ≤ (c :: x).length := hp.length_le
      have : List.drop w.length (c :: (x ++ m ++ y)) = List.drop w.length (c :: x) ++ m ++ y := by
        rw [← e, List.append_assoc, List.drop_append_of_le_length hl, List.append_assoc]
      rw [this]
      simp
    · have hcons : (w <:+: c :: x) ↔ (w <:+: x) := by
        rw [List.infix_cons_iff]; tauto
      rw [e, replaceFirst_skip w new c _ (fun h => hp (hiff.mp h)), ih]
      simp only [hcons]
      split
      · rw [replaceFirst_skip w new c _ hp]; simp
      · simp

/-- The text around the first occurrence of `old` is kept. -/
theorem replaceFirst_decomp (old new s : Str) (ho : old ≠ []) (h : old <:+: s) :
    ∃ x y, s = x ++ old ++ y ∧ replaceFirst old new s = x ++ new ++ y := by
  induction s with
  | nil => exact absurd (List.infix_nil.mp h) ho
  | cons c s ih =>
    by_cases hp : old <+: c :: s
    · obtain ⟨t, ht⟩ := hp
      refine ⟨[], t, by simp [ht], ?_⟩
      rw [replaceFirst_here old new _ (by simp) ⟨t, ht⟩, ← ht]
      simp
    · have hin : old <:+: s := by
        rcases List.infix_cons_iff.mp h with h1 | h1
        · exact absurd h1 hp
        · exact h1
      obtain ⟨x, y, hxy, hr⟩ := ih hin
      refine ⟨c :: x, y, by simp [hxy], ?_⟩
      rw [replaceFirst_skip old new c s hp, hr]
      simp

/-- Replacing the first occurrence of `old` by `new` keeps the number of
occurrences of a marker that touches neither. -/
theorem countOcc_replaceFirst {w old new : Str} (hw : w ≠ []) (ho : old ≠ [])
    (hso : NoStraddle w old) (hio : NoInside w old 0)
    (hsn : NoStraddle w new) (hin : NoInside w new 0) (s : Str) :
    countOcc w (replaceFirst old new s) = countOcc w s := by
  by_cases h : old <:+: s
  · obtain ⟨x, y, hxy, hr⟩ := replaceFirst_decomp old new s ho h
    rw [hr, hxy, countOcc_append_mid hsn hin hw, countOcc_append_mid hso hio hw]
  · rw [replaceFirst_of_absent old new s h]

/-! ## The keyword scan -/


theorem isBoundary_eq_wb (a b : Option Char) : isBoundary a b = (wb a != wb b) := rfl

theorem kwMatchAt_congr (kw : Str) {p q : Option Char} (h : wb p = wb q) (t : Str) :
    kwMatchAt kw p t = kwMatchAt kw q t := by
  simp only [kwMatchAt, isBoundary_eq_wb, h]

theorem replaceKwAux_congr (kw : Str) (n : Nat) {p q : Option Char} (h : wb p = wb q) (t : Str) :
    replaceKwAux kw n p t = replaceKwAux kw n q t := by
  cases t with
  | nil => simp [replaceKwAux]
  | cons c t =>
    cases n with
    | zero => simp only [replaceKwAux, kwMatchAt_congr kw h]
    | succ n => simp only [replaceKwAux]

/-- Skipped characters are dropped, and the scan resumes after them. -/
theorem replaceKwAux_skip (kw : Str) (n : Nat) (prev : Option Char) (t : Str)
    (hn : n < t.length) :
    replaceKwAux kw (n + 1) prev t = replaceKwAux kw 0 (t.take (n + 1)).getLast? (t.drop (n + 1)) := by
  induction n generalizing prev t with
  | zero =>
    cases t with
    | nil => simp at hn
    | cons c t => simp [replaceKwAux]
  | succ n ih =>
    cases t with
    | nil => simp at hn
    | cons c t =>
      have hn' : n < t.length := by simpa using hn
      rw [replaceKwAux, ih (some c) t hn']
      obtain ⟨d, t', rfl⟩ := List.exists_cons_of_ne_nil (List.ne_nil_of_length_pos (by omega : 0 < t.length))
      simp [List.take_succ_cons, List.getLast?_cons_cons]

theorem matchesHere_length {kw t : Str} (h : matchesHere kw t = true) : kw.length ≤ t.length := by
  induction kw generalizing t with
  | nil => simp
  | cons k ks ih =>
    cases t with
    | nil => simp [matchesHere] at h
    | cons c t =>
      simp only [matchesHere, Bool.and_eq_true] at h
      have := ih h.2
      simp; omega

theorem kwMatchAt_matchesHere {kw : Str} {prev : Option Char} {t : Str}
    (h : kwMatchAt kw prev t = true) : matchesHere kw t = true := by
  simp only [kwMatchAt, Bool.and_eq_true] at h
  exact h.1.1

/-- The scan at a match: the replacement text, then the scan of what follows
the matched text. -/
theorem replaceKwAux_hit (kw : Str) (prev : Option Char) (t : Str) (hkw : kw ≠ [])
    (h : kwMatchAt kw prev t = true) :
    replaceKwAux kw 0 prev t =
      breakBefore kw ++ replaceKwAux kw 0 (t.take kw.length).getLast? (t.drop kw.length) := by
  have hlen := matchesHere_length (kwMatchAt_matchesHere h)
  obtain ⟨k, ks, rfl⟩ := List.exists_cons_of_ne_nil hkw
  cases t with
  | nil => simp at hlen
  | cons c t =>
    simp only [replaceKwAux, h, if_true, List.length_cons, Nat.add_sub_cancel]
    congr 1
    cases hks : ks.length with
    | zero => simp [hks]
    | succ n =>
      have hn : n < t.length := by simp [hks] at hlen; omega
      rw [replaceKwAux_skip (k :: ks) n (some c) t hn]
      obtain ⟨d, t', rfl⟩ := List.exists_cons_of_ne_nil (List.ne_nil_of_length_pos (by omega : 0 < t.length))
      simp [List.take_succ_cons, List.getLast?_cons_cons]

theorem replaceKwAux_miss (kw : Str) (prev : Option Char) (c : Char) (t : Str)
    (h : kwMatchAt kw prev (c :: t) = false) :
    replaceKwAux kw 0 prev (c :: t) = c :: replaceKwAux kw 0 (some c) t := by
  simp [replaceKwAux, h]


theorem lastOr_append (prev : Option Char) (a b : Str) :
    lastOr prev (a ++ b) = lastOr (lastOr prev a) b := by
  induction a generalizing prev with
  | nil => rfl
  | cons c a ih => exact ih (some c)

theorem lastOr_eq_getLast? (prev : Option Char) (c : Char) (a : Str) :
    lastOr prev (c :: a) = (c :: a).getLast? := by
  induction a generalizing prev c with
  | nil => rfl
  | cons d a ih => rw [lastOr, ih, List.getLast?_cons_cons]

/-- The scan copies a stretch in which no match starts. -/
theorem replaceKwAux_of_noHitsIn (kw : Str) (prev : Option Char) (a b : Str)
    (h : noHitsIn kw prev a b = true) :
    replaceKwAux kw 0 prev (a ++ b) = a ++ replaceKwAux kw 0 (lastOr prev a) b := by
  induction a generalizing prev with
  | nil => rfl
  | cons c a ih =>
    simp only [noHitsIn, Bool.and_eq_true, Bool.not_eq_true'] at h
    rw [List.cons_append, replaceKwAux_miss kw prev c _ h.1, ih (some c) h.2]
    rfl

theorem noHitsIn_append (kw : Str) (prev : Option Char) (a b c : Str) :
    noHitsIn kw prev (a ++ b) c =
      (noHitsIn kw prev a (b ++ c) && noHitsIn kw (lastOr prev a) b c) := by
  induction a generalizing prev with
  | nil => simp [noHitsIn, lastOr]
  | cons d a ih =>
    show (!kwMatchAt kw prev (d :: (a ++ b ++ c)) && noHitsIn kw (some d) (a ++ b) c) =
      ((!kwMatchAt kw prev (d :: (a ++ (b ++ c))) && noHitsIn kw (some d) a (b ++ c)) &&
        noHitsIn kw (lastOr (some d) a) b c)
    rw [ih (some d), List.append_assoc, Bool.and_assoc]


theorem isWordChar_of_asciiLower {c l : Char} (h : asciiLower c = l) (hl : isWordChar l = true) :
    isWordChar c = true := by
  unfold asciiLower at h
  split at h
  · rename_i hr
    simp only [Bool.and_eq_true, decide_eq_true_eq] at hr
    simp [isWordChar, hr.1, hr.2]
  · rw [h]; exact hl

theorem isWordChar_of_foldMatch {k c : Char} (hk : strictWord k = true)
    (h : foldMatch k c = true) : isWordChar c = true := by
  simp only [strictWord, Bool.and_eq_true, decide_eq_true_eq] at hk
  obtain ⟨⟨⟨h1, h2⟩, h3⟩, h4⟩ := hk
  simp only [foldMatch, Bool.or_eq_true, Bool.and_eq_true, decide_eq_true_eq] at h
  rcases h with ((h | h) | h) | h
  · rw [h]; exact h1
  · exact isWordChar_of_asciiLower h h2
  · exact absurd h.1 h3
  · exact absurd h.1 h4

theorem matchesHere_append_of_le {kw a : Str} (b : Str) (h : kw.length ≤ a.length) :
    matchesHere kw (a ++ b) = matchesHere kw a := by
  induction kw generalizing a with
  | nil => simp [matchesHere]
  | cons k ks ih =>
    cases a with
    | nil => simp at h
    | cons c a =>
      rw [List.cons_append, matchesHere, matchesHere, ih (by simpa using h)]

theorem matchesHere_append_split {kw a : Str} (b : Str) (h : a.length ≤ kw.length) :
    matchesHere kw (a ++ b) =
      (matchesHere (kw.take a.length) a && matchesHere (kw.drop a.length) b) := by
  induction a generalizing kw with
  | nil => simp [matchesHere]
  | cons c a ih =>
    cases kw with
    | nil => simp at h
    | cons k ks =>
      rw [List.cons_append, matchesHere, List.length_cons, List.take_succ_cons,
        List.drop_succ_cons, matchesHere, ih (by simpa using h), Bool.and_assoc]

theorem matchesHere_drop {kw t : Str} (i : Nat) (h : matchesHere kw t = true) :
    matchesHere (kw.drop i) (t.drop i) = true := by
  induction i generalizing kw t with
  | zero => simpa using h
  | succ i ih =>
    cases kw with
    | nil => simp [matchesHere]
    | cons k ks =>
      cases t with
      | nil => simp [matchesHere] at h
      | cons c t =>
        simp only [matchesHere, Bool.and_eq_true] at h
        simpa using ih h.2

/-- The last character of the text a keyword matches is a word character
when the last character of the keyword is strict. -/
theorem wb_last_of_matchesHere {kw t : Str} (hk : (kw.getLast?.map strictWord).getD false = true)
    (h : matchesHere kw t = true) : wb (t.take kw.length).getLast? = true := by
  induction kw generalizing t with
  | nil => simp at hk
  | cons k ks ih =>
    cases t with
    | nil => simp [matchesHere] at h
    | cons c t =>
      simp only [matchesHere, Bool.and_eq_true] at h
      cases ks with
      | nil =>
        simp only [List.getLast?_singleton, Option.map_some', Option.getD_some] at hk
        simp [wb, isWordChar_of_foldMatch hk h.1]
      | cons k2 ks2 =>
        rw [List.getLast?_cons_cons] at hk
        have := ih hk h.2
        cases t with
        | nil => simp [matchesHere] at h
        | cons d t =>
          simpa [List.take_succ_cons, List.getLast?_cons_cons] using this

theorem wb_none : wb none = false := rfl

theorem head?_drop_append (a b : Str) (n : Nat) (h : n ≤ a.length) :
    wb ((a ++ b).drop n).head? = if n < a.length then wb (a.drop n).head? else wb b.head? := by
  rw [List.drop_append_of_le_length h]
  split
  · rename_i hlt
    have : a.drop n ≠ [] := by
      intro he
      have := congrArg List.length he
      simp at this; omega
    obtain ⟨c, r, hcr⟩ := List.exists_cons_of_ne_nil this
    rw [hcr]; rfl
  · rename_i hge
    rw [List.drop_eq_nil_of_le (by omega)]
    rfl

/-- A match that fits in `a` is found in `a ++ b` exactly when it is found
in `a`, when it ends before the end of `a` or `b` starts with no word
character. -/
theorem kwMatchAt_append_of_le (kw : Str) (prev : Option Char) (a b : Str) (ha : a ≠ [])
    (hle : kw.length ≤ a.length) (hb : kw.length < a.length ∨ wb b.head? = false) :
    kwMatchAt kw prev (a ++ b) = kwMatchAt kw prev a := by
  obtain ⟨c, r, rfl⟩ := List.exists_cons_of_ne_nil ha
  simp only [kwMatchAt, isBoundary_eq_wb, matchesHere_append_of_le b hle,
    List.take_append_of_le_length hle]
  have h1 : ((c :: r) ++ b).head? = (c :: r).head? := rfl
  rw [h1, head?_drop_append _ _ _ hle]
  rcases hb with hb | hb
  · rw [if_pos hb]
  · split
    · rfl
    · rw [hb, List.drop_eq_nil_of_le (by omega)]
      rfl

/-- A match that starts in `a` and ends in `b`. -/
theorem crossHit_of_kwMatchAt (kw : Str) (prev : Option Char) (a b : Str)
    (hlt : a.length < kw.length) (h : kwMatchAt kw prev (a ++ b) = true) :
    crossHit (kw.drop a.length) b = true := by
  simp only [kwMatchAt, Bool.and_eq_true] at h
  obtain ⟨⟨hm, -⟩, hb⟩ := h
  rw [matchesHere_append_split b (by omega), Bool.and_eq_true] at hm
  have hlen := matchesHere_length hm.2
  simp only [List.length_drop] at hlen
  have hpos : 0 < kw.length - a.length := by omega
  simp only [crossHit, hm.2, Bool.true_and, List.length_drop]
  have e1 : (a ++ b).take kw.length = a ++ b.take (kw.length - a.length) := by
    rw [List.take_append_eq_append_take]
    rw [List.take_of_length_le (by omega)]
  have e2 : (a ++ b).drop kw.length = b.drop (kw.length - a.length) := by
    rw [List.drop_append_eq_append_drop]
    rw [List.drop_eq_nil_of_le (by omega)]
    rfl
  have hne : b.take (kw.length - a.length) ≠ [] := by
    intro he
    have := congrArg List.length he
    rw [List.length_take, List.length_nil] at this
    omega
  rw [e1, e2, List.getLast?_append_of_ne_nil _ hne] at hb
  exact hb

theorem crossFree_spec {kw b : Str} (h : crossFree kw b = true) (i : Nat) (h0 : 0 < i)
    (hi : i < kw.length) : crossHit (kw.drop i) b = false := by
  simp only [crossFree, List.all_eq_true, List.mem_range] at h
  have := h i hi
  simp only [Bool.or_eq_true, beq_iff_eq, Bool.not_eq_true'] at this
  rcases this with h1 | h1
  · omega
  · exact h1

/-- With no crossing match and no word character at the start of `b`, the
matches at a position of `a` are those of `a` alone. -/
theorem kwMatchAt_append_of_crossFree (kw : Str) (prev : Option Char) (a b : Str) (ha : a ≠ [])
    (hc : crossFree kw b = true) (hb : wb b.head? = false) :
    kwMatchAt kw prev (a ++ b) = kwMatchAt kw prev a := by
  by_cases hle : kw.length ≤ a.length
  · exact kwMatchAt_append_of_le kw prev a b ha hle (Or.inr hb)
  · have hlt : a.length < kw.length := by omega
    have h1 : kwMatchAt kw prev a = false := by
      rw [← Bool.not_eq_true]
      intro h
      have := matchesHere_length (kwMatchAt_matchesHere h)
      omega
    have h2 : kwMatchAt kw prev (a ++ b) = false := by
      rw [← Bool.not_eq_true]
      intro h
      have := crossHit_of_kwMatchAt kw prev a b hlt h
      rw [crossFree_spec hc a.length (List.length_pos.mpr ha) hlt] at this
      exact absurd this (by simp)
    rw [h1, h2]

theorem noHitsIn_of_noHits (kw : Str) (prev : Option Char) (a b : Str)
    (h : noHits kw prev a = true) (hc : crossFree kw b = true) (hb : wb b.head? = false) :
    noHitsIn kw prev a b = true := by
  induction a generalizing prev with
  | nil => rfl
  | cons c a ih =>
    simp only [noHits, noHitsIn, List.append_nil, Bool.and_eq_true, Bool.not_eq_true'] at h
    simp only [noHitsIn, Bool.and_eq_true, Bool.not_eq_true']
    refine ⟨?_, ih (some c) h.2⟩
    have := kwMatchAt_append_of_crossFree kw prev (c :: a) b (by simp) hc hb
    rw [List.cons_append] at this
    rw [this, h.1]


theorem noHits_of_noHitsIn (kw : Str) (prev : Option Char) (a b : Str)
    (h : noHitsIn kw prev a b = true) (hctx : wb (lastOr prev a) = true → wb b.head? = false) :
    noHits kw prev a = true := by
  induction a generalizing prev with
  | nil => rfl
  | cons c a ih =>
    simp only [noHitsIn, Bool.and_eq_true, Bool.not_eq_true'] at h
    simp only [noHits, noHitsIn, List.append_nil, Bool.and_eq_true, Bool.not_eq_true']
    refine ⟨?_, ih (some c) h.2 hctx⟩
    rw [← Bool.not_eq_true]
    intro hit
    have hlen := matchesHere_length (kwMatchAt_matchesHere hit)
    have hctx' : kw.length < (c :: a).length ∨ wb b.head? = false := by
      by_cases hlt : kw.length < (c :: a).length
      · exact Or.inl hlt
      · right
        apply hctx
        have heq : kw.length = (c :: a).length := by omega
        simp only [kwMatchAt, Bool.and_eq_true, isBoundary_eq_wb] at hit
        have hb := hit.2
        rw [heq, List.take_length, List.drop_length] at hb
        simp only [List.head?_nil, wb_none, bne_iff_ne, ne_eq, Bool.not_eq_false] at hb
        rw [← lastOr_eq_getLast? prev] at hb
        exact hb
    have := kwMatchAt_append_of_le kw prev (c :: a) b (by simp) hlen hctx'
    rw [List.cons_append] at this
    rw [this, hit] at h
    exact absurd h.1 (by simp)

theorem lastOr_take_drop (prev : Option Char) (t : Str) (n : Nat) (h0 : 0 < n)
    (hn : n ≤ t.length) : lastOr (t.take n).getLast? (t.drop n) = lastOr prev t := by
  have hne : t.take n ≠ [] := by
    intro he
    have := congrArg List.length he
    rw [List.length_take, List.length_nil] at this
    omega
  obtain ⟨c, r, hcr⟩ := List.exists_cons_of_ne_nil hne
  conv_rhs => rw [← List.take_append_drop n t, lastOr_append, hcr, lastOr_eq_getLast?]
  rw [hcr]

/-- The scan of `a ++ b`, when no match can cross into `b`, is the scan of
`a` followed by the scan of `b`. -/
theorem replaceKwAux_append (kw : Str) (hkw : kw ≠ []) (b : Str)
    (hc : crossFree kw b = true) (hb : wb b.head? = false) (n : Nat) :
    ∀ (prev : Option Char) (a : Str), a.length ≤ n →
      replaceKwAux kw 0 prev (a ++ b) =
        replaceKwAux kw 0 prev a ++ replaceKwAux kw 0 (lastOr prev a) b := by
  induction n with
  | zero =>
    intro prev a ha
    have : a = [] := List.length_eq_zero.mp (by omega)
    subst this
    rfl
  | succ n ih =>
    intro prev a ha
    cases a with
    | nil => rfl
    | cons c a =>
      have hm := kwMatchAt_append_of_crossFree kw prev (c :: a) b (by simp) hc hb
      cases hit : kwMatchAt kw prev (c :: a) with
      | true =>
        rw [hit] at hm
        have hlen := matchesHere_length (kwMatchAt_matchesHere hit)
        have hpos : 0 < kw.length := List.length_pos.mpr hkw
        rw [replaceKwAux_hit kw prev _ hkw hm, replaceKwAux_hit kw prev _ hkw hit,
          List.take_append_of_le_length hlen, List.drop_append_of_le_length hlen,
          ih _ _ (by simp only [List.length_drop, List.length_cons] at ha ⊢; omega),
          lastOr_take_drop prev (c :: a) kw.length hpos hlen, List.append_assoc]
      | false =>
        rw [hit] at hm
        rw [List.cons_append] at hm ⊢
        rw [replaceKwAux_miss kw prev c _ hm, replaceKwAux_miss kw prev c _ hit,
          ih _ _ (by simpa using ha)]
        rfl

theorem breakBefore_eq (kw : Str) : breakBefore kw = brk ++ kw := rfl

theorem replaceKwAux_eq_cut (kw : Str) (n : Nat) (prev : Option Char) (t : Str) :
    replaceKwAux kw n prev t = (cut kw n prev t).1 ++ brkTail (cut kw n prev t).2 := by
  induction t generalizing n prev with
  | nil => cases n <;> rfl
  | cons c t ih =>
    cases n with
    | succ n => simp only [replaceKwAux, cut, ih]
    | zero =>
      simp only [replaceKwAux, cut]
      split
      · simp only [ih, brkTail, List.nil_append, breakBefore_eq, List.append_assoc]
      · simp only [ih, List.cons_append]

theorem cut_skip (kw : Str) (n : Nat) (prev : Option Char) (t : Str) (hn : n < t.length) :
    cut kw (n + 1) prev t = cut kw 0 (t.take (n + 1)).getLast? (t.drop (n + 1)) := by
  induction n generalizing prev t with
  | zero =>
    cases t with
    | nil => simp at hn
    | cons c t => simp [cut]
  | succ n ih =>
    cases t with
    | nil => simp at hn
    | cons c t =>
      have hn' : n < t.length := by simpa using hn
      rw [cut, ih (some c) t hn']
      obtain ⟨d, t', rfl⟩ := List.exists_cons_of_ne_nil (List.ne_nil_of_length_pos (by omega : 0 < t.length))
      simp [List.take_succ_cons, List.getLast?_cons_cons]

theorem cut_hit (kw : Str) (prev : Option Char) (t : Str) (hkw : kw ≠ [])
    (h : kwMatchAt kw prev t = true) :
    cut kw 0 prev t =
      ([], (kw, (cut kw 0 (t.take kw.length).getLast? (t.drop kw.length)).1) ::
        (cut kw 0 (t.take kw.length).getLast? (t.drop kw.length)).2) := by
  have hlen := matchesHere_length (kwMatchAt_matchesHere h)
  obtain ⟨k, ks, rfl⟩ := List.exists_cons_of_ne_nil hkw
  cases t with
  | nil => simp at hlen
  | cons c t =>
    have key : cut (k :: ks) ((k :: ks).length - 1) (some c) t =
        cut (k :: ks) 0 ((c :: t).take (k :: ks).length).getLast? ((c :: t).drop (k :: ks).length) := by
      simp only [List.length_cons, Nat.add_sub_cancel]
      cases hks : ks.length with
      | zero => simp [hks]
      | succ n =>
        have hn : n < t.length := by simp [hks] at hlen; omega
        rw [cut_skip (k :: ks) n (some c) t hn]
        obtain ⟨d, t', rfl⟩ := List.exists_cons_of_ne_nil (List.ne_nil_of_length_pos (by omega : 0 < t.length))
        simp [List.take_succ_cons, List.getLast?_cons_cons]
    simp only [cut, h, if_true, key]

theorem cut_miss (kw : Str) (prev : Option Char) (c : Char) (t : Str)
    (h : kwMatchAt kw prev (c :: t) = false) :
    cut kw 0 prev (c :: t) = (c :: (cut kw 0 (some c) t).1, (cut kw 0 (some c) t).2) := by
  simp [cut, h]

theorem cut_nil (kw : Str) (prev : Option Char) : cut kw 0 prev [] = ([], []) := rfl

/-- Induction along the scan: over a missed character, or over a matched
text. -/
theorem scan_induction (kw : Str) (hkw : kw ≠ []) (motive : Option Char → Str → Prop)
    (nil : ∀ prev, motive prev [])
    (hit : ∀ prev t, kwMatchAt kw prev t = true →
      motive (t.take kw.length).getLast? (t.drop kw.length) → motive prev t)
    (miss : ∀ prev c t, kwMatchAt kw prev (c :: t) = false → motive (some c) t →
      motive prev (c :: t)) :
    ∀ prev t, motive prev t := by
  have main : ∀ n, ∀ prev t, t.length ≤ n → motive prev t := by
    intro n
    induction n with
    | zero =>
      intro prev t ht
      have : t = [] := List.length_eq_zero.mp (by omega)
      subst this
      exact nil prev
    | succ n ih =>
      intro prev t ht
      cases t with
      | nil => exact nil prev
      | cons c t =>
        cases h : kwMatchAt kw prev (c :: t) with
        | true =>
          apply hit prev _ h
          apply ih
          have hpos : 0 < kw.length := List.length_pos.mpr hkw
          simp only [List.length_drop, List.length_cons] at ht ⊢
          omega
        | false => exact miss prev c t h (ih _ _ (by simpa using ht))
  intro prev t
  exact main t.length prev t (le_refl _)

/-- The first piece of the scan is the stretch up to the first match. -/
theorem cut_fst_split (kw : Str) (hkw : kw ≠ []) (prev : Option Char) (t : Str) :
    ∃ rest, t = (cut kw 0 prev t).1 ++ rest ∧
      noHitsIn kw prev (cut kw 0 prev t).1 rest = true ∧
      ((rest = [] ∧ (cut kw 0 prev t).2 = []) ∨
        kwMatchAt kw (lastOr prev (cut kw 0 prev t).1) rest = true) := by
  refine scan_induction kw hkw
    (fun prev t => ∃ rest, t = (cut kw 0 prev t).1 ++ rest ∧
      noHitsIn kw prev (cut kw 0 prev t).1 rest = true ∧
      ((rest = [] ∧ (cut kw 0 prev t).2 = []) ∨
        kwMatchAt kw (lastOr prev (cut kw 0 prev t).1) rest = true)) ?_ ?_ ?_ prev t
  · intro prev
    exact ⟨[], rfl, rfl, Or.inl ⟨rfl, rfl⟩⟩
  · intro prev t h _
    rw [cut_hit kw prev t hkw h]
    exact ⟨t, rfl, rfl, Or.inr h⟩
  · intro prev c t h ih
    obtain ⟨rest, h1, h2, h3⟩ := ih
    rw [cut_miss kw prev c t h]
    refine ⟨rest, by simp only [List.cons_append]; rw [← h1], ?_, ?_⟩
    · simp only [noHitsIn, Bool.and_eq_true, Bool.not_eq_true']
      exact ⟨by rw [← h1]; exact h, h2⟩
    · exact h3

theorem wb_head_of_boundary {a b : Option Char} (h : isBoundary a b = true) (ha : wb a = true) :
    wb b = false := by
  rw [isBoundary_eq_wb, ha] at h
  cases hb : wb b with
  | false => rfl
  | true => rw [hb] at h; exact absurd h (by decide)

/-- A text free of matches of `kw` has a first piece free of them. -/
theorem noHits_cut_fst (K : Str) (hK : K ≠ []) (kw : Str) (prev : Option Char) (t : Str)
    (h : noHits kw prev t = true) : noHits kw prev (cut K 0 prev t).1 = true := by
  obtain ⟨rest, h1, -, h3⟩ := cut_fst_split K hK prev t
  rw [h1] at h
  have h4 : noHitsIn kw prev (cut K 0 prev t).1 rest = true := by
    have := noHitsIn_append kw prev (cut K 0 prev t).1 rest []
    rw [noHits] at h
    rw [h, List.append_nil] at this
    simp only [Bool.true_eq, Bool.and_eq_true] at this
    exact this.1
  apply noHits_of_noHitsIn kw prev _ rest h4
  intro hw
  rcases h3 with ⟨hr, -⟩ | hhit
  · rw [hr]; rfl
  · simp only [kwMatchAt, Bool.and_eq_true] at hhit
    exact wb_head_of_boundary hhit.1.2 hw

/-- The first piece of the scan is free of matches of the keyword. -/
theorem noHits_cut_fst_self (K : Str) (hK : K ≠ []) (prev : Option Char) (t : Str) :
    noHits K prev (cut K 0 prev t).1 = true := by
  obtain ⟨rest, -, h2, h3⟩ := cut_fst_split K hK prev t
  apply noHits_of_noHitsIn K prev _ rest h2
  intro hw
  rcases h3 with ⟨hr, -⟩ | hhit
  · rw [hr]; rfl
  · simp only [kwMatchAt, Bool.and_eq_true] at hhit
    exact wb_head_of_boundary hhit.1.2 hw

theorem noHits_suffix (kw : Str) (prev : Option Char) (a b : Str)
    (h : noHits kw prev (a ++ b) = true) : noHits kw (lastOr prev a) b = true := by
  have := noHitsIn_append kw prev a b []
  rw [noHits] at h
  rw [h] at this
  simp only [Bool.true_eq, Bool.and_eq_true] at this
  exact this.2

theorem noHitsIn_congr (kw : Str) {p q : Option Char} (h : wb p = wb q) (a b : Str) :
    noHitsIn kw p a b = noHitsIn kw q a b := by
  cases a with
  | nil => rfl
  | cons c a => simp only [noHitsIn, kwMatchAt_congr kw h]

theorem noHits_congr (kw : Str) {p q : Option Char} (h : wb p = wb q) (a : Str) :
    noHits kw p a = noHits kw q a := noHitsIn_congr kw h a []

/-- Every later piece of the scan is the first piece of the scan of a suffix
that follows a word character and starts with none. -/
theorem cut_snd_spec (K : Str) (hK : K ≠ [])
    (hs : (K.getLast?.map strictWord).getD false = true) (prev : Option Char) (t : Str) :
    ∀ p ∈ (cut K 0 prev t).2, p.1 = K ∧ ∃ a t', t = a ++ t' ∧ wb (lastOr prev a) = true ∧
      wb t'.head? = false ∧ p.2 = (cut K 0 (lastOr prev a) t').1 := by
  refine scan_induction K hK
    (fun prev t => ∀ p ∈ (cut K 0 prev t).2, p.1 = K ∧ ∃ a t', t = a ++ t' ∧
      wb (lastOr prev a) = true ∧ wb t'.head? = false ∧
      p.2 = (cut K 0 (lastOr prev a) t').1) ?_ ?_ ?_ prev t
  · intro prev p hp
    simp [cut] at hp
  · intro prev t h ih p hp
    rw [cut_hit K prev t hK h] at hp
    have hm := kwMatchAt_matchesHere h
    have hlen := matchesHere_length hm
    have hpos : 0 < K.length := List.length_pos.mpr hK
    have hne : t.take K.length ≠ [] := by
      intro he
      have := congrArg List.length he
      rw [List.length_take, List.length_nil] at this
      omega
    obtain ⟨c, r, hcr⟩ := List.exists_cons_of_ne_nil hne
    have hlast : lastOr prev (t.take K.length) = (t.take K.length).getLast? := by
      rw [hcr, lastOr_eq_getLast?]
    have hw : wb (t.take K.length).getLast? = true := wb_last_of_matchesHere hs hm
    have hnext : wb (t.drop K.length).head? = false := by
      simp only [kwMatchAt, Bool.and_eq_true] at h
      exact wb_head_of_boundary h.2 hw
    simp only [List.mem_cons] at hp
    rcases hp with rfl | hp
    · refine ⟨rfl, t.take K.length, t.drop K.length, (List.take_append_drop _ _).symm, ?_,
        hnext, ?_⟩
      · rw [hlast]; exact hw
      · rw [hlast]
    · obtain ⟨h1, a, t', h2, h3, h4, h5⟩ := ih p hp
      refine ⟨h1, t.take K.length ++ a, t', ?_, ?_, h4, ?_⟩
      · rw [List.append_assoc, ← h2, List.take_append_drop]
      · rw [lastOr_append, hlast]; exact h3
      · rw [lastOr_append, hlast]; exact h5
  · intro prev c t h ih p hp
    rw [cut_miss K prev c t h] at hp
    obtain ⟨h1, a, t', h2, h3, h4, h5⟩ := ih p hp
    exact ⟨h1, c :: a, t', by rw [h2]; rfl, h3, h4, h5⟩

/-! ## Matches at a known text followed by an unknown one -/

theorem not_strictWord_of_foldMatch {k c : Char} (h : foldMatch k c = true)
    (hc : isWordChar c = false) : strictWord k = false := by
  cases hk : strictWord k with
  | false => rfl
  | true => rw [isWordChar_of_foldMatch hk h] at hc; exact absurd hc (by decide)

theorem may_of_matchesHere_drop {w u tail : Str} (hlt : u.length < w.length)
    (h : matchesHere (w.drop u.length) tail = true) (ht : wb tail.head? = false) :
    (!(((w.drop u.length).head?.map strictWord).getD true)) = true := by
  have hne : w.drop u.length ≠ [] := by
    intro he
    have := congrArg List.length he
    rw [List.length_drop, List.length_nil] at this
    omega
  obtain ⟨k, ks, hk⟩ := List.exists_cons_of_ne_nil hne
  rw [hk] at h ⊢
  cases tail with
  | nil => simp [matchesHere] at h
  | cons c tl =>
    simp only [matchesHere, Bool.and_eq_true] at h
    have hc : isWordChar c = false := by simpa [wb] using ht
    simp [not_strictWord_of_foldMatch h.1 hc]

theorem mayHit_of_kwMatchAt {kw : Str} {prev : Option Char} {u tail : Str} (hu : u ≠ [])
    (ht : wb tail.head? = false) (h : kwMatchAt kw prev (u ++ tail) = true) :
    mayHit kw prev u = true := by
  unfold mayHit
  split
  · rename_i hle
    rw [← kwMatchAt_append_of_le kw prev u tail hu hle (Or.inr ht)]
    exact h
  · rename_i hgt
    have hlt : u.length < kw.length := by omega
    have hm := kwMatchAt_matchesHere h
    rw [matchesHere_append_split tail (by omega), Bool.and_eq_true] at hm
    simp only [kwMatchAt, Bool.and_eq_true] at h
    have hb : isBoundary prev u.head? = true := by
      obtain ⟨c, r, rfl⟩ := List.exists_cons_of_ne_nil hu
      exact h.1.2
    rw [hm.1, hb, may_of_matchesHere_drop hlt hm.2 ht]
    rfl

theorem noHitsIn_of_noMay (kw : Str) (prev : Option Char) (u tail : Str)
    (h : noMay kw prev u = true) (ht : wb tail.head? = false) :
    noHitsIn kw prev u tail = true := by
  induction u generalizing prev with
  | nil => rfl
  | cons c u ih =>
    simp only [noMay, Bool.and_eq_true, Bool.not_eq_true'] at h
    simp only [noHitsIn, Bool.and_eq_true, Bool.not_eq_true']
    refine ⟨?_, ih (some c) h.2⟩
    rw [← Bool.not_eq_true]
    intro hit
    have := mayHit_of_kwMatchAt (u := c :: u) (by simp) ht (by simpa using hit)
    rw [h.1] at this
    exact absurd this (by simp)

theorem mayCross_of_crossHit {w u tail : Str} (ht : wb tail.head? = false)
    (h : crossHit w (u ++ tail) = true) : mayCross w u = true := by
  unfold mayCross
  simp only [crossHit, Bool.and_eq_true] at h
  split
  · rename_i hle
    simp only [crossHit, Bool.and_eq_true]
    rw [matchesHere_append_of_le tail hle] at h
    refine ⟨h.1, ?_⟩
    have hb := h.2
    rw [List.take_append_of_le_length hle, isBoundary_eq_wb, head?_drop_append _ _ _ hle] at hb
    rw [isBoundary_eq_wb]
    split at hb
    · exact hb
    · rw [ht] at hb
      rw [List.drop_eq_nil_of_le (by omega)]
      exact hb
  · rename_i hgt
    have hlt : u.length < w.length := by omega
    have hm := h.1
    rw [matchesHere_append_split tail (by omega), Bool.and_eq_true] at hm
    rw [hm.1, may_of_matchesHere_drop hlt hm.2 ht]
    rfl

theorem crossFree_of_crossOK (kw u tail : Str) (h : crossOK kw u = true)
    (ht : wb tail.head? = false) : crossFree kw (u ++ tail) = true := by
  simp only [crossFree, List.all_eq_true, List.mem_range]
  intro i hi
  simp only [crossOK, List.all_eq_true, List.mem_range] at h
  have := h i hi
  simp only [Bool.or_eq_true, beq_iff_eq, Bool.not_eq_true'] at this ⊢
  rcases this with h0 | h1
  · exact Or.inl h0
  · right
    rw [← Bool.not_eq_true]
    intro hc
    rw [mayCross_of_crossHit ht hc] at h1
    exact absurd h1 (by simp)

theorem crossFree_nil (kw : Str) : crossFree kw [] = true := by
  simp only [crossFree, List.all_eq_true, List.mem_range]
  intro i hi
  simp only [Bool.or_eq_true, beq_iff_eq, Bool.not_eq_true']
  by_cases h0 : i = 0
  · exact Or.inl h0
  · right
    have hne : kw.drop i ≠ [] := by
      intro he
      have := congrArg List.length he
      rw [List.length_drop, List.length_nil] at this
      omega
    obtain ⟨k, ks, hk⟩ := List.exists_cons_of_ne_nil hne
    simp [crossHit, hk, matchesHere]

/-! ## The scan of a layout -/

theorem isPlain_ne_nil {kw : Str} (h : isPlain kw = true) : kw ≠ [] := by
  intro he
  subst he
  simp [isPlain] at h

theorem isPlain_strict {kw : Str} (h : isPlain kw = true) :
    (kw.getLast?.map strictWord).getD false = true := by
  simp only [isPlain, Bool.and_eq_true] at h
  exact h.1.1.1.1.1.1.2

theorem isPlain_headWord {kw : Str} (h : isPlain kw = true) :
    (kw.head?.map isWordChar).getD false = true := by
  simp only [isPlain, Bool.and_eq_true] at h
  exact h.1.1.1.1.1.1.1.2

theorem kwMatchAt_of_headMiss {kw : Str} {c : Char} (h : headMiss kw c = true)
    (hkw : kw ≠ []) (prev : Option Char) (t : Str) : kwMatchAt kw prev (c :: t) = false := by
  obtain ⟨k, ks, rfl⟩ := List.exists_cons_of_ne_nil hkw
  simp only [headMiss, List.head?_cons, Option.map_some', Option.getD_some,
    Bool.not_eq_true'] at h
  simp [kwMatchAt, matchesHere, h]

theorem noHitsIn_brk {kw : Str} (h : isPlain kw = true) (prev : Option Char) (t : Str) :
    noHitsIn kw prev brk t = true := by
  have hne := isPlain_ne_nil h
  simp only [isPlain, Bool.and_eq_true] at h
  obtain ⟨⟨⟨⟨⟨⟨-, hsp⟩, hnl⟩, -⟩, -⟩, -⟩, -⟩ := h
  simp only [brk, noHitsIn, kwMatchAt_of_headMiss hsp hne, kwMatchAt_of_headMiss hnl hne,
    Bool.not_false, Bool.and_self]

theorem crossFree_brkTail {kw : Str} (h : isPlain kw = true) (ps : List (Str × Str)) :
    crossFree kw (brkTail ps) = true ∧ wb (brkTail ps).head? = false := by
  cases ps with
  | nil => exact ⟨crossFree_nil kw, rfl⟩
  | cons seg rest =>
    obtain ⟨k, y⟩ := seg
    simp only [isPlain, Bool.and_eq_true] at h
    obtain ⟨⟨⟨-, hc1⟩, -⟩, -⟩ := h
    refine ⟨?_, rfl⟩
    have := crossFree_of_crossOK kw ['\n'] ([' ', ' ', ' ', ' '] ++ k ++ y ++ brkTail rest) hc1 rfl
    simpa [brkTail, brk] using this

theorem brkTail_append (a b : List (Str × Str)) : brkTail (a ++ b) = brkTail a ++ brkTail b := by
  induction a with
  | nil => rfl
  | cons seg a ih =>
    obtain ⟨k, y⟩ := seg
    show brk ++ k ++ y ++ brkTail (a ++ b) = brk ++ k ++ y ++ brkTail a ++ brkTail b
    rw [ih]
    simp only [List.append_assoc]

theorem lastOr_of_ne_nil (p q : Option Char) {a : Str} (h : a ≠ []) : lastOr p a = lastOr q a := by
  obtain ⟨c, r, rfl⟩ := List.exists_cons_of_ne_nil h
  rfl

theorem wb_head_append {y t : Str} (hy : wb y.head? = false) (ht : wb t.head? = false) :
    wb (y ++ t).head? = false := by
  cases y with
  | nil => exact ht
  | cons c y => exact hy

/-- The scan of the headed segments of a layout, when the scan passes over
each head. -/
theorem replaceKwAux_brkTail (kw : Str) (h : isPlain kw = true) (ps : List (Str × Str))
    (hps : ∀ seg ∈ ps, seg.1 ≠ [] ∧ noMay kw none seg.1 = true ∧ wb seg.2.head? = false)
    (prev : Option Char) :
    replaceKwAux kw 0 prev (brkTail ps) = brkTail (ps.flatMap (cutBody kw)) := by
  induction ps generalizing prev with
  | nil => rfl
  | cons seg rest ih =>
    obtain ⟨k, y⟩ := seg
    obtain ⟨hk, hmay, hy⟩ := hps (k, y) (by simp)
    have hrest : ∀ seg ∈ rest, seg.1 ≠ [] ∧ noMay kw none seg.1 = true ∧ wb seg.2.head? = false :=
      fun seg hs => hps seg (List.mem_cons_of_mem _ hs)
    have hne := isPlain_ne_nil h
    obtain ⟨hcf, hwt⟩ := crossFree_brkTail h rest
    have e1 : brkTail ((k, y) :: rest) = brk ++ (k ++ (y ++ brkTail rest)) := by
      simp [brkTail, List.append_assoc]
    have hhead : noHitsIn kw (lastOr prev brk) k (y ++ brkTail rest) = true := by
      have : wb (lastOr prev brk) = wb none := rfl
      rw [noHitsIn_congr kw this]
      exact noHitsIn_of_noMay kw none k _ hmay (wb_head_append hy hwt)
    rw [e1, replaceKwAux_of_noHitsIn kw prev brk _ (noHitsIn_brk h prev _),
      replaceKwAux_of_noHitsIn kw _ k _ hhead,
      replaceKwAux_append kw hne (brkTail rest) hcf hwt y.length _ y (le_refl _),
      ih hrest, replaceKwAux_eq_cut,
      lastOr_of_ne_nil (lastOr prev brk) none hk]
    rw [List.flatMap_cons, brkTail_append]
    show _ = brk ++ k ++ (cut kw 0 (lastOr none k) y).1 ++ brkTail (cut kw 0 (lastOr none k) y).2 ++
      brkTail (rest.flatMap (cutBody kw))
    simp only [List.append_assoc]

/-- The scan of the text of a layout is the text of the next layout. -/
theorem replaceKw_render (kw : Str) (h : isPlain kw = true) (l : Layout)
    (hps : ∀ seg ∈ l.2, seg.1 ≠ [] ∧ noMay kw none seg.1 = true ∧ wb seg.2.head? = false) :
    replaceKw kw (render l) = render (stage kw l) := by
  obtain ⟨hcf, hwt⟩ := crossFree_brkTail h l.2
  unfold replaceKw render stage
  rw [replaceKwAux_append kw (isPlain_ne_nil h) (brkTail l.2) hcf hwt l.1.length _ l.1 (le_refl _),
    replaceKwAux_brkTail kw h l.2 hps, replaceKwAux_eq_cut, brkTail_append, List.append_assoc]

/-! ## The invariant of the keyword loop -/

theorem cut_fst_isPrefix (K : Str) (hK : K ≠ []) (prev : Option Char) (t : Str) :
    (cut K 0 prev t).1 <+: t := by
  obtain ⟨rest, h1, -, -⟩ := cut_fst_split K hK prev t
  exact ⟨rest, h1.symm⟩

theorem wb_head_of_isPrefix {a t : Str} (h : a <+: t) (ht : wb t.head? = false) :
    wb a.head? = false := by
  obtain ⟨r, rfl⟩ := h
  cases a with
  | nil => rfl
  | cons c a => exact ht

theorem wb_lastOr_of_strict {K : Str} (hs : (K.getLast?.map strictWord).getD false = true)
    (prev : Option Char) : wb (lastOr prev K) = true := by
  cases K with
  | nil => simp at hs
  | cons c r =>
    rw [lastOr_eq_getLast?]
    cases hl : (c :: r).getLast? with
    | none => simp [hl] at hs
    | some d =>
      simp only [hl, Option.map_some', Option.getD_some, strictWord, Bool.and_eq_true] at hs
      simp [wb, hs.1.1.1]

theorem quiet_append (kws : List Str) (K : Str) (prev : Option Char) (t : Str) :
    quiet (kws ++ [K]) prev t = (quiet kws prev t && noHits K prev t) := by
  simp [quiet, List.all_append]

theorem quiet_cut_fst (kws : List Str) (K : Str) (hK : K ≠ []) (prev : Option Char) (t : Str)
    (h : quiet kws prev t = true) : quiet (kws ++ [K]) prev (cut K 0 prev t).1 = true := by
  rw [quiet_append, Bool.and_eq_true]
  refine ⟨?_, noHits_cut_fst_self K hK prev t⟩
  simp only [quiet, List.all_eq_true] at h ⊢
  exact fun kw hkw => noHits_cut_fst K hK kw prev t (h kw hkw)

theorem quiet_suffix (kws : List Str) (prev : Option Char) (a b : Str)
    (h : quiet kws prev (a ++ b) = true) : quiet kws (lastOr prev a) b = true := by
  simp only [quiet, List.all_eq_true] at h ⊢
  exact fun kw hkw => noHits_suffix kw prev a b (h kw hkw)

theorem quiet_congr (kws : List Str) {p q : Option Char} (h : wb p = wb q) (t : Str) :
    quiet kws p t = quiet kws q t := by
  simp only [quiet, noHits_congr _ h]

/-- The new segments of a quiet piece of `x` under the scan for `K`. -/
theorem cut_snd_settled (kws : List Str) (K : Str) (hK : isPlain K = true) (x : Str)
    (prev : Option Char) (t : Str) (hq : quiet kws prev t = true) (hx : t <:+: x) :
    ∀ p ∈ (cut K 0 prev t).2, p.1 = K ∧ wb p.2.head? = false ∧
      quiet (kws ++ [K]) (lastOr none K) p.2 = true ∧ p.2 <:+: x := by
  intro p hp
  have hne := isPlain_ne_nil hK
  have hs := isPlain_strict hK
  obtain ⟨h1, a, t', h2, h3, h4, h5⟩ := cut_snd_spec K hne hs prev t p hp
  have hpre := cut_fst_isPrefix K hne (lastOr prev a) t'
  rw [← h5] at hpre
  refine ⟨h1, wb_head_of_isPrefix hpre h4, ?_, ?_⟩
  · have hq' : quiet kws (lastOr prev a) t' = true := by
      rw [h2] at hq; exact quiet_suffix kws prev a t' hq
    have := quiet_cut_fst kws K hne (lastOr prev a) t' hq'
    rw [← h5] at this
    rw [quiet_congr _ (show wb (lastOr none K) = wb (lastOr prev a) by
      rw [wb_lastOr_of_strict hs, h3])]
    exact this
  · exact hpre.isInfix.trans ((List.suffix_append a t').isInfix.trans (by rw [← h2]; exact hx))

/-- The invariant holds after the scan for a keyword that gets a line
break. -/
theorem settled_stage (kws : List Str) (x : Str) (l : Layout) (K : Str) (hK : isPlain K = true)
    (hlive : K ∈ liveKeywords) (h : Settled kws x l) : Settled (kws ++ [K]) x (stage K l) := by
  obtain ⟨h1, h2, h3⟩ := h
  have hne := isPlain_ne_nil hK
  refine ⟨quiet_cut_fst kws K hne none l.1 h1, (cut_fst_isPrefix K hne none l.1).trans h2, ?_⟩
  intro seg hseg
  simp only [stage, List.mem_append, List.mem_flatMap] at hseg
  rcases hseg with hseg | ⟨s, hs, hseg⟩
  · obtain ⟨e1, e2, e3, e4⟩ := cut_snd_settled kws K hK x none l.1 h1 h2.isInfix seg hseg
    exact ⟨by rw [e1]; simp, by rw [e1]; exact hlive, e2, by rw [e1]; exact e3, e4⟩
  · obtain ⟨g1, g2, g3, g4, g5⟩ := h3 s hs
    simp only [cutBody, List.mem_cons] at hseg
    rcases hseg with rfl | hseg
    · refine ⟨by simp [g1], g2, ?_, quiet_cut_fst kws K hne _ s.2 g4, ?_⟩
      · exact wb_head_of_isPrefix (cut_fst_isPrefix K hne _ s.2) g3
      · exact (cut_fst_isPrefix K hne _ s.2).isInfix.trans g5
    · obtain ⟨e1, e2, e3, e4⟩ := cut_snd_settled kws K hK x _ s.2 g4 g5 seg hseg
      exact ⟨by rw [e1]; simp, by rw [e1]; exact hlive, e2, by rw [e1]; exact e3, e4⟩

/-! ## The keyword `left join` never matches -/

theorem char_le_iff_toNat (a b : Char) : a ≤ b ↔ a.toNat ≤ b.toNat := by
  rw [Char.le_def]
  exact Iff.rfl

theorem asciiLower_ne_space_of_upper (c : Char) (h1 : 'A' ≤ c) (h2 : c ≤ 'Z') :
    Char.ofNat (c.toNat + 32) ≠ ' ' := by
  rw [char_le_iff_toNat] at h1 h2
  have e1 : 'A'.toNat = 65 := rfl
  have e2 : 'Z'.toNat = 90 := rfl
  rw [e1] at h1
  rw [e2] at h2
  obtain ⟨n, hn⟩ : ∃ n, c.toNat = n := ⟨_, rfl⟩
  rw [hn] at h1 h2 ⊢
  interval_cases n <;> decide

theorem eq_space_of_foldMatch {c : Char} (h : foldMatch ' ' c = true) : c = ' ' := by
  simp only [foldMatch, Bool.or_eq_true, Bool.and_eq_true, decide_eq_true_eq] at h
  have hl : asciiLower ' ' = ' ' := by decide
  rw [hl] at h
  rcases h with ((h | h) | h) | h
  · exact h
  · unfold asciiLower at h
    split at h
    · rename_i hr
      simp only [Bool.and_eq_true, decide_eq_true_eq] at hr
      exact absurd h (asciiLower_ne_space_of_upper c hr.1 hr.2)
    · exact h
  · exact absurd h.1 (by decide)
  · exact absurd h.1 (by decide)

theorem noHits_at (kw : Str) (prev : Option Char) (a : Str) (c : Char) (b : Str)
    (h : noHits kw prev (a ++ c :: b) = true) : kwMatchAt kw (lastOr prev a) (c :: b) = false := by
  have := noHits_suffix kw prev a (c :: b) h
  simp only [noHits, noHitsIn, List.append_nil, Bool.and_eq_true, Bool.not_eq_true'] at this
  exact this.1

/-- A match of `left join` ends with a match of `join`. -/
theorem join_of_leftJoin (prev : Option Char) (t : Str)
    (h : kwMatchAt "left join".toList prev t = true) :
    kwMatchAt "join".toList (lastOr prev (t.take 5)) (t.drop 5) = true := by
  have hm := kwMatchAt_matchesHere h
  have hlen := matchesHere_length hm
  match t, hlen with
  | c0 :: c1 :: c2 :: c3 :: c4 :: c5 :: c6 :: c7 :: c8 :: rest, _ =>
    simp only [String.toList, kwMatchAt, matchesHere, Bool.and_eq_true, Bool.and_true] at h
    obtain ⟨⟨⟨-, -, -, -, h4, h5, h6, h7, h8⟩, -⟩, hb⟩ := h
    have e4 : c4 = ' ' := eq_space_of_foldMatch h4
    have w5 : isWordChar c5 = true := isWordChar_of_foldMatch (by decide) h5
    subst e4
    simp only [String.toList, kwMatchAt, matchesHere, h5, h6, h7, h8, Bool.and_self,
      Bool.true_and, Bool.and_eq_true]
    refine ⟨?_, ?_⟩
    · have ws : isWordChar ' ' = false := by decide
      simp [lastOr, isBoundary, w5, ws]
    · simpa using hb

theorem noHits_leftJoin (prev : Option Char) (t : Str)
    (h : noHits "join".toList prev t = true) : noHits "left join".toList prev t = true := by
  have main : ∀ (a b : Str), t = a ++ b →
      noHitsIn "left join".toList (lastOr prev a) b [] = true := by
    intro a b
    induction b generalizing a with
    | nil => intro _; rfl
    | cons c b ih =>
      intro hab
      simp only [noHitsIn, Bool.and_eq_true, Bool.not_eq_true', List.append_nil]
      constructor
      · rw [← Bool.not_eq_true]
        intro hit
        have hj := join_of_leftJoin _ _ hit
        have hlen := matchesHere_length (kwMatchAt_matchesHere hit)
        have hlen' : 9 ≤ (c :: b).length := hlen
        have hd : (c :: b).drop 5 ≠ [] := by
          intro he
          have := congrArg List.length he
          rw [List.length_drop, List.length_nil] at this
          omega
        obtain ⟨d, r, hdr⟩ := List.exists_cons_of_ne_nil hd
        have hsplit : t = (a ++ (c :: b).take 5) ++ d :: r := by
          rw [List.append_assoc, ← hdr, List.take_append_drop, hab]
        rw [hsplit] at h
        have := noHits_at _ prev _ d r h
        rw [lastOr_append, ← hdr, hj] at this
        exact absurd this (by simp)
      · have := ih (a ++ [c]) (by rw [hab]; simp)
        rw [lastOr_append] at this
        exact this
  exact main [] t rfl

theorem cut_of_noHits (K : Str) (hK : K ≠ []) (prev : Option Char) (t : Str)
    (h : noHits K prev t = true) : cut K 0 prev t = (t, []) := by
  obtain ⟨rest, h1, -, h3⟩ := cut_fst_split K hK prev t
  rcases h3 with ⟨hr, hs⟩ | hhit
  · rw [hr, List.append_nil] at h1
    exact Prod.ext h1.symm hs
  · exfalso
    cases rest with
    | nil =>
      have := matchesHere_length (kwMatchAt_matchesHere hhit)
      have hpos : 0 < K.length := List.length_pos.mpr hK
      rw [List.length_nil] at this
      omega
    | cons c r =>
      rw [h1] at h
      have := noHits_at K prev _ c r h
      rw [hhit] at this
      exact absurd this (by simp)

theorem flatMap_cutBody_of_quiet (K : Str) (hK : K ≠ []) (ps : List (Str × Str))
    (h : ∀ seg ∈ ps, noHits K (lastOr none seg.1) seg.2 = true) :
    ps.flatMap (cutBody K) = ps := by
  induction ps with
  | nil => rfl
  | cons seg rest ih =>
    rw [List.flatMap_cons, ih (fun s hs => h s (List.mem_cons_of_mem _ hs))]
    simp only [cutBody, cut_of_noHits K hK _ _ (h seg (by simp))]
    rfl

theorem stage_of_quiet (K : Str) (hK : K ≠ []) (l : Layout) (h1 : noHits K none l.1 = true)
    (h2 : ∀ seg ∈ l.2, noHits K (lastOr none seg.1) seg.2 = true) : stage K l = l := by
  unfold stage
  rw [cut_of_noHits K hK none l.1 h1, flatMap_cutBody_of_quiet K hK l.2 h2]
  rfl

theorem noHits_of_quiet {kws : List Str} {kw : Str} (hk : kw ∈ kws) {prev : Option Char}
    {t : Str} (h : quiet kws prev t = true) : noHits kw prev t = true := by
  simp only [quiet, List.all_eq_true] at h
  exact h kw hk

/-- The invariant holds after the scan for `left join`, which finds
nothing once `join` has been scanned for. -/
theorem settled_leftJoin (kws : List Str) (x : Str) (l : Layout) (hj : "join".toList ∈ kws)
    (h : Settled kws x l) :
    stage "left join".toList l = l ∧ Settled (kws ++ ["left join".toList]) x l := by
  obtain ⟨h1, h2, h3⟩ := h
  refine ⟨stage_of_quiet _ (by decide) l (noHits_leftJoin _ _ (noHits_of_quiet hj h1))
    (fun seg hs => noHits_leftJoin _ _ (noHits_of_quiet hj (h3 seg hs).2.2.2.1)), ?_, h2, ?_⟩
  · rw [quiet_append, h1, noHits_leftJoin _ _ (noHits_of_quiet hj h1)]
    rfl
  · intro seg hs
    obtain ⟨g1, g2, g3, g4, g5⟩ := h3 seg hs
    refine ⟨by simp [g1], g2, g3, ?_, g5⟩
    rw [quiet_append, g4, noHits_leftJoin _ _ (noHits_of_quiet hj g4)]
    rfl

/-! ## The keyword list -/

theorem keywords_plain : ∀ K ∈ keywords, isPlain K = true := by decide

theorem keywords_nodup : keywords.Nodup := by decide

theorem keywords_pass : ∀ K ∈ keywords, ∀ H ∈ liveKeywords, K ≠ H → noMay K none H = true := by
  decide

theorem liveKeywords_ne_nil : ∀ H ∈ liveKeywords, H ≠ [] := by decide

theorem liveKeywords_iff (K : Str) (hK : K ∈ keywords) :
    K ∈ liveKeywords ↔ K ≠ "left join".toList := by
  simp [liveKeywords, hK]

theorem join_before_leftJoin (done todo : List Str)
    (h : done ++ "left join".toList :: todo = keywords) : "join".toList ∈ done := by
  have hlen : done.length ≤ 13 := by
    have := congrArg List.length h
    simp [keywords] at this
    omega
  have hd : done = keywords.take done.length := by
    rw [← h, List.take_left']
    rfl
  have ht : (keywords.drop done.length).head? = some "left join".toList := by
    rw [← h, List.drop_left']
    · rfl
    · rfl
  obtain ⟨n, hn⟩ : ∃ n, done.length = n := ⟨_, rfl⟩
  rw [hn] at hd ht hlen
  rw [hd]
  interval_cases n <;> first | (exact absurd ht (by decide)) | decide

/-- The keyword loop keeps the invariant. -/
theorem foldl_replaceKw_settled (x : Str) (todo : List Str) :
    ∀ (done : List Str), done ++ todo = keywords → ∀ l : Layout, Settled done x l →
      ∃ l', todo.foldl (fun acc kw => replaceKw kw acc) (render l) = render l' ∧
        Settled keywords x l' := by
  induction todo with
  | nil =>
    intro done hd l hl
    rw [List.append_nil] at hd
    subst hd
    exact ⟨l, rfl, hl⟩
  | cons K todo ih =>
    intro done hd l hl
    have hK : K ∈ keywords := by rw [← hd]; simp
    have hplain := keywords_plain K hK
    have hnd : K ∉ done := by
      have := keywords_nodup
      rw [← hd] at this
      have := (List.nodup_append.mp this).2.2
      intro hin
      exact this hin (by simp)
    have hps : ∀ seg ∈ l.2, seg.1 ≠ [] ∧ noMay K none seg.1 = true ∧ wb seg.2.head? = false := by
      intro seg hs
      obtain ⟨g1, g2, g3, -, -⟩ := hl.2.2 seg hs
      refine ⟨liveKeywords_ne_nil _ g2, keywords_pass K hK _ g2 ?_, g3⟩
      intro he
      exact hnd (he ▸ g1)
    have hd' : (done ++ [K]) ++ todo = keywords := by rw [← hd]; simp
    rw [List.foldl_cons, replaceKw_render K hplain l hps]
    by_cases hlj : K = "left join".toList
    · subst hlj
      obtain ⟨e1, e2⟩ := settled_leftJoin done x l (join_before_leftJoin done todo hd) hl
      rw [e1]
      exact ih _ hd' l e2
    · exact ih _ hd' _ (settled_stage done x l K hplain ((liveKeywords_iff K hK).mpr hlj) hl)

/-- The text after the keyword loop is the text of a layout under the
invariant for all keywords. -/
theorem breakKeywords_settled (x : Str) :
    ∃ l : Layout, breakKeywords x = render l ∧ Settled keywords x l := by
  have h0 : Settled [] x (x, []) := ⟨rfl, List.prefix_refl x, fun seg hs => by simp at hs⟩
  obtain ⟨l, h1, h2⟩ := foldl_replaceKw_settled x keywords [] rfl (x, []) h0
  refine ⟨l, ?_, h2⟩
  rw [← h1]
  simp [breakKeywords, render, brkTail]

/-! ## The second run of the keyword loop -/

theorem matchesHere_self (K t : Str) : matchesHere K (K ++ t) = true := by
  induction K with
  | nil => cases t <;> rfl
  | cons k ks ih =>
    rw [List.cons_append, matchesHere, ih]
    simp [foldMatch]

theorem kwMatchAt_self {K : Str} (hK : isPlain K = true) (prev : Option Char) (t : Str)
    (hp : wb prev = false) (ht : wb t.head? = false) : kwMatchAt K prev (K ++ t) = true := by
  have hm := matchesHere_self K t
  have hl := wb_last_of_matchesHere (isPlain_strict hK) hm
  have hh : wb (K ++ t).head? = true := by
    have := isPlain_headWord hK
    cases K with
    | nil => simp at this
    | cons k ks => simpa [wb] using this
  have hd : (K ++ t).drop K.length = t := by simp
  unfold kwMatchAt
  rw [hm, isBoundary_eq_wb, isBoundary_eq_wb, hl, hd, ht, hp, hh]
  rfl

theorem tailBy_false_head (sep : List Str) (ps : List (Str × Str)) :
    wb (tailBy (mixSep sep) false ps).head? = false := by
  cases ps with
  | nil => rfl
  | cons seg rest =>
    obtain ⟨k, y⟩ := seg
    simp [tailBy, mixSep, wb, isWordChar]

theorem crossFree_mixTail {K : Str} (hK : isPlain K = true) (done : List Str)
    (hcross : ∀ H ∈ liveKeywords, H ∉ done → crossOK K (' ' :: H) = true)
    (ps : List (Str × Str))
    (hps : ∀ seg ∈ ps, seg.1 ∈ liveKeywords ∧ wb seg.2.head? = false) :
    crossFree K (tailBy (mixSep done) false ps) = true := by
  cases ps with
  | nil => exact crossFree_nil K
  | cons seg rest =>
    obtain ⟨k, y⟩ := seg
    have hseg := hps (k, y) (List.mem_cons_self _ _)
    by_cases hk : k ∈ done
    · have h1 : tailBy (mixSep done) false ((k, y) :: rest) =
          [' ', '\n'] ++ (' ' :: ' ' :: ' ' :: ' ' :: (k ++ (y ++ tailBy (mixSep done) false rest))) := by
        simp [tailBy, mixSep, hk, brk]
      rw [h1]
      apply crossFree_of_crossOK
      · simp only [isPlain, Bool.and_eq_true] at hK
        exact hK.1.2
      · simp [wb, isWordChar]
    · have h1 : tailBy (mixSep done) false ((k, y) :: rest) =
          (' ' :: k) ++ (y ++ tailBy (mixSep done) false rest) := by
        simp [tailBy, mixSep, hk]
      rw [h1]
      apply crossFree_of_crossOK _ _ _ (hcross k hseg.1 hk)
      exact wb_head_append hseg.2 (tailBy_false_head done rest)

theorem replaceKwAux_blank {K : Str} (hK : isPlain K = true) (sep : Str)
    (hsep : ∀ c ∈ sep, c = ' ' ∨ c = '\n') (prev : Option Char) (t : Str) :
    replaceKwAux K 0 prev (sep ++ t) = sep ++ replaceKwAux K 0 (lastOr prev sep) t := by
  induction sep generalizing prev with
  | nil => rfl
  | cons c cs ih =>
    have hc : headMiss K c = true := by
      simp only [isPlain, Bool.and_eq_true] at hK
      rcases hsep c (List.mem_cons_self _ _) with h | h
      · rw [h]; exact hK.1.1.1.1.1.2
      · rw [h]; exact hK.1.1.1.1.2
    rw [List.cons_append, replaceKwAux_miss _ _ _ _ (kwMatchAt_of_headMiss hc (isPlain_ne_nil hK) _ _),
      ih (fun c hc => hsep c (List.mem_cons_of_mem _ hc))]
    rfl

theorem mixSep_blank (done : List Str) (first : Bool) (k : Str) :
    ∀ c ∈ mixSep done first k, c = ' ' ∨ c = '\n' := by
  intro c hc
  unfold mixSep at hc
  rw [List.mem_append] at hc
  rcases hc with h | h
  · cases first <;> simp at h
    exact Or.inl h
  · split at h
    · simp [brk] at h
      tauto
    · simp at h

theorem wb_lastOr_mixSep (done : List Str) (first : Bool) (k : Str) (prev : Option Char)
    (hp : first = true → wb prev = false) : wb (lastOr prev (mixSep done first k)) = false := by
  unfold mixSep
  by_cases hk : k ∈ done
  · cases first <;> simp [hk, brk, lastOr, wb, isWordChar]
  · cases first
    · simp [hk, lastOr, wb, isWordChar]
    · simpa [hk, lastOr] using hp

theorem mixSep_snoc_self (done : List Str) (first : Bool) (K : Str) (hK : K ∉ done) :
    mixSep (done ++ [K]) first K = mixSep done first K ++ brk := by
  simp [mixSep, hK]

theorem mixSep_snoc_other (done : List Str) (first : Bool) {K k : Str} (hk : K ≠ k) :
    mixSep (done ++ [K]) first k = mixSep done first k := by
  have : (k ∈ done ++ [K]) ↔ k ∈ done := by
    simp only [List.mem_append, List.mem_singleton]
    constructor
    · rintro (h | h)
      · exact h
      · exact absurd h.symm hk
    · exact Or.inl
  simp only [mixSep, this]

theorem replaceKwAux_mixTail {K : Str} (hK : isPlain K = true) (done : List Str)
    (hKd : K ∉ done)
    (hcross : ∀ H ∈ liveKeywords, H ∉ done → crossOK K (' ' :: H) = true)
    (hpass : ∀ H ∈ liveKeywords, K ≠ H → noMay K none H = true)
    (ps : List (Str × Str)) :
    (∀ seg ∈ ps, seg.1 ∈ liveKeywords ∧ wb seg.2.head? = false ∧
      noHits K (lastOr none seg.1) seg.2 = true) →
    ∀ (first : Bool) (prev : Option Char), (first = true → wb prev = false) →
      replaceKwAux K 0 prev (tailBy (mixSep done) first ps) =
        tailBy (mixSep (done ++ [K])) first ps := by
  induction ps with
  | nil => intro _ _ _ _; rfl
  | cons seg rest ih =>
    intro hps first prev hp
    obtain ⟨k, y⟩ := seg
    have hseg := hps (k, y) (List.mem_cons_self _ _)
    have hrest : ∀ seg ∈ rest, seg.1 ∈ liveKeywords ∧ wb seg.2.head? = false ∧
        noHits K (lastOr none seg.1) seg.2 = true := fun s hs => hps s (List.mem_cons_of_mem _ hs)
    have hKne := isPlain_ne_nil hK
    have hkne : k ≠ [] := liveKeywords_ne_nil k hseg.1
    have hcf := crossFree_mixTail hK done hcross rest (fun s hs => ⟨(hrest s hs).1, (hrest s hs).2.1⟩)
    have hth := tailBy_false_head done rest
    have hyt : wb (y ++ tailBy (mixSep done) false rest).head? = false := wb_head_append hseg.2.1 hth
    have hbody : ∀ q : Option Char,
        replaceKwAux K 0 (lastOr q k) (y ++ tailBy (mixSep done) false rest) =
          y ++ tailBy (mixSep (done ++ [K])) false rest := by
      intro q
      have h1 : noHitsIn K (lastOr q k) y (tailBy (mixSep done) false rest) = true := by
        rw [lastOr_of_ne_nil q none hkne]
        exact noHitsIn_of_noHits K _ y _ hseg.2.2 hcf hth
      rw [replaceKwAux_of_noHitsIn K _ _ _ h1, ih hrest false _ (fun h => by simp at h)]
    have hsp := wb_lastOr_mixSep done first k prev hp
    show replaceKwAux K 0 prev (mixSep done first k ++ k ++ y ++ tailBy (mixSep done) false rest) =
      mixSep (done ++ [K]) first k ++ k ++ y ++ tailBy (mixSep (done ++ [K])) false rest
    rw [List.append_assoc, List.append_assoc,
      replaceKwAux_blank hK _ (mixSep_blank done first k)]
    by_cases hkK : K = k
    · subst hkK
      have hm := kwMatchAt_self hK (lastOr prev (mixSep done first K))
        (y ++ tailBy (mixSep done) false rest) hsp hyt
      rw [replaceKwAux_hit K _ _ hKne hm, mixSep_snoc_self done first K hKd, breakBefore_eq]
      have hd : (K ++ (y ++ tailBy (mixSep done) false rest)).drop K.length =
          y ++ tailBy (mixSep done) false rest := by simp
      have ht : (K ++ (y ++ tailBy (mixSep done) false rest)).take K.length = K := by simp
      rw [hd, ht]
      have hl : K.getLast? = lastOr none K := by
        cases K with
        | nil => exact absurd rfl hKne
        | cons c cs => exact (lastOr_eq_getLast? none c cs).symm
      rw [hl, hbody none]
      simp
    · have h1 : noHitsIn K (lastOr prev (mixSep done first k)) k
          (y ++ tailBy (mixSep done) false rest) = true := by
        rw [noHitsIn_congr K (q := none) (by rw [hsp]; rfl)]
        exact noHitsIn_of_noMay K none k _ (hpass k hseg.1 hkK) hyt
      rw [replaceKwAux_of_noHitsIn K _ _ _ h1, hbody, mixSep_snoc_other done first hkK]
      simp

theorem replaceKw_textBy {K : Str} (hK : isPlain K = true) (done : List Str)
    (hKd : K ∉ done)
    (hcross : ∀ H ∈ liveKeywords, H ∉ done → crossOK K (' ' :: H) = true)
    (hpass : ∀ H ∈ liveKeywords, K ≠ H → noMay K none H = true)
    (l : Layout) (h1 : noHits K none l.1 = true)
    (h2 : ∀ seg ∈ l.2, seg.1 ∈ liveKeywords ∧ wb seg.2.head? = false ∧
      noHits K (lastOr none seg.1) seg.2 = true) :
    replaceKw K (textBy (mixSep done) l) = textBy (mixSep (done ++ [K])) l := by
  obtain ⟨p, ps⟩ := l
  unfold replaceKw textBy
  by_cases hp : p = []
  · subst hp
    simpa using replaceKwAux_mixTail hK done hKd hcross hpass ps h2 true none (fun _ => rfl)
  · have hcf := crossFree_mixTail hK done hcross ps (fun s hs => ⟨(h2 s hs).1, (h2 s hs).2.1⟩)
    have hth := tailBy_false_head done ps
    have hn := noHitsIn_of_noHits K none p _ h1 hcf hth
    simp only [hp, decide_False]
    rw [replaceKwAux_of_noHitsIn K _ _ _ hn,
      replaceKwAux_mixTail hK done hKd hcross hpass ps h2 false _ (fun h => by simp at h)]

theorem keywords_cross : ∀ t ∈ keywords.tails, ∀ H ∈ t, H ∈ liveKeywords →
    crossOK (t.headD []) (' ' :: H) = true := by
  decide

theorem liveKeywords_sub {H : Str} (h : H ∈ liveKeywords) : H ∈ keywords :=
  (List.mem_filter.mp h).1

theorem foldl_replaceKw_textBy (l : Layout) (hl : Calm l) (todo : List Str) :
    ∀ done : List Str, done ++ todo = keywords →
      todo.foldl (fun acc kw => replaceKw kw acc) (textBy (mixSep done) l) =
        textBy (mixSep keywords) l := by
  induction todo with
  | nil =>
    intro done hd
    rw [List.append_nil] at hd
    rw [hd]; rfl
  | cons K todo ih =>
    intro done hd
    have hKmem : K ∈ keywords := by rw [← hd]; simp
    have hK := keywords_plain K hKmem
    have hnd : (done ++ K :: todo).Nodup := by rw [hd]; exact keywords_nodup
    have hKd : K ∉ done := by
      intro h
      have := (List.nodup_append.mp hnd).2.2
      exact this h (List.mem_cons_self _ _) 
    have htail : (K :: todo) ∈ keywords.tails := by
      rw [List.mem_tails, ← hd]
      exact List.suffix_append _ _
    have hcross : ∀ H ∈ liveKeywords, H ∉ done → crossOK K (' ' :: H) = true := by
      intro H hH hHd
      have hHk : H ∈ done ++ K :: todo := by rw [hd]; exact liveKeywords_sub hH
      rcases List.mem_append.mp hHk with h | h
      · exact absurd h hHd
      · exact keywords_cross _ htail H h hH
    have h2 : ∀ seg ∈ l.2, seg.1 ∈ liveKeywords ∧ wb seg.2.head? = false ∧
        noHits K (lastOr none seg.1) seg.2 = true := fun seg hs =>
      ⟨(hl.2 seg hs).1, (hl.2 seg hs).2.1, noHits_of_quiet hKmem (hl.2 seg hs).2.2⟩
    rw [List.foldl_cons, replaceKw_textBy hK done hKd hcross (keywords_pass K hKmem) l
      (noHits_of_quiet hKmem hl.1) h2]
    exact ih (done ++ [K]) (by rw [List.append_assoc]; exact hd)

theorem breakKeywords_textBy (l : Layout) (hl : Calm l) :
    breakKeywords (textBy (mixSep []) l) = textBy (mixSep keywords) l :=
  foldl_replaceKw_textBy l hl keywords [] rfl

/-! ## Single-spaced texts -/

theorem spaced_append_left {a b : Str} (h : spaced (a ++ b) = true) : spaced a = true := by
  induction a with
  | nil => rfl
  | cons c a ih =>
    rw [List.cons_append, spaced, Bool.and_eq_true] at h
    rw [spaced, Bool.and_eq_true]
    refine ⟨?_, ih h.2⟩
    cases a with
    | nil =>
      have h1 := h.1
      revert h1
      cases isReSpace c <;> simp
      intro h _; exact h
    | cons d a => exact h.1

theorem spaced_append_right {a b : Str} (h : spaced (a ++ b) = true) : spaced b = true := by
  induction a with
  | nil => exact h
  | cons c a ih =>
    rw [List.cons_append, spaced, Bool.and_eq_true] at h
    exact ih h.2

theorem spaced_of_isInfix {t x : Str} (h : t <:+: x) (hx : spaced x = true) : spaced t = true := by
  obtain ⟨a, b, rfl⟩ := h
  exact spaced_append_right (spaced_append_left hx)

theorem collapseWsAux_true_head (t : Str) :
    ((collapseWsAux true t).head?.map isReSpace).getD false = false := by
  induction t with
  | nil => rfl
  | cons c t ih =>
    by_cases hc : isReSpace c = true
    · simpa [collapseWsAux, hc] using ih
    · simp [collapseWsAux, hc]

theorem spaced_collapseWsAux (r : Bool) (t : Str) : spaced (collapseWsAux r t) = true := by
  induction t generalizing r with
  | nil => rfl
  | cons c t ih =>
    by_cases hc : isReSpace c = true
    · cases r
      · simp only [collapseWsAux, hc, if_true, Bool.false_eq_true, if_false]
        rw [spaced, ih, collapseWsAux_true_head]
        rfl
      · simpa [collapseWsAux, hc] using ih true
    · simp only [collapseWsAux, hc, Bool.false_eq_true, if_false]
      rw [spaced, ih]
      simp [hc]

theorem collapseWsAux_of_spaced (t : Str) (h : spaced t = true) :
    ∀ r : Bool, (r = true → (t.head?.map isReSpace).getD false = false) →
      collapseWsAux r t = t := by
  induction t with
  | nil => intro _ _; rfl
  | cons c t ih =>
    intro r hr
    rw [spaced, Bool.and_eq_true] at h
    by_cases hc : isReSpace c = true
    · have hr' : r = false := by
        cases r
        · rfl
        · have := hr rfl
          simp [hc] at this
      subst hr'
      have h1 := h.1
      simp only [hc, Bool.not_true, Bool.false_or, Bool.and_eq_true, beq_iff_eq,
        Bool.not_eq_true'] at h1
      simp only [collapseWsAux, hc, if_true, Bool.false_eq_true, if_false]
      rw [ih h.2 true (fun _ => h1.2), h1.1]
    · simp only [collapseWsAux, hc, Bool.false_eq_true, if_false]
      rw [ih h.2 false (fun h => by simp at h)]

theorem eq_space_of_spaced {t : Str} (h : spaced t = true) {c : Char} (hc : c ∈ t)
    (hs : isReSpace c = true) : c = ' ' := by
  induction t with
  | nil => simp at hc
  | cons d t ih =>
    rw [spaced, Bool.and_eq_true] at h
    rcases List.mem_cons.mp hc with e | e
    · subst e
      have h1 := h.1
      simp only [hs, Bool.not_true, Bool.false_or, Bool.and_eq_true, beq_iff_eq] at h1
      exact h1.1
    · exact ih h.2 e

theorem newline_not_mem_of_spaced {t : Str} (h : spaced t = true) : '\n' ∉ t := by
  intro hc
  have := eq_space_of_spaced h hc (by decide)
  exact absurd this (by decide)

theorem spaced_append {a b : Str} (ha : spaced a = true) (he : endsFirm a = true)
    (hb : spaced b = true) : spaced (a ++ b) = true := by
  induction a with
  | nil => exact hb
  | cons c a ih =>
    rw [spaced, Bool.and_eq_true] at ha
    cases a with
    | nil =>
      have hc : isReSpace c = false := by simpa [endsFirm] using he
      rw [List.cons_append, spaced, List.nil_append, hb]
      simp [hc]
    | cons d a =>
      have he' : endsFirm (d :: a) = true := by simpa [endsFirm] using he
      rw [List.cons_append, spaced, ih ha.2 he', Bool.and_true]
      exact ha.1

/-! ## The text steps of `formatSQL` on a layout -/

theorem liveKeywords_shape : ∀ k ∈ liveKeywords,
    spaced k = true ∧ endsFirm k = true ∧ startsFirm k = true ∧
      (k.head?.map isReSpace).getD false = false ∧ k.getLast? ≠ some ' ' := by
  decide

theorem endsFirm_append {a b : Str} (hb : endsFirm b = true) (h : b = [] → endsFirm a = true) :
    endsFirm (a ++ b) = true := by
  cases b with
  | nil => simpa using h rfl
  | cons c b =>
    unfold endsFirm at *
    rw [List.getLast?_append_of_ne_nil _ (List.cons_ne_nil c b)]
    exact hb

theorem collapseWsAux_cons (r : Bool) (c : Char) (t : Str) :
    collapseWsAux r (c :: t) =
      if isReSpace c then (if r then collapseWsAux true t else ' ' :: collapseWsAux true t)
      else c :: collapseWsAux false t := rfl

theorem collapseWsAux_append_firm (a b : Str) (ha : a ≠ []) (he : endsFirm a = true) (r : Bool) :
    collapseWsAux r (a ++ b) = collapseWsAux r a ++ collapseWsAux false b := by
  induction a generalizing r with
  | nil => exact absurd rfl ha
  | cons c a ih =>
    cases a with
    | nil =>
      have hc : isReSpace c = false := by simpa [endsFirm] using he
      simp [collapseWsAux, hc]
    | cons d a =>
      have he' : endsFirm (d :: a) = true := by simpa [endsFirm] using he
      have h1 := ih (List.cons_ne_nil d a) he'
      show collapseWsAux r (c :: ((d :: a) ++ b)) =
        collapseWsAux r (c :: (d :: a)) ++ collapseWsAux false b
      rw [collapseWsAux_cons, collapseWsAux_cons r c (d :: a), h1 true, h1 false]
      by_cases hc : isReSpace c = true
      · cases r <;> simp [hc]
      · simp [hc]

theorem collapseWsAux_piece (g b : Str) (hs : spaced g = true) (he : endsFirm g = true) :
    collapseWsAux false (g ++ b) = g ++ collapseWsAux false b := by
  by_cases hg : g = []
  · subst hg; rfl
  · rw [collapseWsAux_append_firm g b hg he, collapseWsAux_of_spaced g hs false (fun h => by simp at h)]

theorem collapseWsAux_true_eq (t : Str) (h : (t.head?.map isReSpace).getD false = false) :
    collapseWsAux true t = collapseWsAux false t := by
  cases t with
  | nil => rfl
  | cons c t =>
    have hc : isReSpace c = false := by simpa using h
    simp [collapseWsAux, hc]

theorem collapseWsAux_brk (t : Str) (h : (t.head?.map isReSpace).getD false = false) :
    collapseWsAux false (brk ++ t) = ' ' :: collapseWsAux false t := by
  rw [← collapseWsAux_true_eq t h]
  simp [brk, collapseWsAux, isReSpace]

theorem spaced_seg {k y : Str} (hk : k ∈ liveKeywords) (hy : spaced y = true) :
    spaced (k ++ y) = true :=
  spaced_append (liveKeywords_shape k hk).1 (liveKeywords_shape k hk).2.1 hy

theorem endsFirm_seg {k y : Str} (hk : k ∈ liveKeywords) (hy : endsFirm y = true) :
    endsFirm (k ++ y) = true :=
  endsFirm_append hy (fun _ => (liveKeywords_shape k hk).2.1)

theorem head_seg {k : Str} (hk : k ∈ liveKeywords) (t : Str) : (k ++ t).head? = k.head? := by
  cases k with
  | nil => exact absurd rfl (liveKeywords_ne_nil [] hk)
  | cons c k => rfl

theorem collapseWsAux_tailBy (ps : List (Str × Str))
    (hps : ∀ seg ∈ ps, seg.1 ∈ liveKeywords ∧ spaced seg.2 = true ∧ endsFirm seg.2 = true) :
    ∀ g : Str, spaced g = true → endsFirm g = true →
      collapseWsAux false (g ++ tailBy (padSep []) false ps) =
        g ++ tailBy (mixSep []) false ps := by
  induction ps with
  | nil =>
    intro g hs _
    simp only [tailBy, List.append_nil]
    exact collapseWsAux_of_spaced g hs false (fun h => by simp at h)
  | cons seg rest ih =>
    intro g hs he
    obtain ⟨k, y⟩ := seg
    obtain ⟨hk, hy, hye⟩ := hps (k, y) (List.mem_cons_self _ _)
    have h1 : tailBy (padSep []) false ((k, y) :: rest) =
        brk ++ ((k ++ y) ++ tailBy (padSep []) false rest) := by
      simp [tailBy, padSep]
    have h2 : tailBy (mixSep []) false ((k, y) :: rest) =
        ' ' :: ((k ++ y) ++ tailBy (mixSep []) false rest) := by
      simp [tailBy, mixSep]
    have hh : ((((k ++ y) ++ tailBy (padSep []) false rest)).head?.map isReSpace).getD false
        = false := by
      rw [List.append_assoc, head_seg hk]
      exact (liveKeywords_shape k hk).2.2.2.1
    rw [h1, h2, collapseWsAux_piece g _ hs he, collapseWsAux_brk _ hh,
      ih (fun s h => hps s (List.mem_cons_of_mem _ h)) (k ++ y) (spaced_seg hk hy)
        (endsFirm_seg hk hye)]

theorem collapseWs_textBy (l : Layout) (hl : Neat l) (hk : ∀ seg ∈ l.2, seg.1 ∈ liveKeywords) :
    collapseWs (textBy (padSep []) l) = textBy (mixSep []) l := by
  obtain ⟨p, ps⟩ := l
  obtain ⟨h1, h2, -, h4⟩ := hl
  have hps : ∀ seg ∈ ps, seg.1 ∈ liveKeywords ∧ spaced seg.2 = true ∧ endsFirm seg.2 = true :=
    fun s hs => ⟨hk s hs, h4 s hs⟩
  unfold collapseWs textBy
  by_cases hp : p = []
  · subst hp
    cases ps with
    | nil => rfl
    | cons seg rest =>
      obtain ⟨k, y⟩ := seg
      obtain ⟨hk1, hy, hye⟩ := hps (k, y) (List.mem_cons_self _ _)
      have := collapseWsAux_tailBy rest (fun s h => hps s (List.mem_cons_of_mem _ h)) (k ++ y)
        (spaced_seg hk1 hy) (endsFirm_seg hk1 hye)
      simpa [tailBy, padSep, mixSep] using this
  · simp only [hp, decide_False]
    exact collapseWsAux_tailBy ps hps p h1 h2

/-! ### `strings.TrimSpace` -/

theorem trimLeftSpace_of_startsFirm {t : Str} (h : startsFirm t = true) : trimLeftSpace t = t := by
  cases t with
  | nil => rfl
  | cons c t =>
    have hc : isSpace c = false := by simpa [startsFirm] using h
    simp [trimLeftSpace, hc]

theorem trimRightSpace_of_endsSolid {t : Str} (h : endsSolid t = true) : trimRightSpace t = t := by
  rcases List.eq_nil_or_concat t with rfl | ⟨a, c, rfl⟩
  · rfl
  · have hc : isSpace c = false := by simpa [endsSolid] using h
    simp [trimRightSpace, hc]

theorem trimSpace_of_firm {t : Str} (h1 : startsFirm t = true) (h2 : endsSolid t = true) :
    trimSpace t = t := by
  unfold trimSpace
  rw [trimLeftSpace_of_startsFirm h1, trimRightSpace_of_endsSolid h2]

theorem trimSpace_brk (t : Str) (h1 : startsFirm t = true) (h2 : endsSolid t = true) :
    trimSpace (brk ++ t) = t := by
  have hn : isSpace '\n' = true := by decide
  have hs : isSpace ' ' = true := by decide
  show trimSpace ('\n' :: ' ' :: ' ' :: ' ' :: ' ' :: t) = t
  rw [trimSpace_cons_of_space _ _ hn, trimSpace_cons_of_space _ _ hs,
    trimSpace_cons_of_space _ _ hs, trimSpace_cons_of_space _ _ hs,
    trimSpace_cons_of_space _ _ hs, trimSpace_of_firm h1 h2]

theorem endsSolid_append {a b : Str} (hb : endsSolid b = true) (h : b = [] → endsSolid a = true) :
    endsSolid (a ++ b) = true := by
  cases b with
  | nil => simpa using h rfl
  | cons c b =>
    unfold endsSolid at *
    rw [List.getLast?_append_of_ne_nil _ (List.cons_ne_nil c b)]
    exact hb

theorem endsSolid_of_append {a b : Str} (h : endsSolid (a ++ b) = true) (hb : b ≠ []) :
    endsSolid b = true := by
  unfold endsSolid at *
  rwa [List.getLast?_append_of_ne_nil _ hb] at h

theorem hasSuffix_singleton (t : Str) (c : Char) :
    hasSuffix t [c] = true ↔ t.getLast? = some c := by
  rcases List.eq_nil_or_concat t with rfl | ⟨a, d, rfl⟩
  · simp [hasSuffix]
  · simp [hasSuffix, List.isPrefixOf]
    exact eq_comm

theorem endsSolid_of_semicolon {t : Str} (h : hasSuffix t [';'] = true) : endsSolid t = true := by
  rw [hasSuffix_singleton] at h
  simp [endsSolid, h]
  decide

/-! ### The blank-line clean-up -/

theorem collapseBlankAux_piece (g t : Str) (hg : '\n' ∉ g) :
    collapseBlankAux 0 (g ++ t) = g ++ collapseBlankAux 0 t := by
  induction g with
  | nil => rfl
  | cons c g ih =>
    have hc : c ≠ '\n' := fun e => hg (by simp [e])
    have hg' : '\n' ∉ g := fun e => hg (by simp [e])
    simp [collapseBlankAux, hc, ih hg']

theorem blankSpanAux_spaces (n : Nat) (t : Str)
    (h : (t.head?.map isReSpace).getD false = false) (m : Nat) :
    blankSpanAux m (List.replicate n ' ' ++ t) = 0 := by
  induction n generalizing m with
  | zero =>
    cases t with
    | nil => rfl
    | cons c t =>
      have hc : isReSpace c = false := by simpa using h
      simp [blankSpanAux, hc]
  | succ n ih =>
    have hs : isReSpace ' ' = true := by decide
    simp only [List.replicate_succ, List.cons_append, blankSpanAux, hs, if_true]
    simp [ih (m + 1)]

theorem collapseBlankAux_brk (t : Str) (h : (t.head?.map isReSpace).getD false = false) :
    collapseBlankAux 0 (brk ++ t) = brk ++ collapseBlankAux 0 t := by
  have hb : blankSpanAux 0 (' ' :: ' ' :: ' ' :: ' ' :: t) = 0 := blankSpanAux_spaces 4 t h 0
  have h4 : collapseBlankAux 0 ([' ', ' ', ' ', ' '] ++ t) =
      [' ', ' ', ' ', ' '] ++ collapseBlankAux 0 t :=
    collapseBlankAux_piece _ t (by decide)
  show collapseBlankAux 0 ('\n' :: ' ' :: ' ' :: ' ' :: ' ' :: t) = _
  rw [collapseBlankAux]
  simp only [hb, ne_eq, not_true_eq_false, and_false, if_false]
  exact congrArg ('\n' :: ·) h4

theorem collapseBlankAux_tailBy (pre : Str) (hpre : '\n' ∉ pre) (ps : List (Str × Str))
    (hps : ∀ seg ∈ ps, seg.1 ∈ liveKeywords ∧ spaced seg.2 = true) :
    ∀ g : Str, '\n' ∉ g →
      collapseBlankAux 0 (g ++ tailBy (padSep pre) false ps) =
        g ++ tailBy (padSep pre) false ps := by
  induction ps with
  | nil =>
    intro g hg
    have := collapseBlankAux_piece g [] hg
    simpa [tailBy, collapseBlankAux] using this
  | cons seg rest ih =>
    intro g hg
    obtain ⟨k, y⟩ := seg
    obtain ⟨hk, hy⟩ := hps (k, y) (List.mem_cons_self _ _)
    have h1 : g ++ tailBy (padSep pre) false ((k, y) :: rest) =
        (g ++ pre) ++ (brk ++ ((k ++ y) ++ tailBy (padSep pre) false rest)) := by
      simp [tailBy, padSep]
    have hh : ((((k ++ y) ++ tailBy (padSep pre) false rest)).head?.map isReSpace).getD false
        = false := by
      rw [List.append_assoc, head_seg hk]
      exact (liveKeywords_shape k hk).2.2.2.1
    have hgp : '\n' ∉ g ++ pre := by
      simp only [List.mem_append, not_or]
      exact ⟨hg, hpre⟩
    have hky : '\n' ∉ k ++ y := newline_not_mem_of_spaced (spaced_seg hk hy)
    rw [h1, collapseBlankAux_piece _ _ hgp, collapseBlankAux_brk _ hh,
      ih (fun s h => hps s (List.mem_cons_of_mem _ h)) (k ++ y) hky]

theorem collapseBlank_textBy (pre : Str) (hpre : '\n' ∉ pre) (l : Layout)
    (h1 : spaced l.1 = true)
    (hps : ∀ seg ∈ l.2, seg.1 ∈ liveKeywords ∧ spaced seg.2 = true) :
    collapseBlank (textBy (padSep pre) l) = textBy (padSep pre) l := by
  obtain ⟨p, ps⟩ := l
  unfold collapseBlank textBy
  by_cases hp : p = []
  · subst hp
    cases ps with
    | nil => rfl
    | cons seg rest =>
      obtain ⟨k, y⟩ := seg
      obtain ⟨hk1, hy⟩ := hps (k, y) (List.mem_cons_self _ _)
      have := collapseBlankAux_tailBy pre hpre rest (fun s h => hps s (List.mem_cons_of_mem _ h))
        (k ++ y) (newline_not_mem_of_spaced (spaced_seg hk1 hy))
      simpa [tailBy, padSep] using this
  · simp only [hp, decide_False]
    exact collapseBlankAux_tailBy pre hpre ps hps p (newline_not_mem_of_spaced h1)

/-! ### The line loop -/

theorem trimRightBlank_eq_rdropWhile (t : Str) :
    trimRightBlank t = t.rdropWhile (· = ' ') := rfl

theorem trimRightBlank_concat_space (a : Str) : trimRightBlank (a ++ [' ']) = trimRightBlank a := by
  simp [trimRightBlank]

theorem trimRightBlank_of_last (t : Str) (h : t.getLast? ≠ some ' ') : trimRightBlank t = t := by
  rcases List.eq_nil_or_concat t with rfl | ⟨a, c, rfl⟩
  · rfl
  · have hc : c ≠ ' ' := by simpa using h
    simp [trimRightBlank, hc]

theorem trimRightBlank_append (a b : Str) (hl : a.getLast? ≠ some ' ') :
    trimRightBlank (a ++ b) = a ++ trimRightBlank b := by
  have ha := trimRightBlank_of_last a hl
  unfold trimRightBlank at *
  rw [List.reverse_append, List.dropWhile_append]
  cases hd : List.dropWhile (fun x => decide (x = ' ')) b.reverse with
  | nil => simp [ha]
  | cons c r => simp

theorem trimRightBlank_isPrefix (t : Str) : trimRightBlank t <+: t :=
  List.rdropWhile_prefix _ t

theorem trimRightBlank_last (t : Str) : (trimRightBlank t).getLast? ≠ some ' ' := by
  intro h
  have hne : trimRightBlank t ≠ [] := by
    intro e
    rw [e] at h
    simp at h
  have := List.rdropWhile_last_not (fun c : Char => decide (c = ' ')) t hne
  rw [List.getLast?_eq_getLast _ hne] at h
  have h2 : (List.rdropWhile (fun c => decide (c = ' ')) t).getLast hne = ' ' :=
    Option.some.inj h
  rw [h2] at this
  simp at this

theorem spaced_trimRightBlank {t : Str} (h : spaced t = true) : spaced (trimRightBlank t) = true := by
  obtain ⟨r, hr⟩ := trimRightBlank_isPrefix t
  rw [← hr] at h
  exact spaced_append_left h

theorem endsFirm_trimRightBlank {t : Str} (h : spaced t = true) :
    endsFirm (trimRightBlank t) = true := by
  have hs := spaced_trimRightBlank h
  have hl := trimRightBlank_last t
  rcases List.eq_nil_or_concat (trimRightBlank t) with e | ⟨a, c, e⟩
  · rw [e]; rfl
  · rw [e] at hs hl ⊢
    have hc : c ≠ ' ' := by simpa using hl
    have hr : isReSpace c = false := by
      by_contra hcon
      have hcon' : isReSpace c = true := by simpa using hcon
      exact hc (eq_space_of_spaced hs (by simp) hcon')
    simp [endsFirm, hr]

theorem not_blank_of_endsFirm {t : Str} (h : endsFirm t = true) : t.getLast? ≠ some ' ' := by
  intro e
  simp [endsFirm, e, isReSpace] at h

theorem startsFirm_trimRightBlank {t : Str} (h : startsFirm t = true) :
    startsFirm (trimRightBlank t) = true ∧ (t ≠ [] → trimRightBlank t ≠ []) := by
  cases t with
  | nil => exact ⟨rfl, fun h => absurd rfl h⟩
  | cons c t =>
    have hc : isSpace c = false := by simpa [startsFirm] using h
    have hcb : c ≠ ' ' := by
      intro e
      rw [e] at hc
      exact absurd hc (by decide)
    have := trimRightBlank_append [c] t (by simpa using hcb)
    rw [List.singleton_append] at this
    rw [this]
    exact ⟨by simpa [startsFirm] using hc, fun _ => List.cons_ne_nil _ _⟩

theorem splitAux_ne_nil (sep : Char) (s cur : Str) : splitAux sep s cur ≠ [] := by
  induction s generalizing cur with
  | nil => simp [splitAux]
  | cons c s ih =>
    unfold splitAux
    split
    · simp
    · exact ih _

theorem joinWith_cons_of_ne_nil (sep a : Str) (ls : List Str) (h : ls ≠ []) :
    joinWith sep (a :: ls) = a ++ sep ++ joinWith sep ls := by
  cases ls with
  | nil => exact absurd rfl h
  | cons b r => rfl

theorem trimLines_line (a b : Str) (ha : '\n' ∉ a) :
    trimLines (a ++ '\n' :: b) = trimRightBlank a ++ '\n' :: trimLines b := by
  unfold trimLines splitOn
  rw [splitAux_append_sep '\n' a b [] ha, List.map_cons,
    joinWith_cons_of_ne_nil _ _ _ (by simpa using splitAux_ne_nil '\n' b [])]
  simp

theorem trimLines_last (a : Str) (ha : '\n' ∉ a) : trimLines a = trimRightBlank a := by
  unfold trimLines splitOn
  rw [splitAux_of_not_mem '\n' a [] ha]
  simp [joinWith]

theorem indent_seg_last {k : Str} (hk : k ∈ liveKeywords) :
    ([' ', ' ', ' ', ' '] ++ k).getLast? ≠ some ' ' := by
  have hne := liveKeywords_ne_nil k hk
  rw [List.getLast?_append_of_ne_nil _ hne]
  exact (liveKeywords_shape k hk).2.2.2.2

theorem trimLines_tailBy (ps : List (Str × Str))
    (hps : ∀ seg ∈ ps, seg.1 ∈ liveKeywords ∧ spaced seg.2 = true) :
    ∀ g : Str, '\n' ∉ g →
      trimLines (g ++ tailBy (padSep []) false ps) =
        trimRightBlank g ++ tailBy (padSep []) false (trimBodies (g, ps)).2 := by
  induction ps with
  | nil =>
    intro g hg
    simpa [tailBy, trimBodies] using trimLines_last g hg
  | cons seg rest ih =>
    intro g hg
    obtain ⟨k, y⟩ := seg
    obtain ⟨hk, hy⟩ := hps (k, y) (List.mem_cons_self _ _)
    have h1 : g ++ tailBy (padSep []) false ((k, y) :: rest) =
        g ++ '\n' :: (([' ', ' ', ' ', ' '] ++ k ++ y) ++ tailBy (padSep []) false rest) := by
      simp [tailBy, padSep, brk]
    have hn : '\n' ∉ [' ', ' ', ' ', ' '] ++ k ++ y := by
      have := newline_not_mem_of_spaced (spaced_seg hk hy)
      simp only [List.append_assoc, List.mem_append, not_or]
      exact ⟨by decide, by simpa using this⟩
    have h2 := ih (fun s h => hps s (List.mem_cons_of_mem _ h)) _ hn
    rw [h1, trimLines_line g _ hg, h2,
      trimRightBlank_append ([' ', ' ', ' ', ' '] ++ k) y (indent_seg_last hk)]
    simp [tailBy, padSep, brk, trimBodies]

theorem trimLines_textBy (l : Layout) (h1 : spaced l.1 = true) (h0 : startsFirm l.1 = true)
    (hps : ∀ seg ∈ l.2, seg.1 ∈ liveKeywords ∧ spaced seg.2 = true) :
    trimLines (textBy (padSep []) l) = textBy (padSep []) (trimBodies l) := by
  obtain ⟨p, ps⟩ := l
  unfold textBy
  by_cases hp : p = []
  · subst hp
    cases ps with
    | nil => rfl
    | cons seg rest =>
      obtain ⟨k, y⟩ := seg
      obtain ⟨hk, hy⟩ := hps (k, y) (List.mem_cons_self _ _)
      have h2 := trimLines_tailBy rest (fun s h => hps s (List.mem_cons_of_mem _ h)) (k ++ y)
        (newline_not_mem_of_spaced (spaced_seg hk hy))
      rw [trimRightBlank_append k y (liveKeywords_shape k hk).2.2.2.2] at h2
      simpa [tailBy, padSep, trimBodies, trimRightBlank] using h2
  · have hp' := (startsFirm_trimRightBlank h0).2 hp
    have h2 := trimLines_tailBy ps hps p (newline_not_mem_of_spaced h1)
    simpa [hp, hp', trimBodies] using h2

theorem trimLines_tailBy_space (ps : List (Str × Str))
    (hps : ∀ seg ∈ ps, seg.1 ∈ liveKeywords ∧ spaced seg.2 = true ∧ endsFirm seg.2 = true) :
    ∀ g : Str, '\n' ∉ g → g.getLast? ≠ some ' ' →
      trimLines (g ++ tailBy (padSep [' ']) false ps) = g ++ tailBy (padSep []) false ps := by
  induction ps with
  | nil =>
    intro g hg hl
    simpa [tailBy, trimRightBlank_of_last g hl] using trimLines_last g hg
  | cons seg rest ih =>
    intro g hg hl
    obtain ⟨k, y⟩ := seg
    obtain ⟨hk, hy, hye⟩ := hps (k, y) (List.mem_cons_self _ _)
    have h1 : g ++ tailBy (padSep [' ']) false ((k, y) :: rest) =
        (g ++ [' ']) ++ '\n' :: (([' ', ' ', ' ', ' '] ++ k ++ y) ++
          tailBy (padSep [' ']) false rest) := by
      simp [tailBy, padSep, brk]
    have hn : '\n' ∉ [' ', ' ', ' ', ' '] ++ k ++ y := by
      have := newline_not_mem_of_spaced (spaced_seg hk hy)
      simp only [List.append_assoc, List.mem_append, not_or]
      exact ⟨by decide, by simpa using this⟩
    have hgs : '\n' ∉ g ++ [' '] := by
      simp only [List.mem_append, not_or]
      exact ⟨hg, by decide⟩
    have hl2 : ([' ', ' ', ' ', ' '] ++ k ++ y).getLast? ≠ some ' ' := by
      rw [List.append_assoc]
      have := not_blank_of_endsFirm (endsFirm_seg hk hye)
      rwa [List.getLast?_append_of_ne_nil _ (by simp [liveKeywords_ne_nil k hk])]
    have h2 := ih (fun s h => hps s (List.mem_cons_of_mem _ h)) _ hn hl2
    rw [h1, trimLines_line _ _ hgs, h2, trimRightBlank_concat_space, trimRightBlank_of_last g hl]
    simp [tailBy, padSep, brk]

theorem trimLines_textBy_space (l : Layout) (hl : Neat l)
    (hk : ∀ seg ∈ l.2, seg.1 ∈ liveKeywords) :
    trimLines (textBy (padSep [' ']) l) = textBy (padSep []) l := by
  obtain ⟨p, ps⟩ := l
  obtain ⟨h1, h2, -, h4⟩ := hl
  have hps : ∀ seg ∈ ps, seg.1 ∈ liveKeywords ∧ spaced seg.2 = true ∧ endsFirm seg.2 = true :=
    fun s hs => ⟨hk s hs, h4 s hs⟩
  unfold textBy
  by_cases hp : p = []
  · subst hp
    cases ps with
    | nil => rfl
    | cons seg rest =>
      obtain ⟨k, y⟩ := seg
      obtain ⟨hk1, hy, hye⟩ := hps (k, y) (List.mem_cons_self _ _)
      have := trimLines_tailBy_space rest (fun s h => hps s (List.mem_cons_of_mem _ h)) (k ++ y)
        (newline_not_mem_of_spaced (spaced_seg hk1 hy))
        (not_blank_of_endsFirm (endsFirm_seg hk1 hye))
      simpa [tailBy, padSep] using this
  · simp only [hp, decide_False]
    exact trimLines_tailBy_space ps hps p (newline_not_mem_of_spaced h1)
      (not_blank_of_endsFirm h2)

/-! ### The closing semicolon -/

theorem tailBy_addEndSegs (sep : Bool → Str → Str) (c : Char) (ps : List (Str × Str))
    (h : ps ≠ []) (first : Bool) :
    tailBy sep first (addEndSegs c ps) = tailBy sep first ps ++ [c] := by
  induction ps generalizing first with
  | nil => exact absurd rfl h
  | cons seg rest ih =>
    obtain ⟨k, y⟩ := seg
    by_cases hr : rest = []
    · subst hr
      simp [addEndSegs, tailBy]
    · simp [addEndSegs, hr, tailBy, ih hr]

theorem textBy_addEnd (sep : Bool → Str → Str) (c : Char) (l : Layout) :
    textBy sep (addEnd c l) = textBy sep l ++ [c] := by
  obtain ⟨p, ps⟩ := l
  by_cases h : ps = []
  · subst h
    simp [addEnd, textBy, tailBy]
  · simp [addEnd, h, textBy, tailBy_addEndSegs sep c ps h]

/-! ### A formatted statement is left alone -/

theorem tailBy_ne_nil (sep : Bool → Str → Str) (first : Bool) (ps : List (Str × Str))
    (hk : ∀ seg ∈ ps, seg.1 ≠ []) (h : ps ≠ []) : tailBy sep first ps ≠ [] := by
  cases ps with
  | nil => exact absurd rfl h
  | cons seg rest =>
    obtain ⟨k, y⟩ := seg
    have := hk (k, y) (List.mem_cons_self _ _)
    simp [tailBy, this]

theorem getLast?_tailBy (sep sep2 : Bool → Str → Str) (ps : List (Str × Str))
    (hk : ∀ seg ∈ ps, seg.1 ≠ []) (h : ps ≠ []) :
    ∀ first first2 : Bool,
      (tailBy sep first ps).getLast? = (tailBy sep2 first2 ps).getLast? := by
  induction ps with
  | nil => exact absurd rfl h
  | cons seg rest ih =>
    intro first first2
    obtain ⟨k, y⟩ := seg
    have hkne : k ≠ [] := hk (k, y) (List.mem_cons_self _ _)
    have hrest : ∀ seg ∈ rest, seg.1 ≠ [] := fun s hs => hk s (List.mem_cons_of_mem _ hs)
    by_cases hr : rest = []
    · subst hr
      have e1 : tailBy sep first [(k, y)] = sep first k ++ (k ++ y) := by simp [tailBy]
      have e2 : tailBy sep2 first2 [(k, y)] = sep2 first2 k ++ (k ++ y) := by simp [tailBy]
      have hne : k ++ y ≠ [] := by simp [hkne]
      rw [e1, e2, List.getLast?_append_of_ne_nil _ hne, List.getLast?_append_of_ne_nil _ hne]
    · show (sep first k ++ k ++ y ++ tailBy sep false rest).getLast? =
        (sep2 first2 k ++ k ++ y ++ tailBy sep2 false rest).getLast?
      rw [List.getLast?_append_of_ne_nil _ (tailBy_ne_nil sep false rest hrest hr),
        List.getLast?_append_of_ne_nil _ (tailBy_ne_nil sep2 false rest hrest hr)]
      exact ih hrest hr false false

theorem getLast?_textBy (sep sep2 : Bool → Str → Str) (l : Layout)
    (hk : ∀ seg ∈ l.2, seg.1 ≠ []) :
    (textBy sep l).getLast? = (textBy sep2 l).getLast? := by
  obtain ⟨p, ps⟩ := l
  unfold textBy
  by_cases h : ps = []
  · subst h
    simp [tailBy]
  · rw [List.getLast?_append_of_ne_nil _ (tailBy_ne_nil sep _ ps hk h),
      List.getLast?_append_of_ne_nil _ (tailBy_ne_nil sep2 _ ps hk h)]
    exact getLast?_tailBy sep sep2 ps hk h _ _

theorem endsSolid_textBy (sep sep2 : Bool → Str → Str) (l : Layout)
    (hk : ∀ seg ∈ l.2, seg.1 ≠ []) (h : endsSolid (textBy sep l) = true) :
    endsSolid (textBy sep2 l) = true := by
  unfold endsSolid at *
  rwa [getLast?_textBy sep2 sep l hk]

theorem startsFirm_append {a : Str} (b : Str) (h : startsFirm a = true) (ha : a ≠ []) :
    startsFirm (a ++ b) = true := by
  cases a with
  | nil => exact absurd rfl ha
  | cons c a => exact h

theorem startsFirm_textBy (pre : Str) (l : Layout) (h1 : startsFirm l.1 = true)
    (hk : ∀ seg ∈ l.2, seg.1 ∈ liveKeywords) : startsFirm (textBy (padSep pre) l) = true := by
  obtain ⟨p, ps⟩ := l
  unfold textBy
  by_cases hp : p = []
  · subst hp
    cases ps with
    | nil => rfl
    | cons seg rest =>
      obtain ⟨k, y⟩ := seg
      have hk1 := hk (k, y) (List.mem_cons_self _ _)
      have : tailBy (padSep pre) true ((k, y) :: rest) =
          k ++ (y ++ tailBy (padSep pre) false rest) := by simp [tailBy, padSep]
      simp only [List.nil_append, decide_True]
      rw [this]
      exact startsFirm_append _ (liveKeywords_shape k hk1).2.2.1 (liveKeywords_ne_nil k hk1)
  · exact startsFirm_append _ h1 hp

theorem tailBy_mixSep_keywords (ps : List (Str × Str))
    (hk : ∀ seg ∈ ps, seg.1 ∈ liveKeywords) :
    tailBy (mixSep keywords) false ps = tailBy (padSep [' ']) false ps := by
  induction ps with
  | nil => rfl
  | cons seg rest ih =>
    obtain ⟨k, y⟩ := seg
    have hk1 := liveKeywords_sub (hk (k, y) (List.mem_cons_self _ _))
    simp only [tailBy, mixSep, padSep, hk1, if_true, Bool.false_eq_true, if_false,
      ih (fun s hs => hk s (List.mem_cons_of_mem _ hs))]

theorem trimSpace_textBy_mix (l : Layout) (h1 : startsFirm l.1 = true)
    (hk : ∀ seg ∈ l.2, seg.1 ∈ liveKeywords)
    (he : endsSolid (textBy (padSep []) l) = true) :
    trimSpace (textBy (mixSep keywords) l) = textBy (padSep [' ']) l := by
  have hkne : ∀ seg ∈ l.2, seg.1 ≠ [] := fun s hs => liveKeywords_ne_nil _ (hk s hs)
  have hs := startsFirm_textBy [' '] l h1 hk
  have he2 := endsSolid_textBy (padSep []) (padSep [' ']) l hkne he
  obtain ⟨p, ps⟩ := l
  by_cases hp : p = []
  · subst hp
    cases ps with
    | nil => rfl
    | cons seg rest =>
      obtain ⟨k, y⟩ := seg
      have hk1 := liveKeywords_sub (hk (k, y) (List.mem_cons_self _ _))
      have e1 : textBy (mixSep keywords) ([], (k, y) :: rest) =
          brk ++ textBy (padSep [' ']) ([], (k, y) :: rest) := by
        simp [textBy, tailBy, mixSep, padSep, hk1,
          tailBy_mixSep_keywords rest (fun s hs => hk s (List.mem_cons_of_mem _ hs))]
      rw [e1]
      exact trimSpace_brk _ hs he2
  · have e1 : textBy (mixSep keywords) (p, ps) = textBy (padSep [' ']) (p, ps) := by
      simp [textBy, hp, tailBy_mixSep_keywords ps hk]
    rw [e1]
    exact trimSpace_of_firm hs he2

theorem ensureSemicolon_of_suffix {t : Str} (h : hasSuffix t [';'] = true) :
    ensureSemicolon t = t := by
  simp [ensureSemicolon, h]

/-- A text laid out as `formatSQL` lays a statement out is returned as it
is. -/
theorem formatSQL_textBy (l : Layout) (hc : Calm l) (hn : Neat l)
    (hsemi : hasSuffix (textBy (padSep []) l) [';'] = true) :
    formatSQL (textBy (padSep []) l) = textBy (padSep []) l := by
  have hk : ∀ seg ∈ l.2, seg.1 ∈ liveKeywords := fun s hs => (hc.2 s hs).1
  have hne : textBy (padSep []) l ≠ [] := by
    intro e
    rw [e] at hsemi
    simp [hasSuffix] at hsemi
  have he := endsSolid_of_semicolon hsemi
  have hs := startsFirm_textBy [] l hn.2.2.1 hk
  unfold formatSQL
  rw [if_neg hne, trimSpace_of_firm hs he, collapseWs_textBy l hn hk, breakKeywords_textBy l hc,
    trimSpace_textBy_mix l hn.2.2.1 hk he,
    collapseBlank_textBy [' '] (by decide) l hn.1 (fun s hs => ⟨hk s hs, (hn.2.2.2 s hs).1⟩),
    trimLines_textBy_space l hn hk, ensureSemicolon_of_suffix hsemi]

/-! ### The first run of `formatSQL` -/

theorem isSpace_of_isReSpace {c : Char} (h : isReSpace c = true) : isSpace c = true := by
  simp only [isReSpace, Bool.or_eq_true, decide_eq_true_eq] at h
  rcases h with (((h | h) | h) | h) | h <;> (rw [h]; decide)

theorem endsFirm_of_endsSolid {t : Str} (h : endsSolid t = true) : endsFirm t = true := by
  rcases List.eq_nil_or_concat t with rfl | ⟨a, c, rfl⟩
  · rfl
  · have hc : isSpace c = false := by simpa [endsSolid] using h
    have hr : isReSpace c = false := by
      by_contra hcon
      have := isSpace_of_isReSpace (by simpa using hcon : isReSpace c = true)
      rw [hc] at this
      exact absurd this (by decide)
    simp [endsFirm, hr]

theorem endsSolid_of_trimRightSpace_eq {t : Str} (h : trimRightSpace t = t) :
    endsSolid t = true := by
  rcases List.eq_nil_or_concat t with rfl | ⟨a, c, rfl⟩
  · rfl
  · rw [List.concat_eq_append] at h ⊢
    by_contra hcon
    have hc : isSpace c = true := by simpa [endsSolid] using hcon
    have h1 : trimRightSpace (a ++ [c]) = trimRightSpace a :=
      trimRightSpace_append_of_nil a [c] (by simp [trimRightSpace, hc])
    have h2 : (trimRightSpace a).length ≤ a.length :=
      (List.rdropWhile_prefix isSpace a).length_le
    rw [← h1, h] at h2
    simp at h2

theorem trimSpace_firm (s : Str) :
    startsFirm (trimSpace s) = true ∧ endsSolid (trimSpace s) = true := by
  obtain ⟨h1, h2⟩ := (trimSpace_eq_self_iff (trimSpace s)).mp (trimSpace_idem s)
  refine ⟨?_, endsSolid_of_trimRightSpace_eq h2⟩
  cases hts : trimSpace s with
  | nil => rfl
  | cons c t =>
    rw [hts] at h1
    have := isSpace_head_of_trimLeftSpace_eq c t h1
    simp [startsFirm, this]

theorem collapseWsAux_getLast (t : Str) (ht : t ≠ []) (he : endsFirm t = true) :
    ∀ r : Bool, (collapseWsAux r t).getLast? = t.getLast? := by
  induction t with
  | nil => exact absurd rfl ht
  | cons c t ih =>
    intro r
    cases t with
    | nil =>
      have hc : isReSpace c = false := by simpa [endsFirm] using he
      simp [collapseWsAux, hc]
    | cons d t =>
      have he' : endsFirm (d :: t) = true := by simpa [endsFirm] using he
      have h1 := ih (List.cons_ne_nil d t) he'
      have hne : ∀ r, collapseWsAux r (d :: t) ≠ [] := by
        intro r e
        have := (h1 r).symm
        rw [e] at this
        simp at this
      rw [collapseWsAux_cons]
      have hl : (c :: d :: t).getLast? = (d :: t).getLast? := by simp [List.getLast?_cons_cons]
      have key : ∀ (z : Char) (r : Bool),
          (z :: collapseWsAux r (d :: t)).getLast? = (d :: t).getLast? := by
        intro z r
        rw [← h1 r]
        cases hcw : collapseWsAux r (d :: t) with
        | nil => exact absurd hcw (hne r)
        | cons e es => simp [List.getLast?_cons_cons]
      rw [hl]
      by_cases hc : isReSpace c = true
      · cases r
        · simp only [hc, if_true, Bool.false_eq_true, if_false]
          exact key _ _
        · simp only [hc, if_true]
          exact h1 true
      · simp only [hc, Bool.false_eq_true, if_false]
        exact key _ _

theorem collapseWs_firm (t : Str) (h1 : startsFirm t = true) (h2 : endsSolid t = true)
    (ht : t ≠ []) :
    collapseWs t ≠ [] ∧ startsFirm (collapseWs t) = true ∧ endsSolid (collapseWs t) = true := by
  have hl := collapseWsAux_getLast t ht (endsFirm_of_endsSolid h2) false
  have he : endsSolid (collapseWs t) = true := by
    unfold endsSolid collapseWs
    rw [hl]
    exact h2
  cases t with
  | nil => exact absurd rfl ht
  | cons c t =>
    have hc : isSpace c = false := by simpa [startsFirm] using h1
    have hr : isReSpace c = false := by
      by_contra hcon
      have := isSpace_of_isReSpace (by simpa using hcon : isReSpace c = true)
      rw [hc] at this
      exact absurd this (by decide)
    have e : collapseWs (c :: t) = c :: collapseWsAux false t := by
      simp [collapseWs, collapseWsAux, hr]
    refine ⟨by rw [e]; exact List.cons_ne_nil _ _, ?_, he⟩
    rw [e]
    simpa [startsFirm] using hc

theorem replaceKwAux_ne_nil (kw : Str) (prev : Option Char) (t : Str) (ht : t ≠ []) :
    replaceKwAux kw 0 prev t ≠ [] := by
  cases t with
  | nil => exact absurd rfl ht
  | cons c t =>
    unfold replaceKwAux
    split <;> simp [breakBefore]

theorem endsSolid_tail {c : Char} {t : Str} (h : endsSolid (c :: t) = true) :
    endsSolid t = true := by
  cases t with
  | nil => rfl
  | cons d t => simpa [endsSolid, List.getLast?_cons_cons] using h

theorem replaceKwAux_endsSolid (kw : Str) (hkw : endsSolid kw = true) (hne : kw ≠ []) (t : Str) :
    endsSolid t = true → ∀ (n : Nat) (prev : Option Char),
      endsSolid (replaceKwAux kw n prev t) = true := by
  induction t with
  | nil => intro _ n prev; cases n <;> rfl
  | cons c t ih =>
    intro h n prev
    have ih' := ih (endsSolid_tail h)
    cases n with
    | succ n => exact ih' n (some c)
    | zero =>
      unfold replaceKwAux
      split
      · apply endsSolid_append (ih' _ _)
        intro _
        exact endsSolid_append hkw (fun e => absurd e hne) (a := [ '\n', ' ', ' ', ' ', ' '])
      · have e : c :: replaceKwAux kw 0 (some c) t = [c] ++ replaceKwAux kw 0 (some c) t := rfl
        rw [e]
        apply endsSolid_append (ih' _ _)
        intro hnil
        cases t with
        | nil => exact h
        | cons d t => exact absurd hnil (replaceKwAux_ne_nil kw _ _ (List.cons_ne_nil _ _))

theorem keywords_endsSolid : ∀ K ∈ keywords, endsSolid K = true ∧ K ≠ [] := by decide

theorem foldl_replaceKw_endsSolid (kws : List Str)
    (hk : ∀ K ∈ kws, endsSolid K = true ∧ K ≠ []) (t : Str) (h : endsSolid t = true) :
    endsSolid (kws.foldl (fun acc kw => replaceKw kw acc) t) = true := by
  induction kws generalizing t with
  | nil => exact h
  | cons K kws ih =>
    rw [List.foldl_cons]
    apply ih (fun K hK => hk K (List.mem_cons_of_mem _ hK))
    exact replaceKwAux_endsSolid K (hk K (List.mem_cons_self _ _)).1
      (hk K (List.mem_cons_self _ _)).2 t h 0 none

theorem breakKeywords_endsSolid (t : Str) (h : endsSolid t = true) :
    endsSolid (breakKeywords t) = true :=
  foldl_replaceKw_endsSolid keywords keywords_endsSolid t h

theorem brkTail_eq_tailBy (ps : List (Str × Str)) : brkTail ps = tailBy (padSep []) false ps := by
  induction ps with
  | nil => rfl
  | cons seg rest ih =>
    obtain ⟨k, y⟩ := seg
    simp [brkTail, tailBy, padSep, ih]

theorem startsFirm_of_isPrefix {p x : Str} (h : p <+: x) (hx : startsFirm x = true) :
    startsFirm p = true := by
  obtain ⟨r, rfl⟩ := h
  cases p with
  | nil => rfl
  | cons c p => exact hx

theorem trimSpace_render (l : Layout) (h1 : startsFirm l.1 = true)
    (hk : ∀ seg ∈ l.2, seg.1 ∈ liveKeywords) (he : endsSolid (render l) = true) :
    trimSpace (render l) = textBy (padSep []) l := by
  have hs := startsFirm_textBy [] l h1 hk
  obtain ⟨p, ps⟩ := l
  by_cases hp : p = []
  · subst hp
    cases ps with
    | nil => rfl
    | cons seg rest =>
      obtain ⟨k, y⟩ := seg
      have hk1 := liveKeywords_ne_nil k (hk (k, y) (List.mem_cons_self _ _))
      have e1 : render ([], (k, y) :: rest) = brk ++ textBy (padSep []) ([], (k, y) :: rest) := by
        simp [render, brkTail, textBy, tailBy, padSep, brkTail_eq_tailBy]
      have hne : textBy (padSep []) ([], (k, y) :: rest) ≠ [] := by
        simp [textBy, tailBy, padSep, hk1]
      rw [e1] at he ⊢
      exact trimSpace_brk _ hs (endsSolid_of_append he hne)
  · have e1 : render (p, ps) = textBy (padSep []) (p, ps) := by
      simp [render, textBy, hp, brkTail_eq_tailBy]
    rw [e1] at he ⊢
    exact trimSpace_of_firm hs he

/-! ### The layout of a formatted statement -/

theorem trimRightBlank_split (t : Str) :
    ∃ n : Nat, t = trimRightBlank t ++ List.replicate n ' ' := by
  induction t using List.reverseRecOn with
  | nil => exact ⟨0, rfl⟩
  | append_singleton a c ih =>
    obtain ⟨n, hn⟩ := ih
    by_cases hc : c = ' '
    · subst hc
      refine ⟨n + 1, ?_⟩
      rw [trimRightBlank_concat_space, List.replicate_succ', ← List.append_assoc, ← hn]
    · refine ⟨0, ?_⟩
      rw [trimRightBlank_of_last _ (by simpa using hc)]
      simp

theorem wb_head_replicate_space (n : Nat) : wb (List.replicate n ' ').head? = false := by
  cases n <;> rfl

theorem noHits_append_left (kw : Str) (prev : Option Char) (a b : Str)
    (h : noHits kw prev (a ++ b) = true) (hb : wb b.head? = false) :
    noHits kw prev a = true := by
  unfold noHits at h
  rw [noHitsIn_append, Bool.and_eq_true] at h
  rw [List.append_nil] at h
  exact noHits_of_noHitsIn kw prev a b h.1 (fun _ => hb)

theorem quiet_trimRightBlank (kws : List Str) (prev : Option Char) (t : Str)
    (h : quiet kws prev t = true) : quiet kws prev (trimRightBlank t) = true := by
  obtain ⟨n, hn⟩ := trimRightBlank_split t
  unfold quiet at *
  rw [List.all_eq_true] at *
  intro K hK
  have := h K hK
  rw [hn] at this
  exact noHits_append_left K prev _ _ this (wb_head_replicate_space n)

theorem calm_trimBodies (l : Layout) (h : Calm l) : Calm (trimBodies l) := by
  refine ⟨quiet_trimRightBlank _ _ _ h.1, ?_⟩
  intro seg hs
  simp only [trimBodies, List.mem_map] at hs
  obtain ⟨s0, hs0, rfl⟩ := hs
  obtain ⟨h1, h2, h3⟩ := h.2 s0 hs0
  exact ⟨h1, wb_head_of_isPrefix (trimRightBlank_isPrefix _) h2, quiet_trimRightBlank _ _ _ h3⟩

theorem neat_trimBodies (l : Layout) (h1 : spaced l.1 = true) (h0 : startsFirm l.1 = true)
    (h2 : ∀ seg ∈ l.2, spaced seg.2 = true) : Neat (trimBodies l) := by
  refine ⟨spaced_trimRightBlank h1, endsFirm_trimRightBlank h1,
    (startsFirm_trimRightBlank h0).1, ?_⟩
  intro seg hs
  simp only [trimBodies, List.mem_map] at hs
  obtain ⟨s0, hs0, rfl⟩ := hs
  exact ⟨spaced_trimRightBlank (h2 s0 hs0), endsFirm_trimRightBlank (h2 s0 hs0)⟩

theorem noHits_concat_semicolon {K : Str} (hK : isPlain K = true) (prev : Option Char) (t : Str)
    (h : noHits K prev t = true) : noHits K prev (t ++ [';']) = true := by
  have hp := hK
  simp only [isPlain, Bool.and_eq_true] at hp
  have hcf : crossFree K [';'] = true := by
    have := crossFree_of_crossOK K [';'] [] hp.2 wb_none
    simpa using this
  have h1 := noHitsIn_of_noHits K prev t [';'] h hcf (by decide)
  have h2 : noHitsIn K (lastOr prev t) [';'] [] = true := by
    have := kwMatchAt_of_headMiss hp.1.1.1.2 (isPlain_ne_nil hK) (lastOr prev t) []
    simp [noHitsIn, this]
  unfold noHits
  rw [noHitsIn_append, List.append_nil, h1, h2]
  rfl

theorem quiet_concat_semicolon (prev : Option Char) (t : Str)
    (h : quiet keywords prev t = true) : quiet keywords prev (t ++ [';']) = true := by
  unfold quiet at *
  rw [List.all_eq_true] at *
  intro K hK
  exact noHits_concat_semicolon (keywords_plain K hK) prev t (h K hK)

theorem mem_addEndSegs {c : Char} {ps : List (Str × Str)} {seg : Str × Str}
    (h : seg ∈ addEndSegs c ps) :
    ∃ s0 ∈ ps, seg.1 = s0.1 ∧ (seg.2 = s0.2 ∨ seg.2 = s0.2 ++ [c]) := by
  induction ps with
  | nil => simp [addEndSegs] at h
  | cons s rest ih =>
    unfold addEndSegs at h
    split at h
    · rw [List.mem_singleton] at h
      exact ⟨s, List.mem_cons_self _ _, by rw [h], Or.inr (by rw [h])⟩
    · rcases List.mem_cons.mp h with e | e
      · exact ⟨s, List.mem_cons_self _ _, by rw [e], Or.inl (by rw [e])⟩
      · obtain ⟨s0, hs0, h1, h2⟩ := ih e
        exact ⟨s0, List.mem_cons_of_mem _ hs0, h1, h2⟩

theorem wb_head_concat_semicolon {y : Str} (h : wb y.head? = false) :
    wb (y ++ [';']).head? = false := by
  cases y with
  | nil => decide
  | cons c y => exact h

theorem calm_addEnd (l : Layout) (h : Calm l) : Calm (addEnd ';' l) := by
  obtain ⟨p, ps⟩ := l
  unfold addEnd
  by_cases hps : ps = []
  · subst hps
    refine ⟨quiet_concat_semicolon _ _ h.1, ?_⟩
    intro seg hs
    simp at hs
  · simp only [hps, if_false]
    refine ⟨h.1, ?_⟩
    intro seg hs
    obtain ⟨s0, hs0, e1, e2⟩ := mem_addEndSegs hs
    obtain ⟨h1, h2, h3⟩ := h.2 s0 hs0
    rw [e1]
    rcases e2 with e2 | e2
    · rw [e2]; exact ⟨h1, h2, h3⟩
    · rw [e2]; exact ⟨h1, wb_head_concat_semicolon h2, quiet_concat_semicolon _ _ h3⟩

theorem spaced_concat_semicolon {y : Str} (h1 : spaced y = true) (h2 : endsFirm y = true) :
    spaced (y ++ [';']) = true ∧ endsFirm (y ++ [';']) = true :=
  ⟨spaced_append h1 h2 (by decide), endsFirm_append (by decide) (fun h => by simp at h)⟩

theorem neat_addEnd (l : Layout) (h : Neat l) : Neat (addEnd ';' l) := by
  obtain ⟨p, ps⟩ := l
  obtain ⟨h1, h2, h3, h4⟩ := h
  unfold addEnd
  by_cases hps : ps = []
  · subst hps
    refine ⟨(spaced_concat_semicolon h1 h2).1, (spaced_concat_semicolon h1 h2).2, ?_, ?_⟩
    · cases p with
      | nil => decide
      | cons c p => exact h3
    · intro seg hs
      simp at hs
  · simp only [hps, if_false]
    refine ⟨h1, h2, h3, ?_⟩
    intro seg hs
    obtain ⟨s0, hs0, _, e2⟩ := mem_addEndSegs hs
    rcases e2 with e2 | e2
    · rw [e2]; exact h4 s0 hs0
    · rw [e2]; exact spaced_concat_semicolon (h4 s0 hs0).1 (h4 s0 hs0).2

theorem ensureSemicolon_textBy (l : Layout) (hc : Calm l) (hn : Neat l) :
    ∃ l2 : Layout, ensureSemicolon (textBy (padSep []) l) = textBy (padSep []) l2 ∧
      Calm l2 ∧ Neat l2 ∧ hasSuffix (textBy (padSep []) l2) [';'] = true := by
  by_cases h : hasSuffix (textBy (padSep []) l) [';'] = true
  · exact ⟨l, ensureSemicolon_of_suffix h, hc, hn, h⟩
  · refine ⟨addEnd ';' l, ?_, calm_addEnd l hc, neat_addEnd l hn, ?_⟩
    · rw [textBy_addEnd]
      simp [ensureSemicolon, h]
    · rw [textBy_addEnd, hasSuffix_singleton]
      simp

theorem calm_of_settled {x : Str} {l : Layout} (h : Settled keywords x l) : Calm l :=
  ⟨h.1, fun seg hs => ⟨(h.2.2 seg hs).2.1, (h.2.2 seg hs).2.2.1, (h.2.2 seg hs).2.2.2.1⟩⟩

/-- The result of `formatSQL` on a non-empty text is a laid-out statement:
single-spaced pieces, one keyword after each line break, no keyword left
unbroken inside a piece, and a closing semicolon. -/
theorem formatSQL_layout (s : Str) (hs : s ≠ []) :
    ∃ l : Layout, formatSQL s = textBy (padSep []) l ∧ Calm l ∧ Neat l ∧
      hasSuffix (textBy (padSep []) l) [';'] = true := by
  by_cases ht : trimSpace s = []
  · refine ⟨([';'], []), ?_, ⟨by decide, fun seg h => by simp at h⟩,
      ⟨by decide, by decide, by decide, fun seg h => by simp at h⟩, by decide⟩
    unfold formatSQL
    rw [if_neg hs, ht]
    decide
  · obtain ⟨hf1, hf2⟩ := trimSpace_firm s
    obtain ⟨-, hx1, hx2⟩ := collapseWs_firm (trimSpace s) hf1 hf2 ht
    have hxs : spaced (collapseWs (trimSpace s)) = true := spaced_collapseWsAux false _
    obtain ⟨l, hl, hset⟩ := breakKeywords_settled (collapseWs (trimSpace s))
    have hcalm := calm_of_settled hset
    have hk : ∀ seg ∈ l.2, seg.1 ∈ liveKeywords := fun seg h => (hcalm.2 seg h).1
    have hp1 : startsFirm l.1 = true := startsFirm_of_isPrefix hset.2.1 hx1
    have hps : spaced l.1 = true := spaced_of_isInfix hset.2.1.isInfix hxs
    have hys : ∀ seg ∈ l.2, spaced seg.2 = true := fun seg h =>
      spaced_of_isInfix (hset.2.2 seg h).2.2.2.2 hxs
    have he : endsSolid (render l) = true := by
      rw [← hl]
      exact breakKeywords_endsSolid _ hx2
    obtain ⟨l2, e2, hc2, hn2, hsemi⟩ := ensureSemicolon_textBy (trimBodies l)
      (calm_trimBodies l hcalm) (neat_trimBodies l hps hp1 hys)
    refine ⟨l2, ?_, hc2, hn2, hsemi⟩
    unfold formatSQL
    rw [if_neg hs, hl, trimSpace_render l hp1 hk he,
      collapseBlank_textBy [] (by simp) l hps (fun seg h => ⟨hk seg h, hys seg h⟩),
      trimLines_textBy l hps hp1 (fun seg h => ⟨hk seg h, hys seg h⟩), e2]

/-! ## C6: `formatSQL` applied twice -/

/-- C6 (amended to non-empty input): for every non-empty string `s`,
white-space-only strings included, `formatSQL (formatSQL s) = formatSQL s`:
the second run adds no semicolon and moves no line break. -/
theorem formatSQL_idempotent (s : Str) (hs : s ≠ []) :
    formatSQL (formatSQL s) = formatSQL s := by
  obtain ⟨l, e, hc, hn, hsemi⟩ := formatSQL_layout s hs
  rw [e]
  exact formatSQL_textBy l hc hn hsemi

/-- C6, instance: a statement with four keywords in mixed case and irregular
white space, and a white-space-only text. -/
theorem formatSQL_idempotent_witness :
    ("alter  VIEW v\tAS SELECT a From t ".toList ≠ [] ∧
      formatSQL "alter  VIEW v\tAS SELECT a From t ".toList =
        "ALTER\n    VIEW v\n    AS select a\n    from t;".toList ∧
      formatSQL (formatSQL "alter  VIEW v\tAS SELECT a From t ".toList) =
        formatSQL "alter  VIEW v\tAS SELECT a From t ".toList) ∧
    (" \n ".toList ≠ [] ∧ formatSQL " \n ".toList = ";".toList ∧
      formatSQL (formatSQL " \n ".toList) = formatSQL " \n ".toList) :=
  ⟨⟨by decide, by decide, formatSQL_idempotent _ (by decide)⟩,
    ⟨by decide, by decide, formatSQL_idempotent _ (by decide)⟩⟩

/-- C6, counterexample to the claim as stated: on the empty string `formatSQL`
returns the error comment without a semicolon, and the second run appends
one. -/
theorem formatSQL_idempotent_counterexample :
    formatSQL [] = "-- ERROR: No SQL content found".toList ∧
    formatSQL (formatSQL []) = "-- ERROR: No SQL content found;".toList ∧
    formatSQL (formatSQL []) ≠ formatSQL [] := by
  decide

/-! ## C11: the rollback of a statement that targets `TEMPTABLE` -/

/-- C11, at the failing input: for the record captured from the statement
composed with the target `TEMPTABLE`, the rollback script keeps
`ALGORITHM = TEMPTABLE` and holds no `ALGORITHM = UNDEFINED`, under a header
that announces the change back to `UNDEFINED`; for the targets `MERGE` and
`UNDEFINED` the script holds `ALGORITHM = UNDEFINED`. -/
theorem formatUFile_temptable :
    (parseViewsFile (alterTranscript "TEMPTABLE".toList) = ([capturedView "TEMPTABLE".toList], none) ∧
      formatUFile (capturedView "TEMPTABLE".toList) =
        ("-- Flyway Undo Script (Rollback)\n-- Database: sales\n-- View: x\n" ++
         "-- Changes ALGORITHM back to UNDEFINED using CREATE OR REPLACE\n\n" ++
         "CREATE OR REPLACE\n    ALGORITHM = TEMPTABLE\n    DEFINER=`a`@`%`\n" ++
         "    SQL SECURITY\n    DEFINER\n    VIEW `sales`.`x`\n    AS select 1;\n").toList ∧
      "ALGORITHM = TEMPTABLE".toList <:+: formatUFile (capturedView "TEMPTABLE".toList) ∧
      ¬ "ALGORITHM = UNDEFINED".toList <:+: formatUFile (capturedView "TEMPTABLE".toList)) ∧
    (parseViewsFile (alterTranscript "MERGE".toList) = ([capturedView "MERGE".toList], none) ∧
      "ALGORITHM = UNDEFINED".toList <:+: formatUFile (capturedView "MERGE".toList) ∧
      ¬ "ALGORITHM = MERGE".toList <:+: formatUFile (capturedView "MERGE".toList)) ∧
    (parseViewsFile (alterTranscript "UNDEFINED".toList) = ([capturedView "UNDEFINED".toList], none) ∧
      "ALGORITHM = UNDEFINED".toList <:+: formatUFile (capturedView "UNDEFINED".toList)) := by
  refine ⟨⟨by decide, by decide, by decide, by decide⟩, ⟨by decide, by decide, by decide⟩,
    ⟨by decide, by decide⟩⟩

/-! ## C12: the artifacts of a record without a captured statement -/

theorem splitOn_line (a b : Str) (ha : '\n' ∉ a) :
    splitOn '\n' (a ++ '\n' :: b) = a :: splitOn '\n' b := by
  unfold splitOn
  rw [splitAux_append_sep '\n' a b [] ha]
  rfl

theorem splitOn_last (a : Str) (ha : '\n' ∉ a) : splitOn '\n' a = [a] := by
  unfold splitOn
  rw [splitAux_of_not_mem '\n' a [] ha]
  rfl

theorem rollbackSQL_of_empty (view : ViewInfo) (h : view.AlterSQL = []) : rollbackSQL view = [] := by
  simp [rollbackSQL, h, replaceFirst]

theorem allComment_line (a rest : Str) (ha : '\n' ∉ a)
    (hp : a ≠ [] → hasPrefix a "--".toList = true) (hr : AllComment rest) :
    AllComment (a ++ '\n' :: rest) := by
  intro line hl hne
  rw [splitOn_line a rest ha] at hl
  rcases List.mem_cons.mp hl with e | e
  · rw [e]; exact hp (e ▸ hne)
  · exact hr line e hne

theorem hasPrefix_append (p t : Str) : hasPrefix (p ++ t) p = true := by
  simp [hasPrefix]

theorem allComment_script (title D N extra : Str) (ht : '\n' ∉ title) (hD : '\n' ∉ D)
    (hN : '\n' ∉ N) (he : AllComment extra) :
    AllComment (("--".toList ++ title) ++ '\n' :: (("--".toList ++ (" Database: ".toList ++ D)) ++
      '\n' :: (("--".toList ++ (" View: ".toList ++ N)) ++ '\n' :: extra))) := by
  have h1 : '\n' ∉ "--".toList ++ title := by
    simp only [List.mem_append, not_or]; exact ⟨by decide, ht⟩
  have h2 : '\n' ∉ "--".toList ++ (" Database: ".toList ++ D) := by
    simp only [List.mem_append, not_or]; exact ⟨by decide, by decide, hD⟩
  have h3 : '\n' ∉ "--".toList ++ (" View: ".toList ++ N) := by
    simp only [List.mem_append, not_or]; exact ⟨by decide, by decide, hN⟩
  exact allComment_line _ _ h1 (fun _ => hasPrefix_append _ _)
    (allComment_line _ _ h2 (fun _ => hasPrefix_append _ _)
      (allComment_line _ _ h3 (fun _ => hasPrefix_append _ _) he))

theorem formatVFile_of_empty (view : ViewInfo) (h : view.AlterSQL = []) :
    formatVFile view = migrationHeader view ++ placeholder ++ ['\n'] := by
  simp [formatVFile, migrationHeader, placeholder, h, formatSQL]

theorem formatUFile_of_empty (view : ViewInfo) (h : view.AlterSQL = []) :
    formatUFile view = undoHeader view ++ placeholder ++ ['\n'] := by
  simp [formatUFile, undoHeader, placeholder, rollbackSQL_of_empty view h, formatSQL]

/-- The line property of the two artifacts of a record without a captured
statement. -/
theorem allComment_of_empty (view : ViewInfo) (h : view.AlterSQL = [])
    (hD : '\n' ∉ view.Database) (hN : '\n' ∉ view.ViewName) :
    AllComment (formatVFile view) ∧ AllComment (formatUFile view) := by
  have hend : AllComment ('\n' :: (placeholder ++ ['\n'])) := by
    have : AllComment ([] ++ '\n' :: (placeholder ++ '\n' :: [])) :=
      allComment_line [] _ (by simp) (fun h => absurd rfl h)
        (allComment_line placeholder [] (by decide) (fun _ => by decide) (by decide))
    simpa using this
  constructor
  · have := allComment_script " Flyway Migration Script".toList view.Database view.ViewName _
      (by decide) hD hN hend
    rw [formatVFile_of_empty view h]
    simpa [migrationHeader] using this
  · have hend2 : AllComment (("--".toList ++
        " Changes ALGORITHM back to UNDEFINED using CREATE OR REPLACE".toList) ++
        '\n' :: ('\n' :: (placeholder ++ ['\n']))) :=
      allComment_line _ _ (by decide) (fun _ => by decide) hend
    have := allComment_script " Flyway Undo Script (Rollback)".toList view.Database view.ViewName _
      (by decide) hD hN hend2
    rw [formatUFile_of_empty view h]
    simpa [undoHeader] using this

/-! ## The names of the records of a transcript hold no line break -/

theorem mem_of_mem_trimPrefix {c : Char} {s p : Str} (h : c ∈ trimPrefix s p) : c ∈ s := by
  unfold trimPrefix at h
  split at h
  · exact List.mem_of_mem_drop h
  · exact h

theorem mem_of_mem_splitAux (sep : Char) (s : Str) :
    ∀ (cur part : Str), part ∈ splitAux sep s cur → ∀ c ∈ part, c ∈ cur ∨ c ∈ s := by
  induction s with
  | nil =>
    intro cur part hp c hc
    simp only [splitAux, List.mem_singleton] at hp
    rw [hp] at hc
    exact Or.inl (List.mem_reverse.mp hc)
  | cons d s ih =>
    intro cur part hp c hc
    unfold splitAux at hp
    split at hp
    · rcases List.mem_cons.mp hp with e | e
      · rw [e] at hc
        exact Or.inl (List.mem_reverse.mp hc)
      · rcases ih [] part e c hc with h | h
        · simp at h
        · exact Or.inr (List.mem_cons_of_mem _ h)
    · rcases ih (d :: cur) part hp c hc with h | h
      · rcases List.mem_cons.mp h with e | e
        · exact Or.inr (by rw [e]; exact List.mem_cons_self _ _)
        · exact Or.inl e
      · exact Or.inr (List.mem_cons_of_mem _ h)

theorem mem_of_mem_splitOn {sep : Char} {s part : Str} (hp : part ∈ splitOn sep s) {c : Char}
    (hc : c ∈ part) : c ∈ s := by
  rcases mem_of_mem_splitAux sep s [] part hp c hc with h | h
  · simp at h
  · exact h

theorem announcedName_mem {raw : Str} {c : Char} (hc : c ∈ announcedName raw) : c ∈ raw :=
  mem_of_mem_trimSpace (mem_of_mem_trimPrefix (mem_of_mem_trimSpace hc))

/-- The database a line leaves as the current one is the one before it, or a
piece of the line. -/
theorem parseStep_currentDatabase (st : ParseState) (raw : Str) :
    (parseStep st raw).currentDatabase = st.currentDatabase ∨
      ∀ c ∈ (parseStep st raw).currentDatabase, c ∈ raw := by
  unfold parseStep
  by_cases h1 : hasPrefix (trimSpace raw) "Source server:".toList = true
  · simp only [h1, if_true]
    rcases hsplit : splitOn ',' (trimSpace raw) with _ | ⟨p0, _ | ⟨p1, ps⟩⟩
    · exact Or.inl rfl
    · exact Or.inl rfl
    · right
      intro c hc
      have hp1 : p1 ∈ splitOn ',' (trimSpace raw) := by rw [hsplit]; simp
      exact mem_of_mem_trimSpace
        (mem_of_mem_splitOn hp1 (mem_of_mem_trimSpace (mem_of_mem_trimPrefix hc)))
  · simp only [h1, Bool.false_eq_true, if_false]
    repeat' split
    all_goals exact Or.inl rfl

theorem noBreak_saveView (st : ParseState) (h : NoBreak st) :
    ∀ v ∈ saveView st, '\n' ∉ v.Database ∧ '\n' ∉ v.ViewName := by
  intro v hv
  unfold saveView at hv
  split at hv
  · rcases List.mem_append.mp hv with e | e
    · exact h.2.2 v e
    · simp only [List.mem_singleton] at e
      rw [e]
      exact h.2.1
  · exact h.2.2 v hv

theorem noBreak_parseStep (st : ParseState) (raw : Str) (hraw : '\n' ∉ raw) (h : NoBreak st) :
    NoBreak (parseStep st raw) := by
  have hdb : '\n' ∉ (parseStep st raw).currentDatabase := by
    rcases parseStep_currentDatabase st raw with e | e
    · rw [e]; exact h.1
    · exact fun hc => hraw (e _ hc)
  refine ⟨hdb, ?_⟩
  cases ha : isAnnouncement raw with
  | false =>
    obtain ⟨hv, hc⟩ := parseStep_views_of_not_announcement st raw ha
    rw [hv, hc]
    exact h.2
  | true =>
    rw [parseStep_of_announcement st raw ha]
    exact ⟨⟨h.1, fun hc => hraw (announcedName_mem hc)⟩, noBreak_saveView st h⟩

theorem noBreak_foldl (lines : List Str) (hl : ∀ l ∈ lines, '\n' ∉ l) :
    ∀ st : ParseState, NoBreak st → NoBreak (lines.foldl parseStep st) := by
  induction lines with
  | nil => intro st h; exact h
  | cons raw rest ih =>
    intro st h
    rw [List.foldl_cons]
    exact ih (fun l hm => hl l (List.mem_cons_of_mem _ hm)) _
      (noBreak_parseStep st raw (hl raw (List.mem_cons_self _ _)) h)

/-- The records of a file have a database and a name without a line break:
a line of the file holds none. -/
theorem parseViewsFile_no_newline (lines : List Str) (hl : ∀ l ∈ lines, '\n' ∉ l)
    (v : ViewInfo) (hv : v ∈ (parseViewsFile lines).1) :
    '\n' ∉ v.Database ∧ '\n' ∉ v.ViewName := by
  rw [parseViewsFile_eq] at hv
  have h0 : NoBreak ParseState.init := by
    refine ⟨by simp [ParseState.init], by simp [ParseState.init], ?_⟩
    intro v hv
    simp [ParseState.init] at hv
  have hsub : ∀ l ∈ lines.takeWhile scannable, '\n' ∉ l := fun l hm =>
    hl l ((List.takeWhile_sublist scannable).subset hm)
  exact noBreak_saveView _ (noBreak_foldl _ hsub _ h0) v hv

/-- C12: for every record of a file without a captured forward statement,
each of the two artifacts is its comment header, naming the database and the
view, followed by the placeholder comment `-- ERROR: No SQL content found`
and a newline; the placeholder holds no semicolon; and every non-empty line
of either artifact starts with `--`. -/
theorem formatFiles_of_empty (lines : List Str) (hl : ∀ l ∈ lines, '\n' ∉ l) (view : ViewInfo)
    (hv : view ∈ (parseViewsFile lines).1) (h : view.AlterSQL = []) :
    formatVFile view = migrationHeader view ++ placeholder ++ ['\n'] ∧
    formatUFile view = undoHeader view ++ placeholder ++ ['\n'] ∧
    ';' ∉ placeholder ∧
    AllComment (formatVFile view) ∧ AllComment (formatUFile view) :=
  ⟨formatVFile_of_empty view h, formatUFile_of_empty view h, by decide,
    allComment_of_empty view h (parseViewsFile_no_newline lines hl view hv).1
      (parseViewsFile_no_newline lines hl view hv).2⟩

/-- C12, witness: the two artifacts of the view `v_sales` of the database
`sales`, read from a transcript with a create section only. -/
theorem formatFiles_of_empty_witness :
    ((∀ l ∈ createTranscript "host1".toList "sales".toList "v_sales".toList
        "--------".toList "--------".toList ["SELECT 1".toList], '\n' ∉ l) ∧
      (⟨"sales".toList, "v_sales".toList, "SELECT 1".toList, [], "host1".toList⟩ : ViewInfo) ∈
        (parseViewsFile (createTranscript "host1".toList "sales".toList "v_sales".toList
          "--------".toList "--------".toList ["SELECT 1".toList])).1) ∧
    formatVFile ⟨"sales".toList, "v_sales".toList, "SELECT 1".toList, [], "host1".toList⟩ =
      ("-- Flyway Migration Script\n-- Database: sales\n-- View: v_sales\n\n" ++
       "-- ERROR: No SQL content found\n").toList ∧
    formatUFile ⟨"sales".toList, "v_sales".toList, "SELECT 1".toList, [], "host1".toList⟩ =
      ("-- Flyway Undo Script (Rollback)\n-- Database: sales\n-- View: v_sales\n" ++
       "-- Changes ALGORITHM back to UNDEFINED using CREATE OR REPLACE\n\n" ++
       "-- ERROR: No SQL content found\n").toList ∧
    AllComment (formatVFile ⟨"sales".toList, "v_sales".toList, "SELECT 1".toList, [],
      "host1".toList⟩) ∧
    AllComment (formatUFile ⟨"sales".toList, "v_sales".toList, "SELECT 1".toList, [],
      "host1".toList⟩) :=
  have h := formatFiles_of_empty
    (createTranscript "host1".toList "sales".toList "v_sales".toList
      "--------".toList "--------".toList ["SELECT 1".toList]) (by decide)
    ⟨"sales".toList, "v_sales".toList, "SELECT 1".toList, [], "host1".toList⟩ (by decide) rfl
  ⟨⟨by decide, by decide⟩, h.1.trans (by decide), h.2.1.trans (by decide), h.2.2.2⟩

/-! ## C13: the parts of a successful decomposition -/

/-- A successful marker scan found all five markers, and its parts are the
slices between them. -/
theorem decompose_ok_markers (d : Str) (p : ParsedDDL) (h : decompose d = .ok p) :
    ∃ i j k l a, FirstAt "DEFINER=".toList d i ∧
      FirstAt " SQL SECURITY".toList (d.drop i) j ∧
      FirstAt "SQL SECURITY".toList d k ∧ FirstAt " VIEW".toList (d.drop k) l ∧
      FirstAt " AS ".toList d a ∧
      p = { definer := (d.drop i).take j, security := (d.drop k).take l,
            viewDefinition := d.drop (a + 4) } := by
  rcases firstAt_or_absent "DEFINER=".toList d with ⟨i, hi⟩ | hi
  swap
  · rw [decompose_panic_of_no_definer d hi] at h
    exact absurd h (by simp)
  rcases firstAt_or_absent " SQL SECURITY".toList (d.drop i) with ⟨j, hj⟩ | hj
  swap
  · rw [decompose_error_of_no_security d i hi hj] at h
    exact absurd h (by simp)
  have hil := firstAt_le_length hi
  have hjl := firstAt_le_length hj
  rw [List.length_drop] at hjl
  have n1 : ∀ n : Nat, ¬ ((n : Int) = -1) := fun n => by omega
  rcases firstAt_or_absent "SQL SECURITY".toList d with ⟨k, hk⟩ | hk
  swap
  · unfold decompose at h
    simp only [index_of_firstAt hi, sliceFrom_natCast d i hil, index_of_firstAt hj,
      slice_natCast d i j (by omega), index_of_absent hk, sliceFrom_neg_one] at h
    simp [n1] at h
  have hkl := firstAt_le_length hk
  rcases firstAt_or_absent " VIEW".toList (d.drop k) with ⟨l, hl⟩ | hl
  swap
  · unfold decompose at h
    simp only [index_of_firstAt hi, sliceFrom_natCast d i hil, index_of_firstAt hj,
      slice_natCast d i j (by omega), index_of_firstAt hk, sliceFrom_natCast d k hkl,
      index_of_absent hl] at h
    simp [n1] at h
  have hll := firstAt_le_length hl
  rw [List.length_drop] at hll
  rcases firstAt_or_absent " AS ".toList d with ⟨a, ha⟩ | ha
  swap
  · exact absurd h ((decompose_of_no_as d ha).1 p)
  refine ⟨i, j, k, l, a, hi, hj, hk, hl, ha, ?_⟩
  rw [decompose_of_markers d i j k l a hi hj hk hl ha] at h
  exact (Outcome.ok.inj h).symm

theorem marker_past_definer (r : Str) (j : Nat)
    (h : " SQL SECURITY".toList <+: ("DEFINER=".toList ++ r).drop j) : 8 ≤ j := by
  by_contra hlt
  have hj : j < 8 := by omega
  interval_cases j <;> simp [List.cons_prefix_cons] at h

theorem marker_past_security (r : Str) (l : Nat)
    (h : " VIEW".toList <+: ("SQL SECURITY".toList ++ r).drop l) : 12 ≤ l := by
  by_contra hlt
  have hj : l < 12 := by omega
  interval_cases l <;> simp [List.cons_prefix_cons] at h

theorem isPrefix_take_of_le {m s : Str} {n : Nat} (h : m <+: s) (hn : m.length ≤ n) :
    m <+: s.take n := by
  obtain ⟨r, rfl⟩ := h
  rw [List.take_append_eq_append_take]
  have : List.take n m = m := List.take_of_length_le hn
  rw [this]
  exact List.prefix_append _ _

/-- C13 (amended: the body may be empty): when the marker scan of
`generateAlterViewStatement` succeeds on `d`, the definer clause and the
security clause are not empty (they start with `DEFINER=` and with
`SQL SECURITY`), and the body is empty exactly when `d` ends with its first
`" AS "` marker. -/
theorem decompose_ok_parts (d : Str) (p : ParsedDDL) (h : decompose d = .ok p) :
    p.definer ≠ [] ∧ p.security ≠ [] ∧ "DEFINER=".toList <+: p.definer ∧
    "SQL SECURITY".toList <+: p.security ∧
    (p.viewDefinition = [] ↔ ∃ a, FirstAt " AS ".toList d a ∧ a + 4 = d.length) := by
  obtain ⟨i, j, k, l, a, hi, hj, hk, hl, ha, rfl⟩ := decompose_ok_markers d p h
  have hj8 : 8 ≤ j := by
    obtain ⟨r, hr⟩ := hi.1
    have := hj.1
    rw [← hr] at this
    exact marker_past_definer r j this
  have hl12 : 12 ≤ l := by
    obtain ⟨r, hr⟩ := hk.1
    have := hl.1
    rw [← hr] at this
    exact marker_past_security r l this
  have hd : "DEFINER=".toList <+: (d.drop i).take j := isPrefix_take_of_le hi.1 hj8
  have hs : "SQL SECURITY".toList <+: (d.drop k).take l := isPrefix_take_of_le hk.1 hl12
  refine ⟨?_, ?_, hd, hs, ?_⟩
  · intro e
    have e2 : (d.drop i).take j = [] := e
    rw [e2] at hd
    simp at hd
  · intro e
    have e2 : (d.drop k).take l = [] := e
    rw [e2] at hs
    simp at hs
  · have hal : a + 4 ≤ d.length := firstAt_add_length_le ha
    show d.drop (a + 4) = [] ↔ _
    rw [List.drop_eq_nil_iff]
    constructor
    · intro hle
      exact ⟨a, ha, by omega⟩
    · rintro ⟨b, hb, hbl⟩
      have : indexOf? " AS ".toList d = some a := indexOf?_of_firstAt ha
      rw [indexOf?_of_firstAt hb] at this
      have : b = a := Option.some.inj this
      omega

/-- C13, instance: the example of the specification. -/
theorem decompose_ok_parts_witness :
    decompose sampleDDL = .ok sampleParsed ∧
    sampleParsed.definer ≠ [] ∧ sampleParsed.security ≠ [] ∧
    "DEFINER=".toList <+: sampleParsed.definer ∧
    "SQL SECURITY".toList <+: sampleParsed.security ∧
    (sampleParsed.viewDefinition = [] ↔
      ∃ a, FirstAt " AS ".toList sampleDDL a ∧ a + 4 = sampleDDL.length) :=
  ⟨by decide, decompose_ok_parts sampleDDL sampleParsed (by decide)⟩

/-- C13, counterexample to the claim as stated: on a statement that ends
with `" AS "` the marker scan succeeds with an empty body. -/
theorem decompose_ok_parts_counterexample :
    decompose "CREATE DEFINER=`a`@`%` SQL SECURITY DEFINER VIEW `x` AS ".toList =
      .ok { definer := "DEFINER=`a`@`%`".toList, security := "SQL SECURITY DEFINER".toList,
            viewDefinition := [] } := by
  decide

/-! ## C14: capture between the delimiters of a section -/

/-- While no delimiter has opened a section since the announcement of the
view, a line of no recognised class leaves the state of the scan as it
is. -/
theorem parseStep_body_unopened (st : ParseState) (raw : Str) (h : isBodyLine raw = true)
    (hc : st.createSeparatorSeen = false) (ha : st.alterSeparatorSeen = false) :
    parseStep st raw = st := by
  rw [parseStep_body st raw h]
  simp [hc, ha]

/-- The section header `Create Statement:` leaves the flag
`createSeparatorSeen` as it is: only an announcement clears it. -/
theorem parseStep_createHeader_seen (st : ParseState) :
    (parseStep st "Create Statement:".toList).createSeparatorSeen = st.createSeparatorSeen := by
  rw [parseStep_createHeader]

/-- C14, at the failing input: a section header that is followed by no
delimiter contributes nothing when it is the first of its kind in the
record, but after a first section that was opened and closed, the line that
follows a second header of the same kind is captured although no delimiter
follows that header; the same holds for the section `ALTER VIEW Statement:`. -/
theorem parseViewsFile_repeated_header :
    parseViewsFile ["Source server: host1, Database: sales".toList, "Processing view: v".toList,
        "Create Statement:".toList, "not captured".toList] =
      ([⟨"sales".toList, "v".toList, [], [], "host1".toList⟩], none) ∧
    parseViewsFile ["Source server: host1, Database: sales".toList, "Processing view: v".toList,
        "Create Statement:".toList, ruleLine, "SELECT 1".toList, ruleLine,
        "Create Statement:".toList, "captured".toList] =
      ([⟨"sales".toList, "v".toList, "SELECT 1\ncaptured".toList, [], "host1".toList⟩], none) ∧
    parseViewsFile ["Source server: host1, Database: sales".toList, "Processing view: v".toList,
        "ALTER VIEW Statement:".toList, ruleLine, "ALTER VIEW v AS SELECT 1;".toList, ruleLine,
        "ALTER VIEW Statement:".toList, "captured".toList] =
      ([⟨"sales".toList, "v".toList, [], "ALTER VIEW v AS SELECT 1;\ncaptured".toList,
        "host1".toList⟩], none) := by
  refine ⟨by decide, by decide, by decide⟩

/-! ## C16: the order of the records and the server they inherit -/

theorem trimLeftSpace_append_pad (pad s : Str) (h : ∀ c ∈ pad, isSpace c = true) :
    trimLeftSpace (pad ++ s) = trimLeftSpace s := by
  induction pad with
  | nil => rfl
  | cons c pad ih =>
    have hc := h c (List.mem_cons_self _ _)
    show List.dropWhile isSpace (c :: (pad ++ s)) = _
    rw [List.dropWhile_cons_of_pos hc]
    exact ih (fun d hd => h d (List.mem_cons_of_mem _ hd))

/-- White space before a line does not change what the scan does with it. -/
theorem parseStep_pad (st : ParseState) (pad s : Str) (h : ∀ c ∈ pad, isSpace c = true) :
    parseStep st (pad ++ s) = parseStep st s := by
  apply parseStep_congr
  unfold trimSpace
  rw [trimLeftSpace_append_pad pad s h]

/-- A line that does not start with `Source server:`, or holds no comma,
leaves the current server and database as they are. -/
theorem parseStep_server_of_other (st : ParseState) (raw : Str)
    (h : hasPrefix (trimSpace raw) "Source server:".toList = true → ',' ∉ raw) :
    (parseStep st raw).currentServer = st.currentServer ∧
    (parseStep st raw).currentDatabase = st.currentDatabase := by
  unfold parseStep
  by_cases h1 : hasPrefix (trimSpace raw) "Source server:".toList = true
  · have hc : ',' ∉ trimSpace raw := fun hm => h h1 (mem_of_mem_trimSpace hm)
    have hs : splitOn ',' (trimSpace raw) = [trimSpace raw] := by
      unfold splitOn
      rw [splitAux_of_not_mem ',' _ [] hc]
      rfl
    simp only [h1, if_true, hs, and_self]
  · simp only [h1, Bool.false_eq_true, if_false]
    repeat' split
    all_goals exact ⟨rfl, rfl⟩

theorem map_recordKey_saveView (st : ParseState) :
    (saveView st).map recordKey =
      st.views.map recordKey ++
        (if st.currentView.ViewName ≠ [] then [recordKey st.currentView] else []) := by
  unfold saveView
  split <;> simp [recordKey]

/-- What a plain entry adds to the records under way. -/
theorem map_recordKey_saveView_entry (st : ParseState) (e : Entry) (he : e.Plain)
    (rest : List Entry) :
    (saveView (parseStep st e.line)).map recordKey ++
        inheritedKeys ((parseStep st e.line).currentServer,
          (parseStep st e.line).currentDatabase) rest =
      (saveView st).map recordKey ++
        inheritedKeys (st.currentServer, st.currentDatabase) (e :: rest) := by
  cases e with
  | server pad H D =>
    obtain ⟨hpad, hH, hD, hD1, hD2⟩ := he
    have hstep : parseStep st (Entry.server pad H D).line =
        { st with currentServer := trimSpace H, currentDatabase := trimSpace D } := by
      show parseStep st (pad ++ _) = _
      rw [parseStep_pad st pad _ hpad, parseStep_server st H D hH hD,
        databaseField_of_firm D hD1 hD2]
    rw [hstep, map_recordKey_saveView, map_recordKey_saveView]
    rfl
  | view pad N =>
    have hpad : ∀ c ∈ pad, isSpace c = true := he
    have hstep : parseStep st (Entry.view pad N).line = _ :=
      (parseStep_pad st pad _ hpad).trans (parseStep_announcement st N)
    rw [hstep, map_recordKey_saveView]
    show (saveView st).map recordKey ++ (if trimSpace N ≠ [] then
        [recordKey ⟨st.currentDatabase, trimSpace N, [], [], st.currentServer⟩] else []) ++
      inheritedKeys (st.currentServer, st.currentDatabase) rest = _
    conv_rhs => unfold inheritedKeys
    by_cases hn : trimSpace N = []
    · simp [hn]
    · simp [hn, recordKey]
  | other raw =>
    obtain ⟨ha, hs⟩ := he
    obtain ⟨h1, h2⟩ := parseStep_server_of_other st raw hs
    obtain ⟨hv, hc⟩ := parseStep_views_of_not_announcement st raw ha
    show (saveView (parseStep st raw)).map recordKey ++
      inheritedKeys ((parseStep st raw).currentServer, (parseStep st raw).currentDatabase) rest = _
    rw [h1, h2, map_recordKey_saveView, map_recordKey_saveView, hv, hc]
    rfl

theorem map_recordKey_saveView_entries (entries : List Entry) (hp : ∀ e ∈ entries, e.Plain) :
    ∀ st : ParseState, (saveView ((entries.map Entry.line).foldl parseStep st)).map recordKey =
      (saveView st).map recordKey ++
        inheritedKeys (st.currentServer, st.currentDatabase) entries := by
  induction entries with
  | nil => intro st; simp [inheritedKeys]
  | cons e rest ih =>
    intro st
    rw [List.map_cons, List.foldl_cons, ih (fun x hx => hp x (List.mem_cons_of_mem _ hx)),
      map_recordKey_saveView_entry st e (hp e (List.mem_cons_self _ _)) rest]

theorem takeWhile_append_isPrefix {α : Type} (p : α → Bool) (l1 l2 : List α) :
    l1.takeWhile p <+: (l1 ++ l2).takeWhile p := by
  induction l1 with
  | nil => exact List.nil_prefix
  | cons a l1 ih =>
    by_cases h : p a = true
    · rw [List.cons_append, List.takeWhile_cons_of_pos h, List.takeWhile_cons_of_pos h]
      exact (List.prefix_cons_inj a).mpr ih
    · rw [List.cons_append, List.takeWhile_cons_of_neg h, List.takeWhile_cons_of_neg h]

/-- The records announced by the first entries of a transcript stay as they
are, whatever entries follow. -/
theorem inheritedKeys_isPrefix (es : List Entry) :
    ∀ (cur : Str × Str) (fs : List Entry), es <+: fs →
      inheritedKeys cur es <+: inheritedKeys cur fs := by
  induction es with
  | nil => intro cur fs _; exact List.nil_prefix
  | cons e es ih =>
    intro cur fs h
    obtain ⟨t, rfl⟩ := h
    have ht : es <+: es ++ t := List.prefix_append es t
    cases e with
    | server pad H D =>
      show inheritedKeys (trimSpace H, trimSpace D) es <+:
        inheritedKeys (trimSpace H, trimSpace D) (es ++ t)
      exact ih _ _ ht
    | view pad N =>
      show (if trimSpace N ≠ [] then (cur.1, cur.2, trimSpace N) :: inheritedKeys cur es
          else inheritedKeys cur es) <+:
        (if trimSpace N ≠ [] then (cur.1, cur.2, trimSpace N) :: inheritedKeys cur (es ++ t)
          else inheritedKeys cur (es ++ t))
      by_cases hn : trimSpace N ≠ []
      · rw [if_pos hn, if_pos hn]
        exact (List.prefix_cons_inj _).mpr (ih _ _ ht)
      · rw [if_neg hn, if_neg hn]
        exact ih _ _ ht
    | other raw =>
      show inheritedKeys cur es <+: inheritedKeys cur (es ++ t)
      exact ih _ _ ht

theorem matchesHere_take {K t : Str} (h : matchesHere K t = true) :
    matchesHere K (t.take K.length) = true := by
  induction K generalizing t with
  | nil => cases t <;> rfl
  | cons k ks ih =>
    cases t with
    | nil => simp [matchesHere] at h
    | cons c t =>
      rw [matchesHere, Bool.and_eq_true] at h
      show matchesHere (k :: ks) (c :: t.take ks.length) = true
      rw [matchesHere, h.1, ih h.2]
      rfl

theorem textBefore_append (a b : List Hit) : textBefore (a ++ b) = textBefore a ++ textBefore b := by
  induction a with
  | nil => rfl
  | cons o a ih => simp [textBefore, ih]

theorem segments_append (a b : List Hit) : segments (a ++ b) = segments a ++ segments b := by
  simp [segments]

/-- The pieces of a scan give the scanned text back when every keyword is
replaced by the text it matched. -/
theorem cut_origin (K : Str) (hK : K ≠ []) :
    ∀ (prev : Option Char) (t : Str), ∃ hits : List Hit,
      segments hits = (cut K 0 prev t).2 ∧ (∀ o ∈ hits, Respelled o) ∧
        t = (cut K 0 prev t).1 ++ textBefore hits := by
  apply scan_induction K hK
  · intro prev
    exact ⟨[], rfl, fun o h => by simp at h, rfl⟩
  · intro prev t hm ih
    obtain ⟨hits, h1, h2, h3⟩ := ih
    have hmh := kwMatchAt_matchesHere hm
    have hlen := matchesHere_length hmh
    refine ⟨⟨t.take K.length, K, (cut K 0 (t.take K.length).getLast? (t.drop K.length)).1⟩ :: hits,
      ?_, ?_, ?_⟩
    · rw [cut_hit K prev t hK hm]
      simp [segments] at h1 ⊢
      exact h1
    · intro o ho
      rcases List.mem_cons.mp ho with e | e
      · rw [e]
        exact ⟨matchesHere_take hmh, by simp [hlen]⟩
      · exact h2 o e
    · rw [cut_hit K prev t hK hm]
      show t = [] ++ (t.take K.length ++ _ ++ textBefore hits)
      rw [List.nil_append, List.append_assoc, ← h3, List.take_append_drop]
  · intro prev c t hm ih
    obtain ⟨hits, h1, h2, h3⟩ := ih
    refine ⟨hits, ?_, h2, ?_⟩
    · rw [cut_miss K prev c t hm]
      exact h1
    · rw [cut_miss K prev c t hm]
      show c :: t = c :: ((cut K 0 (some c) t).1 ++ textBefore hits)
      rw [← h3]

theorem flatMap_cutBody_origin (K : Str) (hK : K ≠ []) (hits : List Hit)
    (hv : ∀ o ∈ hits, Respelled o) :
    ∃ hits2 : List Hit, segments hits2 = (segments hits).flatMap (cutBody K) ∧
      (∀ o ∈ hits2, Respelled o) ∧ textBefore hits2 = textBefore hits := by
  induction hits with
  | nil => exact ⟨[], rfl, fun o h => by simp at h, rfl⟩
  | cons o rest ih =>
    obtain ⟨r2, g1, g2, g3⟩ := ih (fun o h => hv o (List.mem_cons_of_mem _ h))
    obtain ⟨hy, f1, f2, f3⟩ := cut_origin K hK (lastOr none o.keyword) o.after
    refine ⟨⟨o.matched, o.keyword, (cut K 0 (lastOr none o.keyword) o.after).1⟩ :: (hy ++ r2),
      ?_, ?_, ?_⟩
    · simp only [segments, List.map_cons, List.map_append, List.flatMap_cons, cutBody] at *
      rw [f1, g1]
      simp
    · intro q hq
      rcases List.mem_cons.mp hq with e | e
      · rw [e]
        exact hv o (List.mem_cons_self _ _)
      · rcases List.mem_append.mp e with e | e
        · exact f2 q e
        · exact g2 q e
    · show o.matched ++ _ ++ textBefore (hy ++ r2) = o.matched ++ o.after ++ textBefore rest
      rw [textBefore_append, g3]
      conv_rhs => rw [f3]
      simp

theorem origin_stage (K : Str) (hK : K ≠ []) (x : Str) (l : Layout) (h : Origin x l) :
    Origin x (stage K l) := by
  obtain ⟨hits, h1, h2, h3⟩ := h
  obtain ⟨ha, a1, a2, a3⟩ := cut_origin K hK none l.1
  obtain ⟨hb, b1, b2, b3⟩ := flatMap_cutBody_origin K hK hits h2
  refine ⟨ha ++ hb, ?_, ?_, ?_⟩
  · rw [segments_append, a1, b1, h1]
    rfl
  · intro o ho
    rcases List.mem_append.mp ho with e | e
    · exact a2 o e
    · exact b2 o e
  · rw [textBefore_append, b3, h3]
    conv_lhs => rw [a3]
    simp [stage]

theorem foldl_replaceKw_origin (x : Str) (todo : List Str) :
    ∀ (done : List Str), done ++ todo = keywords → ∀ l : Layout, Settled done x l →
      Origin x l →
      ∃ l2, todo.foldl (fun acc kw => replaceKw kw acc) (render l) = render l2 ∧
        Settled keywords x l2 ∧ Origin x l2 := by
  induction todo with
  | nil =>
    intro done hd l hl ho
    rw [List.append_nil] at hd
    subst hd
    exact ⟨l, rfl, hl, ho⟩
  | cons K todo ih =>
    intro done hd l hl ho
    have hK : K ∈ keywords := by rw [← hd]; simp
    have hplain := keywords_plain K hK
    have hnd : K ∉ done := by
      have := keywords_nodup
      rw [← hd] at this
      have := (List.nodup_append.mp this).2.2
      intro hin
      exact this hin (by simp)
    have hps : ∀ seg ∈ l.2, seg.1 ≠ [] ∧ noMay K none seg.1 = true ∧ wb seg.2.head? = false := by
      intro seg hs
      obtain ⟨g1, g2, g3, -, -⟩ := hl.2.2 seg hs
      refine ⟨liveKeywords_ne_nil _ g2, keywords_pass K hK _ g2 ?_, g3⟩
      intro he
      exact hnd (he ▸ g1)
    have hd2 : (done ++ [K]) ++ todo = keywords := by rw [← hd]; simp
    rw [List.foldl_cons, replaceKw_render K hplain l hps]
    by_cases hlj : K = "left join".toList
    · subst hlj
      obtain ⟨e1, e2⟩ := settled_leftJoin done x l (join_before_leftJoin done todo hd) hl
      rw [e1]
      exact ih _ hd2 l e2 ho
    · exact ih _ hd2 _ (settled_stage done x l K hplain ((liveKeywords_iff K hK).mpr hlj) hl)
        (origin_stage K (isPlain_ne_nil hplain) x l ho)

/-- The text after the keyword loop is the text of a layout that meets the
invariant for all keywords and comes from the scanned text. -/
theorem breakKeywords_origin (x : Str) :
    ∃ l : Layout, breakKeywords x = render l ∧ Settled keywords x l ∧ Origin x l := by
  have h0 : Settled [] x (x, []) := ⟨rfl, List.prefix_refl x, fun seg hs => by simp at hs⟩
  have o0 : Origin x (x, []) := ⟨[], rfl, fun o h => by simp at h, by simp [textBefore]⟩
  obtain ⟨l, h1, h2, h3⟩ := foldl_replaceKw_origin x keywords [] rfl (x, []) h0 o0
  refine ⟨l, ?_, h2, h3⟩
  rw [← h1]
  simp [breakKeywords, render, brkTail]

/-! ## White space removed -/

theorem stripSpace_append (a b : Str) : stripSpace (a ++ b) = stripSpace a ++ stripSpace b := by
  simp [stripSpace]

theorem stripSpace_cons_space (c : Char) (t : Str) (h : isSpace c = true) :
    stripSpace (c :: t) = stripSpace t := by
  simp [stripSpace, h]

theorem stripSpace_cons_other (c : Char) (t : Str) (h : isSpace c = false) :
    stripSpace (c :: t) = c :: stripSpace t := by
  simp [stripSpace, h]

theorem stripSpace_reverse (t : Str) : stripSpace t.reverse = (stripSpace t).reverse := by
  simp [stripSpace]

theorem stripSpace_trimLeftSpace (t : Str) : stripSpace (trimLeftSpace t) = stripSpace t := by
  induction t with
  | nil => rfl
  | cons c t ih =>
    by_cases hc : isSpace c = true
    · have : trimLeftSpace (c :: t) = trimLeftSpace t := by simp [trimLeftSpace, hc]
      rw [this, ih, stripSpace_cons_space c t hc]
    · have : trimLeftSpace (c :: t) = c :: t := by simp [trimLeftSpace, hc]
      rw [this]

theorem stripSpace_trimRightSpace (t : Str) : stripSpace (trimRightSpace t) = stripSpace t := by
  have h := stripSpace_trimLeftSpace t.reverse
  unfold trimRightSpace
  unfold trimLeftSpace at h
  rw [stripSpace_reverse, h, stripSpace_reverse, List.reverse_reverse]

theorem stripSpace_trimSpace (t : Str) : stripSpace (trimSpace t) = stripSpace t := by
  unfold trimSpace
  rw [stripSpace_trimRightSpace, stripSpace_trimLeftSpace]

theorem stripSpace_collapseWsAux (r : Bool) (t : Str) :
    stripSpace (collapseWsAux r t) = stripSpace t := by
  induction t generalizing r with
  | nil => rfl
  | cons c t ih =>
    rw [collapseWsAux_cons]
    by_cases hc : isReSpace c = true
    · have hs := isSpace_of_isReSpace hc
      cases r
      · simp only [hc, if_true, Bool.false_eq_true, if_false]
        rw [stripSpace_cons_space ' ' _ (by decide), ih, stripSpace_cons_space c t hs]
      · simp only [hc, if_true]
        rw [ih, stripSpace_cons_space c t hs]
    · simp only [hc, Bool.false_eq_true, if_false]
      by_cases hs : isSpace c = true
      · rw [stripSpace_cons_space c _ hs, ih, stripSpace_cons_space c t hs]
      · have hs2 : isSpace c = false := by simpa using hs
        rw [stripSpace_cons_other c _ hs2, ih, stripSpace_cons_other c t hs2]

theorem stripSpace_replicate_space (n : Nat) : stripSpace (List.replicate n ' ') = [] := by
  induction n with
  | zero => rfl
  | succ n ih => rw [List.replicate_succ, stripSpace_cons_space ' ' _ (by decide), ih]

theorem stripSpace_trimRightBlank (t : Str) : stripSpace (trimRightBlank t) = stripSpace t := by
  obtain ⟨n, hn⟩ := trimRightBlank_split t
  conv_rhs => rw [hn]
  rw [stripSpace_append, stripSpace_replicate_space, List.append_nil]

theorem stripSpace_padSep (first : Bool) (k : Str) : stripSpace (padSep [] first k) = [] := by
  cases first <;> simp [padSep, brk, stripSpace, isSpace]

theorem stripSpace_tailBy (hits : List Hit) (g : Str) :
    ∀ first : Bool,
      stripSpace (tailBy (padSep []) first (trimBodies (g, segments hits)).2) =
        stripSpace (textAfter hits) := by
  induction hits with
  | nil => intro first; rfl
  | cons o rest ih =>
    intro first
    have e : (trimBodies (g, segments (o :: rest))).2 =
        (o.keyword, trimRightBlank o.after) :: (trimBodies (g, segments rest)).2 := by
      simp [trimBodies, segments]
    rw [e]
    show stripSpace (padSep [] first o.keyword ++ o.keyword ++ trimRightBlank o.after ++
      tailBy (padSep []) false (trimBodies (g, segments rest)).2) =
      stripSpace (o.keyword ++ o.after ++ textAfter rest)
    simp only [stripSpace_append, stripSpace_padSep, stripSpace_trimRightBlank, ih false,
      List.nil_append]

theorem stripSpace_textBy (l : Layout) (hits : List Hit) (h : segments hits = l.2) :
    stripSpace (textBy (padSep []) (trimBodies l)) = stripSpace (l.1 ++ textAfter hits) := by
  obtain ⟨p, ps⟩ := l
  simp only at h
  subst h
  unfold textBy
  rw [stripSpace_append, stripSpace_tailBy hits p, stripSpace_append]
  show stripSpace (trimRightBlank p) ++ _ = _
  rw [stripSpace_trimRightBlank]

theorem ensureSemicolon_cases (t : Str) :
    ∃ tail : Str, (tail = [] ∨ tail = [';']) ∧ ensureSemicolon t = t ++ tail := by
  unfold ensureSemicolon
  split
  · exact ⟨[], Or.inl rfl, by simp⟩
  · exact ⟨[';'], Or.inr rfl, rfl⟩

theorem stripSpace_semicolon (t tail : Str) (h : tail = [] ∨ tail = [';']) :
    stripSpace (t ++ tail) = stripSpace t ++ tail := by
  rw [stripSpace_append]
  rcases h with h | h <;> (subst h; rfl)

/-- The result of `formatSQL` from the layout of the text after the keyword
loop. -/
theorem formatSQL_of_settled (s : Str) (hs : s ≠ []) (ht : trimSpace s ≠ []) (l : Layout)
    (hl : breakKeywords (collapseWs (trimSpace s)) = render l)
    (hset : Settled keywords (collapseWs (trimSpace s)) l) :
    formatSQL s = ensureSemicolon (textBy (padSep []) (trimBodies l)) := by
  obtain ⟨hf1, hf2⟩ := trimSpace_firm s
  obtain ⟨-, hx1, hx2⟩ := collapseWs_firm (trimSpace s) hf1 hf2 ht
  have hxs : spaced (collapseWs (trimSpace s)) = true := spaced_collapseWsAux false _
  have hcalm := calm_of_settled hset
  have hk : ∀ seg ∈ l.2, seg.1 ∈ liveKeywords := fun seg h => (hcalm.2 seg h).1
  have hp1 : startsFirm l.1 = true := startsFirm_of_isPrefix hset.2.1 hx1
  have hps : spaced l.1 = true := spaced_of_isInfix hset.2.1.isInfix hxs
  have hys : ∀ seg ∈ l.2, spaced seg.2 = true := fun seg h =>
    spaced_of_isInfix (hset.2.2 seg h).2.2.2.2 hxs
  have he : endsSolid (render l) = true := by
    rw [← hl]
    exact breakKeywords_endsSolid _ hx2
  unfold formatSQL
  rw [if_neg hs, hl, trimSpace_render l hp1 hk he,
    collapseBlank_textBy [] (by simp) l hps (fun seg h => ⟨hk seg h, hys seg h⟩),
    trimLines_textBy l hps hp1 (fun seg h => ⟨hk seg h, hys seg h⟩)]

/-! ## The positions of a marker -/

theorem occPos_cons (w : Str) (n : Nat) (c : Char) (s : Str) :
    occPos w n (c :: s) =
      (if w <+: c :: s then [n] else []) ++ occPos w (n + inkOf c) s := by
  simp only [occPos, List.isPrefixOf_iff_prefix]

theorem occPos_nil (w : Str) (hw : w ≠ []) (n : Nat) : occPos w n [] = [] := by
  cases w with
  | nil => exact absurd rfl hw
  | cons a w => rfl

theorem length_occPos (w : Str) (s : Str) : ∀ n, (occPos w n s).length = countOcc w s := by
  induction s with
  | nil =>
    intro n
    cases w <;> rfl
  | cons c s ih =>
    intro n
    rw [occPos_cons, countOcc_cons, List.length_append, ih]
    split <;> rfl

theorem occPos_of_absent (w s : Str) (h : ¬ w <:+: s) (n : Nat) : occPos w n s = [] := by
  apply List.eq_nil_of_length_eq_zero
  rw [length_occPos]
  exact (countOcc_eq_zero_iff w s).mpr h

theorem stripSpace_length_cons (c : Char) (s : Str) :
    (stripSpace (c :: s)).length = inkOf c + (stripSpace s).length := by
  unfold inkOf
  by_cases hc : isSpace c = true
  · rw [stripSpace_cons_space c s hc, if_pos hc, Nat.zero_add]
  · have hc2 : isSpace c = false := by simpa using hc
    rw [stripSpace_cons_other c s hc2, if_neg hc, List.length_cons, Nat.add_comm]

/-- An occurrence of the marker is listed with the number of characters
other than white space before it. -/
theorem mem_occPos (w : Str) (p q : Str) :
    ∀ n, n + (stripSpace p).length ∈ occPos w n (p ++ w ++ q) := by
  induction p with
  | nil =>
    intro n
    cases w with
    | nil =>
      cases q with
      | nil => simp [occPos, stripSpace]
      | cons c q => simp [occPos, stripSpace]
    | cons a w =>
      have hp : (a :: w) <+: a :: (w ++ q) := by simp
      show n + 0 ∈ occPos (a :: w) n (a :: (w ++ q))
      rw [occPos_cons, if_pos hp]
      simp
  | cons c p ih =>
    intro n
    have e : c :: p ++ w ++ q = c :: (p ++ w ++ q) := by simp
    rw [e, occPos_cons, stripSpace_length_cons, ← Nat.add_assoc]
    exact List.mem_append_right _ (ih _)

/-- A listed position is the position of an occurrence. -/
theorem exists_of_mem_occPos (w : Str) (s : Str) :
    ∀ n m, m ∈ occPos w n s → ∃ p q, s = p ++ w ++ q ∧ m = n + (stripSpace p).length := by
  induction s with
  | nil =>
    intro n m hm
    cases w with
    | nil =>
      simp only [occPos, List.isEmpty_nil, if_true, List.mem_singleton] at hm
      exact ⟨[], [], rfl, by simp [hm, stripSpace]⟩
    | cons a w => simp [occPos] at hm
  | cons c s ih =>
    intro n m hm
    rw [occPos_cons] at hm
    rcases List.mem_append.mp hm with h | h
    · split at h
      · rename_i hp
        obtain ⟨t, ht⟩ := hp
        simp only [List.mem_singleton] at h
        exact ⟨[], t, by simp [ht], by simp [h, stripSpace]⟩
      · simp at h
    · obtain ⟨p, q, hpq, hm2⟩ := ih _ _ h
      refine ⟨c :: p, q, by simp [hpq], ?_⟩
      rw [hm2, stripSpace_length_cons]
      omega

/-- With no occurrence starting inside `m` from the offset `e` on, the
occurrences in the rest of `m` followed by `y` are those of `y`. -/
theorem occPos_suffix_append {w m : Str} (start : Nat) (hi : NoInside w m start) (hw : w ≠ [])
    (y : Str) (e : Nat) (he : start ≤ e) (n : Nat) :
    occPos w n (m.drop e ++ y) = occPos w (n + (stripSpace (m.drop e)).length) y := by
  by_cases hlt : e < m.length
  · have hne : m.drop e ≠ [] := by
      intro h
      have := congrArg List.length h
      simp at this
      omega
    obtain ⟨c, r, hcr⟩ := List.exists_cons_of_ne_nil hne
    have hr : r = m.drop (e + 1) := by
      have := congrArg List.tail hcr
      simpa [List.tail_drop] using this.symm
    have hnp : ¬ w <+: c :: (r ++ y) := by
      intro h
      have : w <+: m.drop e ++ y := by rw [hcr]; simpa using h
      exact hi e hlt he (agree_of_prefix_append this)
    rw [hcr, List.cons_append, occPos_cons, if_neg hnp, List.nil_append, hr,
      occPos_suffix_append start hi hw y (e + 1) (by omega), stripSpace_length_cons,
      Nat.add_assoc]
  · rw [List.drop_eq_nil_of_le (by omega)]
    rfl
termination_by m.length - e

/-- The occurrences of a marker around a piece of text it can neither reach
into nor start inside of, unless it starts with the piece. -/
theorem occPos_append_mid {w m : Str} (hs : NoStraddle w m) (hi : NoInside w m 1)
    (hw : w ≠ []) (hm : m ≠ []) (x y : Str) :
    ∀ n, occPos w n (x ++ m ++ y) =
      occPos w n x ++ (if w <+: m ++ y then [n + (stripSpace x).length] else []) ++
        occPos w (n + (stripSpace x).length + (stripSpace m).length) y := by
  induction x with
  | nil =>
    intro n
    obtain ⟨c, r, rfl⟩ := List.exists_cons_of_ne_nil hm
    have h1 := occPos_suffix_append 1 hi hw y 1 (le_refl 1) (n + inkOf c)
    simp only [List.drop_succ_cons, List.drop_zero] at h1
    rw [List.nil_append, List.cons_append, occPos_cons, h1, occPos_nil w hw,
      stripSpace_length_cons]
    simp [stripSpace, Nat.add_assoc]
  | cons c x ih =>
    intro n
    have e : c :: x ++ m ++ y = c :: (x ++ m ++ y) := by simp
    rw [e, occPos_cons, occPos_cons, ih]
    have hiff : (w <+: c :: (x ++ (m ++ y))) ↔ (w <+: c :: x) :=
      prefix_append_iff_of_noStraddle hs (c :: x) y (by simp)
    simp only [stripSpace_length_cons, List.append_assoc, Nat.add_assoc, hiff]

/-- A piece of text the marker cannot touch splits its occurrences. -/
theorem occPos_append_gap {w m : Str} (hs : NoStraddle w m) (hi : NoInside w m 0)
    (hw : w ≠ []) (hm : m ≠ []) (x y : Str) (n : Nat) :
    occPos w n (x ++ m ++ y) =
      occPos w n x ++ occPos w (n + (stripSpace x).length + (stripSpace m).length) y := by
  have hi1 : NoInside w m 1 := fun e he _ => hi e he (Nat.zero_le e)
  rw [occPos_append_mid hs hi1 hw hm]
  have hnp : ¬ w <+: m ++ y := fun h =>
    hi 0 (List.length_pos.mpr hm) (le_refl 0) (by simpa using agree_of_prefix_append h)
  rw [if_neg hnp, List.append_nil]

/-- A character the marker does not end with adds no occurrence at the end
of a text. -/
theorem occPos_concat (w : Str) (c : Char) (hw : w ≠ []) (hl : w.getLast? ≠ some c) (s : Str) :
    ∀ n, occPos w n (s ++ [c]) = occPos w n s := by
  have key : ∀ t : Str, w <+: t ++ [c] ↔ w <+: t := by
    intro t
    constructor
    · intro h
      rcases prefix_append_cases h with h1 | ⟨h2, h3⟩
      · exact h1
      · exfalso
        have hle := h.length_le
        simp only [List.length_append, List.length_singleton] at hle
        obtain ⟨u, hu⟩ := h
        have hu0 : u = [] := by
          have := congrArg List.length hu
          simp only [List.length_append, List.length_singleton] at this
          exact List.length_eq_zero.mp (by omega)
        subst hu0
        rw [List.append_nil] at hu
        apply hl
        rw [hu]
        simp
    · intro h
      exact h.trans (List.prefix_append t _)
  induction s with
  | nil =>
    intro n
    rw [List.nil_append, occPos_cons, occPos_nil w hw, occPos_nil w hw]
    have := (key []).not.mpr (fun h => hw (List.prefix_nil.mp h))
    simp only [List.nil_append] at this
    rw [if_neg this]
    rfl
  | cons d s ih =>
    intro n
    rw [List.cons_append, occPos_cons, occPos_cons, ih]
    have := key (d :: s)
    simp only [List.cons_append] at this
    simp only [this]

theorem occPos_append_spaces (w : Str) (hw : w ≠ []) (hl : w.getLast? ≠ some ' ') (s : Str)
    (j : Nat) (n : Nat) : occPos w n (s ++ List.replicate j ' ') = occPos w n s := by
  induction j with
  | zero => simp
  | succ j ih =>
    rw [List.replicate_succ', ← List.append_assoc, occPos_concat w ' ' hw hl, ih]

theorem occPos_trimRightBlank (w : Str) (hw : w ≠ []) (hl : w.getLast? ≠ some ' ') (s : Str)
    (n : Nat) : occPos w n (trimRightBlank s) = occPos w n s := by
  obtain ⟨j, hj⟩ := trimRightBlank_split s
  conv_rhs => rw [hj]
  rw [occPos_append_spaces w hw hl]

/-! ## A marker and the matches of a keyword -/

theorem matchesHere_cons_cons (k0 : Char) (k : Str) (c : Char) (m : Str) :
    matchesHere (k0 :: k) (c :: m) = (foldMatch k0 c && matchesHere k m) := rfl

theorem fAgree_of_agree (u : Str) :
    ∀ (k m : Str), matchesHere k m = true → m.length = k.length → Agree u m →
      fAgree u k = true := by
  induction u with
  | nil => intro k m _ _ _; rfl
  | cons c u ih =>
    intro k m hm hlen h
    cases k with
    | nil => rfl
    | cons k0 k =>
      cases m with
      | nil => simp at hlen
      | cons c1 m =>
        rw [matchesHere_cons_cons, Bool.and_eq_true] at hm
        have hc : c = c1 ∧ Agree u m := by
          rcases h with h | h
          · rw [List.cons_prefix_cons] at h
            exact ⟨h.1, Or.inl h.2⟩
          · rw [List.cons_prefix_cons] at h
            exact ⟨h.1.symm, Or.inr h.2⟩
        show (foldMatch k0 c && fAgree u k) = true
        rw [hc.1, hm.1, ih k m hm.2 (by simpa using hlen) hc.2]
        rfl

theorem noStraddle_of_apart {w k m : Str} (ha : Apart w k) (hm : matchesHere k m = true)
    (hlen : m.length = k.length) : NoStraddle w m := by
  intro d hd hd0 hag
  have := fAgree_of_agree (w.drop d) k m hm hlen hag
  rw [ha.1 d hd hd0] at this
  cases this

theorem noInside_of_apart {w k m : Str} (ha : Apart w k) (hm : matchesHere k m = true)
    (hlen : m.length = k.length) : NoInside w m 1 := by
  intro e he he1 hag
  have h1 := fAgree_of_agree w (k.drop e) (m.drop e) (matchesHere_drop e hm)
    (by simp [hlen]) hag
  rw [ha.2.1 e (by omega) (by omega)] at h1
  cases h1

/-- A marker that starts with a match of a keyword is the keyword and the
matched text. -/
theorem eq_of_prefix_of_apart {w k m y : Str} (ha : Apart w k) (hm : matchesHere k m = true)
    (hlen : m.length = k.length) (h : w <+: m ++ y) : k = w ∧ m = w := by
  have hag : Agree w m := agree_of_prefix_append h
  have hk : k = w := ha.2.2 (fAgree_of_agree w k m hm hlen hag)
  refine ⟨hk, ?_⟩
  have hl : m.length = w.length := by rw [hlen, hk]
  rcases hag with h1 | h1
  · exact (h1.eq_of_length hl.symm).symm
  · exact h1.eq_of_length hl

theorem isSpace_of_isWordChar {c : Char} (h : isWordChar c = true) : isSpace c = false := by
  simp only [isWordChar, Bool.or_eq_true, Bool.and_eq_true, decide_eq_true_eq,
    char_le_iff_toNat] at h
  have e1 : 'a'.toNat = 97 := rfl
  have e2 : 'z'.toNat = 122 := rfl
  have e3 : 'A'.toNat = 65 := rfl
  have e4 : 'Z'.toNat = 90 := rfl
  have e5 : '0'.toNat = 48 := rfl
  have e6 : '9'.toNat = 57 := rfl
  rw [e1, e2, e3, e4, e5, e6] at h
  have hn : 48 ≤ c.toNat ∧ c.toNat ≤ 122 := by
    rcases h with ((h | h) | h) | h
    · omega
    · omega
    · omega
    · rw [h]; decide
  simp only [isSpace, Bool.or_eq_false_iff, Bool.and_eq_false_imp, decide_eq_true_eq,
    decide_eq_false_iff_not]
  omega

theorem inkOf_of_foldMatch {k c : Char} (hk : letterOrSpace k = true)
    (h : foldMatch k c = true) : inkOf c = inkOf k := by
  simp only [letterOrSpace, Bool.or_eq_true, Bool.and_eq_true, decide_eq_true_eq] at hk
  rcases hk with hk | ⟨hk1, hk2⟩
  · subst hk
    rw [eq_space_of_foldMatch h]
  · have hks : isSpace k = false := isSpace_of_isWordChar hk1
    have hcs : isSpace c = false := by
      simp only [foldMatch, Bool.or_eq_true, Bool.and_eq_true, decide_eq_true_eq] at h
      rcases h with ((h | h) | h) | h
      · rw [h]; exact hks
      · exact isSpace_of_isWordChar (isWordChar_of_asciiLower h hk2)
      · simp [isSpace, h.2]
      · simp [isSpace, h.2]
    simp [inkOf, hks, hcs]

/-- A matched text has as many characters other than white space as its
keyword. -/
theorem stripSpace_length_of_matchesHere (k : Str) :
    ∀ m : Str, (∀ c ∈ k, letterOrSpace c = true) → matchesHere k m = true →
      m.length = k.length → (stripSpace m).length = (stripSpace k).length := by
  induction k with
  | nil =>
    intro m _ _ hlen
    have : m = [] := List.length_eq_zero.mp hlen
    rw [this]
  | cons k0 k ih =>
    intro m hk hm hlen
    cases m with
    | nil => simp at hlen
    | cons c m =>
      rw [matchesHere_cons_cons, Bool.and_eq_true] at hm
      rw [stripSpace_length_cons, stripSpace_length_cons,
        inkOf_of_foldMatch (hk k0 (List.mem_cons_self _ _)) hm.1,
        ih m (fun d hd => hk d (List.mem_cons_of_mem _ hd)) hm.2 (by simpa using hlen)]

theorem liveKeywords_letters : ∀ k ∈ liveKeywords, ∀ c ∈ k, letterOrSpace c = true := by
  decide

theorem liveKeywords_apart_replace :
    ∀ k ∈ liveKeywords, Apart "CREATE OR REPLACE".toList k ∧ fAgree "CREATE OR REPLACE".toList k = false := by
  decide

theorem liveKeywords_apart_alter : ∀ k ∈ liveKeywords, Apart "ALTER".toList k := by
  decide

/-! ## The occurrences of a marker in a formatted statement -/

theorem stripSpace_brk : stripSpace brk = [] := by decide

/-- The occurrences of a marker around a keyword and the separator before
it. -/
theorem occPos_chunk (w : Str) (hw : Guarded w) (k : Str) (hk : k ∈ liveKeywords)
    (first : Bool) (x z : Str) (n : Nat) :
    occPos w n (x ++ (padSep [] first k ++ k ++ z)) =
      occPos w n x ++ (if w <+: k ++ z then [n + (stripSpace x).length] else []) ++
        occPos w (n + (stripSpace x).length + (stripSpace k).length) z := by
  obtain ⟨hw0, -, -, hbs, hbi, hap⟩ := hw
  have hkk := matchesHere_self k []
  rw [List.append_nil] at hkk
  have hs := noStraddle_of_apart (hap k hk) hkk rfl
  have hi := noInside_of_apart (hap k hk) hkk rfl
  have hk0 : k ≠ [] := liveKeywords_ne_nil k hk
  cases first with
  | true =>
    have e : x ++ (padSep [] true k ++ k ++ z) = x ++ k ++ z := by simp [padSep]
    rw [e, occPos_append_mid hs hi hw0 hk0]
  | false =>
    have e : x ++ (padSep [] false k ++ k ++ z) = (x ++ brk) ++ k ++ z := by simp [padSep]
    have e2 : occPos w n (x ++ brk) = occPos w n x := by
      have := occPos_append_gap hbs hbi hw0 (by decide) x [] n
      rw [List.append_nil, occPos_nil w hw0, List.append_nil] at this
      exact this
    rw [e, occPos_append_mid hs hi hw0 hk0, e2, stripSpace_append, stripSpace_brk,
      List.append_nil]

theorem trimBodies_segments_cons (g : Str) (o : Hit) (rest : List Hit) :
    (trimBodies (g, segments (o :: rest))).2 =
      (o.keyword, trimRightBlank o.after) :: (trimBodies (g, segments rest)).2 := by
  simp [trimBodies, segments]

/-- The occurrences of a guarded marker in the text before the replacements
are occurrences in the text after them, at the same positions; they are all
of them when the marker is no keyword. -/
theorem occPos_tail (w : Str) (hw : Guarded w) (g : Str) (hits : List Hit) :
    (∀ o ∈ hits, Respelled o ∧ o.keyword ∈ liveKeywords) →
    ∀ (first : Bool) (n : Nat) (x x' : Str), occPos w n x = occPos w n x' →
      (stripSpace x).length = (stripSpace x').length →
      List.Sublist (occPos w n (x ++ textBefore hits))
        (occPos w n (x' ++ tailBy (padSep []) first (trimBodies (g, segments hits)).2)) ∧
      ((∀ k ∈ liveKeywords, fAgree w k = false) →
        occPos w n (x ++ textBefore hits) =
          occPos w n (x' ++ tailBy (padSep []) first (trimBodies (g, segments hits)).2)) := by
  induction hits with
  | nil =>
    intro _ first n x x' hx _
    have e1 : x ++ textBefore [] = x := by simp [textBefore]
    have e2 : x' ++ tailBy (padSep []) first (trimBodies (g, segments [])).2 = x' := by
      simp [trimBodies, segments, tailBy]
    rw [e1, e2, hx]
    exact ⟨List.Sublist.refl _, fun _ => rfl⟩
  | cons o rest ih =>
    intro hh first n x x' hx hlen
    obtain ⟨⟨hm, hml⟩, hlive⟩ := hh o (List.mem_cons_self _ _)
    have hap := hw.2.2.2.2.2 o.keyword hlive
    have hw0 := hw.1
    have hm0 : o.matched ≠ [] := by
      intro h0
      have := liveKeywords_ne_nil o.keyword hlive
      rw [h0] at hml
      exact this (List.length_eq_zero.mp hml.symm)
    have hsl := stripSpace_length_of_matchesHere o.keyword o.matched
      (liveKeywords_letters o.keyword hlive) hm hml
    have ex : x ++ textBefore (o :: rest) = x ++ o.matched ++ (o.after ++ textBefore rest) := by
      simp [textBefore]
    have ef : x' ++ tailBy (padSep []) first (trimBodies (g, segments (o :: rest))).2 =
        x' ++ (padSep [] first o.keyword ++ o.keyword ++
          (trimRightBlank o.after ++ tailBy (padSep []) false (trimBodies (g, segments rest)).2)) := by
      rw [trimBodies_segments_cons]
      simp [tailBy]
    rw [ex, ef, occPos_append_mid (noStraddle_of_apart hap hm hml) (noInside_of_apart hap hm hml)
      hw0 hm0, occPos_chunk w hw o.keyword hlive, hx, hlen, hsl]
    obtain ⟨ih1, ih2⟩ := ih (fun o' ho' => hh o' (List.mem_cons_of_mem _ ho')) false
      (n + (stripSpace x').length + (stripSpace o.keyword).length) o.after
      (trimRightBlank o.after) (occPos_trimRightBlank w hw0 hw.2.1 o.after _).symm
      (by rw [stripSpace_trimRightBlank])
    constructor
    · refine List.Sublist.append (List.Sublist.append (List.Sublist.refl _) ?_) ih1
      by_cases hp : w <+: o.matched ++ (o.after ++ textBefore rest)
      · obtain ⟨hk, -⟩ := eq_of_prefix_of_apart hap hm hml hp
        rw [if_pos hp, if_pos (by rw [hk]; exact List.prefix_append _ _)]
      · rw [if_neg hp]
        exact List.nil_sublist _
    · intro hz
      have hz1 : ¬ w <+: o.matched ++ (o.after ++ textBefore rest) := by
        intro hp
        have := fAgree_of_agree w o.keyword o.matched hm hml (agree_of_prefix_append hp)
        rw [hz o.keyword hlive] at this
        cases this
      have hz2 : ¬ w <+: o.keyword ++
          (trimRightBlank o.after ++ tailBy (padSep []) false (trimBodies (g, segments rest)).2) := by
        intro hp
        have hkk := matchesHere_self o.keyword []
        rw [List.append_nil] at hkk
        have := fAgree_of_agree w o.keyword o.keyword hkk rfl (agree_of_prefix_append hp)
        rw [hz o.keyword hlive] at this
        cases this
      rw [if_neg hz1, if_neg hz2, ih2 hz]

/-- The occurrences of a guarded marker in a statement with its white space
collapsed are occurrences in the formatted statement, at the same positions;
they are all of them when the marker is no keyword. -/
theorem occPos_formatSQL (w : Str) (hw : Guarded w) (s : Str) (hs : s ≠ [])
    (ht : trimSpace s ≠ []) :
    List.Sublist (occPos w 0 (collapseWs (trimSpace s))) (occPos w 0 (formatSQL s)) ∧
    ((∀ k ∈ liveKeywords, fAgree w k = false) →
      occPos w 0 (formatSQL s) = occPos w 0 (collapseWs (trimSpace s))) := by
  obtain ⟨l, hl, hset, hits, h1, h2, h3⟩ := breakKeywords_origin (collapseWs (trimSpace s))
  obtain ⟨tail, htail, he⟩ := ensureSemicolon_cases (textBy (padSep []) (trimBodies l))
  have hF : occPos w 0 (formatSQL s) = occPos w 0 (textBy (padSep []) (trimBodies l)) := by
    rw [formatSQL_of_settled s hs ht l hl hset, he]
    rcases htail with e | e
    · rw [e, List.append_nil]
    · rw [e, occPos_concat w ';' hw.1 hw.2.2.1]
  have hh : ∀ o ∈ hits, Respelled o ∧ o.keyword ∈ liveKeywords := by
    intro o ho
    have hseg : (o.keyword, o.after) ∈ l.2 := by
      rw [← h1]
      exact List.mem_map_of_mem (fun o : Hit => (o.keyword, o.after)) ho
    exact ⟨h2 o ho, (hset.2.2 _ hseg).2.1⟩
  have hT : textBy (padSep []) (trimBodies l) =
      trimRightBlank l.1 ++ tailBy (padSep []) (decide (trimRightBlank l.1 = []))
        (trimBodies (l.1, segments hits)).2 := by
    rw [h1]
    rfl
  obtain ⟨r1, r2⟩ := occPos_tail w hw l.1 hits hh (decide (trimRightBlank l.1 = [])) 0 l.1
    (trimRightBlank l.1) (occPos_trimRightBlank w hw.1 hw.2.1 l.1 0).symm
    (by rw [stripSpace_trimRightBlank])
  rw [hF, hT, h3]
  exact ⟨r1, fun hz => (r2 hz).symm⟩

theorem guarded_replace : Guarded "CREATE OR REPLACE".toList := by decide

theorem guarded_alter : Guarded "ALTER".toList := by decide

/-! ## A marker in a statement with collapsed white space -/

/-- The white-space collapse of a text goes on after a first part in a state
that depends on that part alone. -/
theorem collapseWsAux_append (u : Str) :
    ∀ i : Bool, ∃ j : Bool, ∀ t : Str,
      collapseWsAux i (u ++ t) = collapseWsAux i u ++ collapseWsAux j t := by
  induction u with
  | nil => intro i; exact ⟨i, fun t => rfl⟩
  | cons c u ih =>
    intro i
    by_cases hc : isReSpace c = true
    · obtain ⟨j, hj⟩ := ih true
      refine ⟨j, fun t => ?_⟩
      rw [List.cons_append, collapseWsAux_cons, collapseWsAux_cons, hj t]
      cases i <;> simp [hc]
    · obtain ⟨j, hj⟩ := ih false
      refine ⟨j, fun t => ?_⟩
      rw [List.cons_append, collapseWsAux_cons, collapseWsAux_cons, hj t]
      simp [hc]

/-- A single-spaced word that starts and ends with no white space is kept by
the white-space collapse, wherever it stands. -/
theorem collapseWsAux_word (w : Str) (hw : w ≠ []) (h1 : spaced w = true)
    (h2 : (w.head?.map isReSpace).getD false = false) (h3 : endsFirm w = true)
    (u v : Str) (i : Bool) :
    collapseWsAux i (u ++ w ++ v) =
      collapseWsAux i u ++ w ++ collapseWsAux false v := by
  obtain ⟨j, hj⟩ := collapseWsAux_append u i
  rw [List.append_assoc, hj, collapseWsAux_append_firm w v hw h3 j,
    collapseWsAux_of_spaced w h1 j (fun _ => h2), List.append_assoc]

theorem trimLeftSpace_append_firm (u : Str) (c : Char) (t : Str) (hc : isSpace c = false) :
    trimLeftSpace (u ++ c :: t) = trimLeftSpace u ++ c :: t := by
  induction u with
  | nil => simp [trimLeftSpace, hc]
  | cons d u ih =>
    by_cases hd : isSpace d = true
    · have e1 : trimLeftSpace (d :: u ++ c :: t) = trimLeftSpace (u ++ c :: t) := by
        simp [trimLeftSpace, hd]
      have e2 : trimLeftSpace (d :: u) = trimLeftSpace u := by simp [trimLeftSpace, hd]
      rw [e1, e2, ih]
    · have e1 : trimLeftSpace (d :: u ++ c :: t) = d :: u ++ c :: t := by
        simp [trimLeftSpace, hd]
      have e2 : trimLeftSpace (d :: u) = d :: u := by simp [trimLeftSpace, hd]
      rw [e1, e2]

/-- The trimmed form of a text around a word that starts and ends with no
white space. -/
theorem trimSpace_word (w : Str) (hw : w ≠ []) (h1 : startsFirm w = true)
    (h2 : trimRightSpace w = w) (u v : Str) :
    trimSpace (u ++ w ++ v) = trimLeftSpace u ++ w ++ trimRightSpace v := by
  obtain ⟨c, t, rfl⟩ := List.exists_cons_of_ne_nil hw
  have hc : isSpace c = false := by simpa [startsFirm] using h1
  unfold trimSpace
  rw [List.append_assoc, List.cons_append, trimLeftSpace_append_firm u c _ hc]
  by_cases hv : trimRightSpace v = []
  · have e : trimLeftSpace u ++ c :: (t ++ v) = (trimLeftSpace u ++ c :: t) ++ v := by simp
    rw [e, trimRightSpace_append_of_nil _ v hv, hv,
      trimRightSpace_append_of_ne _ _ (by rw [h2]; simp), h2]
    simp
  · have e : trimLeftSpace u ++ c :: (t ++ v) = (trimLeftSpace u ++ c :: t) ++ v := by simp
    rw [e, trimRightSpace_append_of_ne _ v hv]

theorem collapseWsAux_firm_head (c : Char) (t : Str) (hc : isReSpace c = false) (i : Bool) :
    collapseWsAux i (c :: t) = collapseWsAux false (c :: t) := by
  rw [collapseWsAux_cons, collapseWsAux_cons]
  simp [hc]

theorem isReSpace_of_not_isSpace {c : Char} (h : isSpace c = false) : isReSpace c = false := by
  cases hr : isReSpace c with
  | false => rfl
  | true => rw [isSpace_of_isReSpace hr] at h; cases h

/-- The collapse of a text without its leading white space is the end of the
collapse of the text. -/
theorem collapseWsAux_trimLeftSpace (s : Str) :
    ∀ i : Bool, collapseWsAux false (trimLeftSpace s) <:+ collapseWsAux i s := by
  induction s with
  | nil => intro i; exact List.suffix_refl _
  | cons c s ih =>
    intro i
    by_cases hc : isSpace c = true
    · have e : trimLeftSpace (c :: s) = trimLeftSpace s := by simp [trimLeftSpace, hc]
      rw [e, collapseWsAux_cons]
      split
      · split
        · exact ih true
        · exact (ih true).trans (List.suffix_cons _ _)
      · exact (ih false).trans (List.suffix_cons _ _)
    · have hc2 : isSpace c = false := by simpa using hc
      have e : trimLeftSpace (c :: s) = c :: s := by simp [trimLeftSpace, hc]
      rw [e, collapseWsAux_firm_head c s (isReSpace_of_not_isSpace hc2) i]

/-- The collapse of a text without its trailing white space is the start of
the collapse of the text. -/
theorem collapseWsAux_trimRightSpace (s : Str) (i : Bool) :
    collapseWsAux i (trimRightSpace s) <+: collapseWsAux i s := by
  have hp : trimRightSpace s <+: s := by
    rw [trimRightSpace_eq_rdropWhile]
    exact List.rdropWhile_prefix _ _
  obtain ⟨t, ht⟩ := hp
  obtain ⟨j, hj⟩ := collapseWsAux_append (trimRightSpace s) i
  conv_rhs => rw [← ht, hj t]
  exact List.prefix_append _ _

/-- The substitution of `ALGORITHM = UNDEFINED` for `ALGORITHM = MERGE` adds
no `CREATE OR REPLACE` to the collapsed text and takes none away. -/
theorem countOcc_collapse_undefined (s : Str) (i : Bool) :
    countOcc "CREATE OR REPLACE".toList (collapseWsAux i
      (replaceFirst "ALGORITHM = MERGE".toList "ALGORITHM = UNDEFINED".toList s)) =
    countOcc "CREATE OR REPLACE".toList (collapseWsAux i s) := by
  by_cases h : "ALGORITHM = MERGE".toList <:+: s
  · obtain ⟨x, y, hxy, hr⟩ := replaceFirst_decomp "ALGORITHM = MERGE".toList
      "ALGORITHM = UNDEFINED".toList s (by decide) h
    rw [hr, hxy,
      collapseWsAux_word "ALGORITHM = UNDEFINED".toList (by decide) (by decide) (by decide)
        (by decide),
      collapseWsAux_word "ALGORITHM = MERGE".toList (by decide) (by decide) (by decide)
        (by decide),
      countOcc_append_mid (by decide) (by decide) (by decide),
      countOcc_append_mid (by decide) (by decide) (by decide)]
  · rw [replaceFirst_of_absent _ _ s h]

/-! ## C10: the rollback substitution is applied once -/

theorem trimRightSpace_word (w : Str) (hw : w ≠ []) (h2 : trimRightSpace w = w) (u v : Str) :
    trimRightSpace (u ++ w ++ v) = u ++ w ++ trimRightSpace v := by
  by_cases hv : trimRightSpace v = []
  · rw [trimRightSpace_append_of_nil _ v hv, hv,
      trimRightSpace_append_of_ne _ _ (by rw [h2]; exact hw), h2, List.append_nil]
  · rw [trimRightSpace_append_of_ne _ v hv]

/-- Of two occurrences in a text, the one that stands later, counted in the
characters other than white space, stands after the end of the other. -/
theorem infix_after_of_positions {F p w q p2 v q2 : Str} (c : Char) (t : Str)
    (h1 : F = p ++ w ++ q) (h2 : F = p2 ++ v ++ q2) (hw : w = t ++ [c])
    (hc : isSpace c = false)
    (hpos : (stripSpace (p ++ w)).length ≤ (stripSpace p2).length) : v <:+: q := by
  have hp1 : p ++ w <+: F := ⟨q, h1.symm⟩
  have hp2 : p2 <+: F := ⟨v ++ q2, by rw [h2]; simp⟩
  have hle : p ++ w <+: p2 := by
    rcases List.prefix_or_prefix_of_prefix hp1 hp2 with h | h
    · exact h
    · obtain ⟨r, hr⟩ := h
      rcases List.eq_nil_or_concat r with e | ⟨r', d, e⟩
      · subst e
        rw [List.append_nil] at hr
        rw [hr]
      · exfalso
        rw [List.concat_eq_append] at e
        subst e
        have hd : d = c := by
          have hl := congrArg List.getLast? hr
          rw [hw] at hl
          simp only [← List.append_assoc, List.getLast?_append, List.getLast?_singleton] at hl
          simpa using hl
        subst hd
        have hs := congrArg (fun z => (stripSpace z).length) hr
        simp only [stripSpace_append, List.length_append] at hs hpos
        have h1c : (stripSpace [d]).length = 1 := by
          rw [stripSpace_cons_other d [] hc]
          rfl
        omega
  obtain ⟨r, hr⟩ := hle
  refine ⟨r, q2, ?_⟩
  have : p ++ w ++ q = p ++ w ++ (r ++ v ++ q2) := by
    rw [← h1, h2, ← hr]
    simp
  exact (List.append_cancel_left this).symm

/-- The statement `formatUFile` hands to `formatSQL`, for a forward statement
cut at its first `ALTER`. -/
theorem rollbackSQL_of_split (view : ViewInfo) (a b : Str)
    (hsplit : view.AlterSQL = a ++ "ALTER".toList ++ b) (ha : ¬ "ALTER".toList <:+: a) :
    rollbackSQL view =
      (if "ALGORITHM = MERGE".toList <:+: a then
        replaceFirst "ALGORITHM = MERGE".toList "ALGORITHM = UNDEFINED".toList a ++
          "CREATE OR REPLACE".toList ++ b
       else a ++ "CREATE OR REPLACE".toList ++
          replaceFirst "ALGORITHM = MERGE".toList "ALGORITHM = UNDEFINED".toList b) := by
  have h1 : replaceFirst "ALTER".toList "CREATE OR REPLACE".toList view.AlterSQL =
      a ++ "CREATE OR REPLACE".toList ++ b := by
    rw [hsplit]
    exact replaceFirst_append_self _ (by decide) (by decide) a b ha
  unfold rollbackSQL
  rw [h1]
  exact replaceFirst_append_mid _ (by decide) (by decide) (by decide) a b

/-- The same statement as the text before the first `ALTER`, substituted,
the words `CREATE OR REPLACE`, and a text that still holds `ALTER` and whose
collapsed form holds no `CREATE OR REPLACE`. -/
theorem rollbackSQL_parts (view : ViewInfo) (a b : Str)
    (hsplit : view.AlterSQL = a ++ "ALTER".toList ++ b)
    (ha : ¬ "ALTER".toList <:+: a) (hb : "ALTER".toList <:+: b)
    (hc : ¬ "CREATE OR REPLACE".toList <:+: collapseWs view.AlterSQL) :
    ∃ b' : Str,
      rollbackSQL view =
        replaceFirst "ALGORITHM = MERGE".toList "ALGORITHM = UNDEFINED".toList a ++
          "CREATE OR REPLACE".toList ++ b' ∧
      "ALTER".toList <:+: b' ∧
      ¬ "CREATE OR REPLACE".toList <:+: collapseWsAux false
        (replaceFirst "ALGORITHM = MERGE".toList "ALGORITHM = UNDEFINED".toList a) ∧
      ¬ "CREATE OR REPLACE".toList <:+: collapseWsAux false b' := by
  have hx : collapseWs view.AlterSQL =
      collapseWsAux false a ++ "ALTER".toList ++ collapseWsAux false b := by
    rw [hsplit]
    exact collapseWsAux_word "ALTER".toList (by decide) (by decide) (by decide) (by decide)
      a b false
  have hca : ¬ "CREATE OR REPLACE".toList <:+: collapseWsAux false a := fun h =>
    hc (by
      rw [hx]
      exact h.trans ⟨[], "ALTER".toList ++ collapseWsAux false b, by simp⟩)
  have hcb : ¬ "CREATE OR REPLACE".toList <:+: collapseWsAux false b := fun h =>
    hc (by
      rw [hx]
      exact h.trans ⟨collapseWsAux false a ++ "ALTER".toList, [], by simp⟩)
  have hca' : ¬ "CREATE OR REPLACE".toList <:+: collapseWsAux false
      (replaceFirst "ALGORITHM = MERGE".toList "ALGORITHM = UNDEFINED".toList a) := by
    rw [← countOcc_eq_zero_iff, countOcc_collapse_undefined, countOcc_eq_zero_iff]
    exact hca
  have hr := rollbackSQL_of_split view a b hsplit ha
  by_cases hm : "ALGORITHM = MERGE".toList <:+: a
  · rw [if_pos hm] at hr
    exact ⟨b, hr, hb, hca', hcb⟩
  · rw [if_neg hm] at hr
    refine ⟨replaceFirst "ALGORITHM = MERGE".toList "ALGORITHM = UNDEFINED".toList b, ?_, ?_,
      hca', ?_⟩
    · rw [replaceFirst_of_absent _ _ a hm]
      exact hr
    · have h0 : countOcc "ALTER".toList
          (replaceFirst "ALGORITHM = MERGE".toList "ALGORITHM = UNDEFINED".toList b) ≠ 0 := by
        rw [countOcc_replaceFirst (by decide) (by decide) (by decide) (by decide) (by decide)
          (by decide)]
        exact fun h => (countOcc_eq_zero_iff _ b).mp h hb
      by_contra hn
      exact h0 ((countOcc_eq_zero_iff _ _).mpr hn)
    · rw [← countOcc_eq_zero_iff, countOcc_collapse_undefined, countOcc_eq_zero_iff]
      exact hcb

/-- C10 (amended): for every record whose forward statement is
`a ++ "ALTER" ++ b` with no `ALTER` in `a` and another `ALTER` in `b`, and
which holds no `CREATE OR REPLACE`, also not when its runs of white space are
collapsed to single spaces, the artifact of `formatUFile` is the comment
header, the formatted rollback statement, and a newline; the statement handed
to `formatSQL` is the forward statement with `CREATE OR REPLACE` in place of
the first `ALTER` and the first `ALGORITHM = MERGE` changed to
`ALGORITHM = UNDEFINED`; the formatted rollback statement holds
`CREATE OR REPLACE` exactly once, after as many characters other than white
space as stand before the first `ALTER` (in `a` after that change), and it
holds `ALTER` after it. -/
theorem formatUFile_rollback (view : ViewInfo) (a b : Str)
    (hsplit : view.AlterSQL = a ++ "ALTER".toList ++ b)
    (ha : ¬ "ALTER".toList <:+: a) (hb : "ALTER".toList <:+: b)
    (hc : ¬ "CREATE OR REPLACE".toList <:+: collapseWs view.AlterSQL) :
    formatUFile view = undoHeader view ++ formatSQL (rollbackSQL view) ++ ['\n'] ∧
    rollbackSQL view =
      (if "ALGORITHM = MERGE".toList <:+: a then
        replaceFirst "ALGORITHM = MERGE".toList "ALGORITHM = UNDEFINED".toList a ++
          "CREATE OR REPLACE".toList ++ b
       else a ++ "CREATE OR REPLACE".toList ++
          replaceFirst "ALGORITHM = MERGE".toList "ALGORITHM = UNDEFINED".toList b) ∧
    countOcc "CREATE OR REPLACE".toList (formatSQL (rollbackSQL view)) = 1 ∧
    ∃ p q : Str, formatSQL (rollbackSQL view) = p ++ "CREATE OR REPLACE".toList ++ q ∧
      (stripSpace p).length = (stripSpace
        (replaceFirst "ALGORITHM = MERGE".toList "ALGORITHM = UNDEFINED".toList a)).length ∧
      "ALTER".toList <:+: q := by
  refine ⟨by simp [formatUFile, undoHeader], rollbackSQL_of_split view a b hsplit ha, ?_⟩
  obtain ⟨b', hr, hb', hca, hcb⟩ := rollbackSQL_parts view a b hsplit ha hb hc
  generalize replaceFirst "ALGORITHM = MERGE".toList "ALGORITHM = UNDEFINED".toList a = a'
    at hr hca ⊢
  generalize rollbackSQL view = r at hr ⊢
  subst hr
  -- the statement with its white space collapsed
  have htrim : trimSpace (a' ++ "CREATE OR REPLACE".toList ++ b') =
      trimLeftSpace a' ++ "CREATE OR REPLACE".toList ++ trimRightSpace b' :=
    trimSpace_word _ (by decide) (by decide) (by decide) a' b'
  have hx : collapseWs (trimSpace (a' ++ "CREATE OR REPLACE".toList ++ b')) =
      collapseWsAux false (trimLeftSpace a') ++ "CREATE OR REPLACE".toList ++
        collapseWsAux false (trimRightSpace b') := by
    rw [htrim]
    exact collapseWsAux_word _ (by decide) (by decide) (by decide) (by decide) _ _ false
  have hA : ¬ "CREATE OR REPLACE".toList <:+: collapseWsAux false (trimLeftSpace a') :=
    fun h => hca (h.trans (collapseWsAux_trimLeftSpace a' false).isInfix)
  have hB : ¬ "CREATE OR REPLACE".toList <:+: collapseWsAux false (trimRightSpace b') :=
    fun h => hcb (h.trans (collapseWsAux_trimRightSpace b' false).isInfix)
  have hlenA : (stripSpace (collapseWsAux false (trimLeftSpace a'))).length =
      (stripSpace a').length := by
    rw [stripSpace_collapseWsAux, stripSpace_trimLeftSpace]
  have hpos : occPos "CREATE OR REPLACE".toList 0
      (collapseWs (trimSpace (a' ++ "CREATE OR REPLACE".toList ++ b'))) =
      [(stripSpace a').length] := by
    rw [hx, occPos_append_mid (by decide) (by decide) (by decide) (by decide),
      occPos_of_absent _ _ hA, occPos_of_absent _ _ hB, if_pos (List.prefix_append _ _), hlenA]
    simp
  obtain ⟨u, v, huv⟩ := hb'
  have hB2 : collapseWsAux false (trimRightSpace b') =
      collapseWsAux false u ++ "ALTER".toList ++ collapseWsAux false (trimRightSpace v) := by
    rw [← huv, trimRightSpace_word _ (by decide) (by decide)]
    exact collapseWsAux_word _ (by decide) (by decide) (by decide) (by decide) _ _ false
  have hposA : (stripSpace (collapseWsAux false (trimLeftSpace a') ++
      "CREATE OR REPLACE".toList ++ collapseWsAux false u)).length ∈
      occPos "ALTER".toList 0
        (collapseWs (trimSpace (a' ++ "CREATE OR REPLACE".toList ++ b'))) := by
    have := mem_occPos "ALTER".toList (collapseWsAux false (trimLeftSpace a') ++
      "CREATE OR REPLACE".toList ++ collapseWsAux false u)
      (collapseWsAux false (trimRightSpace v)) 0
    rw [Nat.zero_add] at this
    rw [hx, hB2]
    simpa [List.append_assoc] using this
  -- the formatted statement
  have hs : a' ++ "CREATE OR REPLACE".toList ++ b' ≠ [] := by simp
  have ht : trimSpace (a' ++ "CREATE OR REPLACE".toList ++ b') ≠ [] := by
    rw [htrim]; simp
  have hF1 := (occPos_formatSQL _ guarded_replace _ hs ht).2
    (fun k hk => (liveKeywords_apart_replace k hk).2)
  rw [hpos] at hF1
  have hF2 := (occPos_formatSQL _ guarded_alter _ hs ht).1.subset hposA
  have hcount : countOcc "CREATE OR REPLACE".toList
      (formatSQL (a' ++ "CREATE OR REPLACE".toList ++ b')) = 1 := by
    rw [← length_occPos _ _ 0, hF1]
    rfl
  refine ⟨hcount, ?_⟩
  obtain ⟨p, q, hpq, hp⟩ := exists_of_mem_occPos _ _ 0 (stripSpace a').length
    (by rw [hF1]; simp)
  obtain ⟨p2, q2, hpq2, hp2⟩ := exists_of_mem_occPos _ _ 0 _ hF2
  rw [Nat.zero_add] at hp hp2
  refine ⟨p, q, hpq, hp.symm, ?_⟩
  apply infix_after_of_positions 'E' "CREATE OR REPLAC".toList hpq hpq2 rfl (by decide)
  rw [← hp2]
  simp only [stripSpace_append, List.length_append, hlenA]
  omega

/-- C10, witness: the statement composed for the target `MERGE` of a view
whose body holds the word `ALTER`. -/
theorem formatUFile_rollback_witness :
    (¬ "ALTER".toList <:+: ([] : Str) ∧
      "ALTER".toList <:+: " ALGORITHM = MERGE VIEW `x` AS SELECT 'ALTER' AS c".toList ∧
      ¬ "CREATE OR REPLACE".toList <:+:
        collapseWs "ALTER ALGORITHM = MERGE VIEW `x` AS SELECT 'ALTER' AS c".toList) ∧
    formatSQL (rollbackSQL ⟨"sales".toList, "x".toList, [],
        "ALTER ALGORITHM = MERGE VIEW `x` AS SELECT 'ALTER' AS c".toList, "host1".toList⟩) =
      ("CREATE OR REPLACE\n    ALGORITHM = UNDEFINED\n    VIEW `x`\n" ++
       "    AS select '\n    ALTER' AS c;").toList ∧
    countOcc "CREATE OR REPLACE".toList (formatSQL (rollbackSQL ⟨"sales".toList, "x".toList, [],
        "ALTER ALGORITHM = MERGE VIEW `x` AS SELECT 'ALTER' AS c".toList, "host1".toList⟩)) = 1 :=
  ⟨by decide, by decide,
   (formatUFile_rollback ⟨"sales".toList, "x".toList, [],
      "ALTER ALGORITHM = MERGE VIEW `x` AS SELECT 'ALTER' AS c".toList, "host1".toList⟩ []
      " ALGORITHM = MERGE VIEW `x` AS SELECT 'ALTER' AS c".toList rfl (by decide) (by decide)
      (by decide)).2.2.1⟩

/-- C10, counterexample: the forward statement holds `ALTER` twice and no
`CREATE OR REPLACE`, but the words `CREATE  OR REPLACE` two spaces apart; the
formatted rollback statement holds `CREATE OR REPLACE` twice. -/
theorem formatUFile_rollback_counterexample :
    countOcc "ALTER".toList
      "ALTER VIEW `x` AS SELECT 'ALTER', 'CREATE  OR REPLACE'".toList = 2 ∧
    countOcc "CREATE OR REPLACE".toList
      "ALTER VIEW `x` AS SELECT 'ALTER', 'CREATE  OR REPLACE'".toList = 0 ∧
    formatSQL (rollbackSQL ⟨"sales".toList, "x".toList, [],
        "ALTER VIEW `x` AS SELECT 'ALTER', 'CREATE  OR REPLACE'".toList, "host1".toList⟩) =
      ("CREATE OR REPLACE\n    VIEW `x`\n    AS select '\n    ALTER', " ++
       "'CREATE OR REPLACE';").toList ∧
    countOcc "CREATE OR REPLACE".toList (formatSQL (rollbackSQL ⟨"sales".toList, "x".toList, [],
        "ALTER VIEW `x` AS SELECT 'ALTER', 'CREATE  OR REPLACE'".toList, "host1".toList⟩)) = 2 := by
  decide

/-! ## C15: what `formatSQL` changes -/

/-- What `formatSQL` keeps of a non-empty statement `s`: there are a text `p`
and a list of replaced matches such that, white space removed, `s` is `p`
followed by the matched texts, each with the text after it, and `formatSQL s`
is `p` followed by the keywords of the list in place of the matched texts,
each with the same text after it, and then by nothing or by one `;`.  Every
matched text has the length of its keyword and is matched by it. -/
theorem formatSQL_letters (s : Str) (hs : s ≠ []) :
    ∃ (p : Str) (hits : List Hit) (tail : Str),
      (∀ o ∈ hits, o.keyword ∈ keywords ∧ Respelled o) ∧
      (tail = [] ∨ tail = [';']) ∧
      stripSpace s = stripSpace (p ++ textBefore hits) ∧
      stripSpace (formatSQL s) = stripSpace (p ++ textAfter hits) ++ tail := by
  by_cases ht : trimSpace s = []
  · refine ⟨[], [], [';'], fun o h => by simp at h, Or.inr rfl, ?_, ?_⟩
    · rw [← stripSpace_trimSpace, ht]
      rfl
    · unfold formatSQL
      rw [if_neg hs, ht]
      decide
  · obtain ⟨l, hl, hset, hits, h1, h2, h3⟩ := breakKeywords_origin (collapseWs (trimSpace s))
    obtain ⟨tail, htail, he⟩ := ensureSemicolon_cases (textBy (padSep []) (trimBodies l))
    refine ⟨l.1, hits, tail, ?_, htail, ?_, ?_⟩
    · intro o ho
      have hseg : (o.keyword, o.after) ∈ l.2 := by
        rw [← h1]
        exact List.mem_map_of_mem (fun o : Hit => (o.keyword, o.after)) ho
      exact ⟨(hset.2.2 _ hseg).1, h2 o ho⟩
    · rw [← h3]
      unfold collapseWs
      rw [stripSpace_collapseWsAux, stripSpace_trimSpace]
    · rw [formatSQL_of_settled s hs ht l hl hset, he, stripSpace_semicolon _ _ htail,
        stripSpace_textBy l hits h1]

/-- C15, the code at the failing input: the word `From` inside a string
literal is a match of the keyword `from`; it is replaced by a line break and
the keyword as the list spells it, so the literal of the result is not the
literal of the input, and with white space removed the result is neither the
input nor the input with a semicolon.  The same happens to the quoted
identifier `Where`. -/
theorem formatSQL_respells_literal :
    (formatSQL "select 'From' from t".toList = "select '\n    from'\n    from t;".toList ∧
      stripSpace "select 'From' from t".toList = "select'From'fromt".toList ∧
      stripSpace (formatSQL "select 'From' from t".toList) = "select'from'fromt;".toList ∧
      stripSpace (formatSQL "select 'From' from t".toList) ≠
        stripSpace "select 'From' from t".toList ∧
      stripSpace (formatSQL "select 'From' from t".toList) ≠
        stripSpace "select 'From' from t".toList ++ [';']) ∧
    (formatSQL "ALTER VIEW `Where` AS SELECT 1".toList =
        "ALTER\n    VIEW `\n    where`\n    AS select 1;".toList ∧
      stripSpace (formatSQL "ALTER VIEW `Where` AS SELECT 1".toList) ≠
        stripSpace "ALTER VIEW `Where` AS SELECT 1".toList ++ [';']) := by
  decide

end GoPvt
